import Mathlib

/-!
Verification development for the axiolotl inference core
(`src/public/lib/axiolotl-inference.js`, with string/term helpers from
`src/public/lib/comunica-indexeddb-bridge.js`).

The JavaScript data model is embedded shallowly:

* RDF/JS and rdflib terms become the inductive `Term` (named node, blank
  node, literal with optional language tag and optional datatype IRI).
* rdflib `Statement` / N3 quad becomes `Stmt` (subject, predicate, object,
  optional named-graph context `why`).  The rdflib dedup key
  `Statement.toNT()` serializes only subject, predicate and object and
  ignores the context, which `Stmt.toNT` mirrors (literal escaping is not
  modelled; it does not matter for any claim).
* JS `Map`s keyed by strings become association lists with unique keys,
  JS `Set`s become lists with add-if-absent insertion, both preserving
  insertion order like their JS counterparts.  rdflib graphs and N3
  stores become statement lists; `N3.Store.addQuad` adds a quad only if
  it is not already present, which `addQuadDedup` mirrors.
* The external Comunica evaluator is an opaque parameter
  `E : String → List Stmt → Except String (List Stmt)` taking the SPARQL
  query text and the current RDF/JS store snapshot, and either returning
  constructed statements or failing; `Except.error` models a rejected
  promise/thrown error, which the `do`-notation propagates exactly like
  JS `await` does.
* The unbounded `while` loops (`processQueues` and the outer
  `while (changed)`) take explicit fuel and return `none` when the fuel
  runs out, so that termination statements become statements about
  sufficient fuel.
-/

namespace Axiolotl

/-- RDF term: named node, blank node, or literal with optional language
tag and optional datatype IRI. -/
inductive Term where
  | namedNode (value : String)
  | blankNode (value : String)
  | literal (value : String) (language : Option String) (datatype : Option String)
deriving DecidableEq

/-- The `.value` accessor shared by all rdflib / RDF-JS terms. -/
def Term.value : Term → String
  | .namedNode v => v
  | .blankNode v => v
  | .literal v _ _ => v

/-- The `.termType` string tag of rdflib / RDF-JS terms. -/
def Term.termType : Term → String
  | .namedNode _ => "NamedNode"
  | .blankNode _ => "BlankNode"
  | .literal _ _ _ => "Literal"

/-- Language tag of a literal (`.language` / `.lang`), `none` otherwise. -/
def Term.langOf : Term → Option String
  | .literal _ l _ => l
  | _ => none

/-- Datatype IRI of a literal (`.datatype.value`), `none` otherwise. -/
def Term.datatypeOf : Term → Option String
  | .literal _ _ d => d
  | _ => none

/-- N-Triples serialization of a term, as rdflib's `Term.toNT()` renders
it: `<iri>`, `_:id`, or a quoted literal followed by `@lang` or
`^^<datatype>`. -/
def Term.toNT : Term → String
  | .namedNode v => "<" ++ v ++ ">"
  | .blankNode v => "_:" ++ v
  | .literal v lang dt =>
      "\"" ++ v ++ "\"" ++
        (match lang with
          | some l => "@" ++ l
          | none =>
            match dt with
              | some d => "^^<" ++ d ++ ">"
              | none => "")

/-- A statement: rdflib `Statement` or N3 quad.  `why` is the optional
named-graph context (`none` = default graph). -/
structure Stmt where
  subject : Term
  predicate : Term
  object : Term
  why : Option String := none
deriving DecidableEq

/-- rdflib `Statement.toNT()`: subject, predicate and object separated by
single spaces, ending in ` .`.  The context `why` is not serialized, so
the dedup key is context-independent. -/
def Stmt.toNT (s : Stmt) : String :=
  s.subject.toNT ++ " " ++ s.predicate.toNT ++ " " ++ s.object.toNT ++ " ."

/-- Two statements agree on subject, predicate and object (contexts may
differ). -/
def sameSPO (a b : Stmt) : Prop :=
  a.subject = b.subject ∧ a.predicate = b.predicate ∧ a.object = b.object

instance (a b : Stmt) : Decidable (sameSPO a b) := by
  unfold sameSPO; infer_instance

/-! ### TBox IRIs (constants from the source) -/

def RDFS_SC : String := "http://www.w3.org/2000/01/rdf-schema#subClassOf"

def RDFS_SP : String := "http://www.w3.org/2000/01/rdf-schema#subPropertyOf"

def OWL_INV : String := "http://www.w3.org/2002/07/owl#inverseOf"

def OWL_SYM : String := "http://www.w3.org/2002/07/owl#SymmetricProperty"

def OWL_TRANS : String := "http://www.w3.org/2002/07/owl#TransitiveProperty"

def RDFS_DOMAIN : String := "http://www.w3.org/2000/01/rdf-schema#domain"

def RDFS_RANGE : String := "http://www.w3.org/2000/01/rdf-schema#range"

def RDF_TYPE : String := "http://www.w3.org/1999/02/22-rdf-syntax-ns#type"

/-! ### String helpers from `comunica-indexeddb-bridge.js` -/

/-- Character-list trim: drop leading and trailing whitespace, as JS
`String.prototype.trim` does. -/
def trimData (l : List Char) : List Char :=
  ((l.dropWhile Char.isWhitespace).reverse.dropWhile Char.isWhitespace).reverse

/-- Case-insensitive prefix test against an (already lowercase) pattern,
as used by the `/i` regexes of `isAbsoluteIri`. -/
def startsWithCI (pre s : String) : Bool :=
  pre.data.isPrefixOf (s.data.map Char.toLower)

/-- `isAbsoluteIri` from the bridge: nonempty, no whitespace, and starting
with one of the recognized hierarchical (`scheme://`) or
non-hierarchical (`scheme:`) prefixes, case-insensitively. -/
def isAbsoluteIri (s : String) : Bool :=
  if s.data.length = 0 then false
  else if s.data.any Char.isWhitespace then false
  else if ["http://", "https://", "ws://", "wss://", "ftp://", "file://"].any
      (fun p => startsWithCI p s) then true
  else if ["urn:", "tag:", "mailto:", "data:", "ipfs:", "ipns:"].any
      (fun p => startsWithCI p s) then true
  else false

/-- `normalizeIriString` from the bridge: trim, and strip one layer of
surrounding angle brackets (trimming again inside them). -/
def normalizeIriString (s : String) : String :=
  let t := trimData s.data
  if 2 ≤ t.length ∧ t.head? = some '<' ∧ t.getLast? = some '>' then
    String.mk (trimData ((t.drop 1).dropLast))
  else String.mk t

/-- `looksLikeBnodeId` from the bridge: `_:` or `_g_` prefix, or a single
ASCII letter followed by one or more digits. -/
def looksLikeBnodeId (v : String) : Bool :=
  v.startsWith "_:" || v.startsWith "_g_" ||
    (match v.data with
      | c :: rest => c.isAlpha && !rest.isEmpty && rest.all Char.isDigit
      | [] => false)

/-- The bnode-id cleanup `String(v).replace(/^_:/,'').replace(/^_g_/,'')`
applied by the bridge conversions. -/
def stripBnode (v : String) : String :=
  let v1 := if v.startsWith "_:" then v.drop 2 else v
  if v1.startsWith "_g_" then v1.drop 3 else v1

/-- JS truthiness for optional strings: the empty string is falsy, so
`x || undefined` maps `some ""` to `none`. -/
def strOpt : Option String → Option String
  | some l => if l = "" then none else some l
  | none => none

/-! ### JS `Map`/`Set` embedding -/

/-- `Set.add`: append if absent, preserving insertion order. -/
def setAdd (l : List String) (x : String) : List String :=
  if x ∈ l then l else l ++ [x]

/-- `Map.get` on a string-keyed map embedded as an association list. -/
def lookupMap (M : List (String × List String)) (k : String) : Option (List String) :=
  match M with
  | [] => none
  | (a, v) :: rest => if a = k then some v else lookupMap rest k

/-- The `if (!M.has(a)) M.set(a, new Set()); M.get(a).add(b)` idiom:
insert `b` into the set stored at key `a`, creating the key (at the end,
in insertion order) if needed. -/
def mapAdd (M : List (String × List String)) (a b : String) :
    List (String × List String) :=
  match M with
  | [] => [(a, [b])]
  | (k, v) :: rest =>
      if k = a then (k, setAdd v b) :: rest else (k, v) :: mapAdd rest a b

/-- Keys of an embedded map, in insertion order. -/
def mapKeys (M : List (String × List String)) : List String :=
  M.map Prod.fst

/-- `M.set(k, new Set())` when the key is missing, otherwise no-op. -/
def mapEnsure (M : List (String × List String)) (k : String) :
    List (String × List String) :=
  if (lookupMap M k).isSome then M else M ++ [(k, [])]

/-- `M.get(k).add(v)` on an existing key (no-op when the key is
missing; the source always ensures the key first). -/
def mapAddVal (M : List (String × List String)) (k v : String) :
    List (String × List String) :=
  match M with
  | [] => []
  | (a, s) :: rest =>
      if a = k then (a, setAdd s v) :: rest else (a, s) :: mapAddVal rest k v

/-- `mapFromQuads(store, predIRI)` (lines 23-31): adjacency map over all
graphs, from the subjects of `predIRI`-statements to the set of their
objects (`q.subject.value → Set of q.object.value`). -/
def mapFromQuads (store : List Stmt) (predIRI : String) :
    List (String × List String) :=
  (store.filter (fun q => decide (q.predicate = Term.namedNode predIRI))).foldl
    (fun M q => mapAdd M q.subject.value q.object.value) []

/-! ### `transitiveClosure` (lines 34-49) -/

/-- Number of map keys not yet locally seen; the primary termination
measure of the closure DFS. -/
def unseenKeyCount (edges : List (String × List String)) (seenLocal : List String) : Nat :=
  ((mapKeys edges).filter (fun k => decide (k ∉ seenLocal))).length

/-- The iterative DFS inside `transitiveClosure`: pop from the stack,
skip locally-seen nodes, otherwise mark the node seen and push its
direct parents.  The JS array pops from the end; here the list head is
the stack top, so pushed parent sets are reversed to preserve the pop
order.  Termination: the pair (number of unseen map keys, stack length)
decreases lexicographically — this is exactly how the per-child
"locally seen" set of the source guarantees termination on cycles. -/
def closureDFS (edges : List (String × List String)) :
    List String → List String → List String
  | [], seenLocal => seenLocal
  | p :: rest, seenLocal =>
      if hseen : p ∈ seenLocal then closureDFS edges rest seenLocal
      else
        match hlook : lookupMap edges p with
        | some pp => closureDFS edges (pp.reverse ++ rest) (p :: seenLocal)
        | none => closureDFS edges rest (p :: seenLocal)
termination_by stack seenLocal => (unseenKeyCount edges seenLocal, stack.length)
decreasing_by
  · exact Prod.Lex.right _ (by simp)
  · apply Prod.Lex.left
    have hkey : p ∈ mapKeys edges := by
      clear hseen
      induction edges with
      | nil => simp [lookupMap] at hlook
      | cons hd tl ih =>
          simp only [lookupMap] at hlook
          by_cases hk : hd.1 = p
          · simp [mapKeys, hk]
          · rw [if_neg hk] at hlook
            simp only [mapKeys, List.map_cons, List.mem_cons]
            exact Or.inr (ih hlook)
    unfold unseenKeyCount
    have hsub : List.Sublist
        ((mapKeys edges).filter (fun k => decide (k ∉ p :: seenLocal)))
        ((mapKeys edges).filter (fun k => decide (k ∉ seenLocal))) := by
      apply List.monotone_filter_right
      intro x hx
      simp only [decide_eq_true_eq, List.mem_cons] at hx ⊢
      exact fun h => hx (Or.inr h)
    apply Nat.lt_of_le_of_ne (List.Sublist.length_le hsub)
    intro hlen
    have heq := List.Sublist.eq_of_length hsub hlen
    have hpmem : p ∈ (mapKeys edges).filter (fun k => decide (k ∉ seenLocal)) := by
      simp [List.mem_filter, hkey, hseen]
    rw [← heq] at hpmem
    simp [List.mem_filter] at hpmem
  · have hkey : p ∉ mapKeys edges := by
      clear hseen
      induction edges with
      | nil => simp [mapKeys]
      | cons hd tl ih =>
          simp only [lookupMap] at hlook
          by_cases hk : hd.1 = p
          · rw [if_pos hk] at hlook; cases hlook
          · rw [if_neg hk] at hlook
            simp only [mapKeys, List.map_cons, List.mem_cons, not_or]
            exact ⟨fun he => hk he.symm, ih hlook⟩
    have hcount : unseenKeyCount edges (p :: seenLocal) = unseenKeyCount edges seenLocal := by
      unfold unseenKeyCount
      congr 1
      apply List.filter_congr
      intro x hx
      have hxp : x ≠ p := fun h => hkey (h ▸ hx)
      simp [List.mem_cons, hxp]
    rw [hcount]
    exact Prod.Lex.right _ (by simp)

/-- `transitiveClosure(edges)` (lines 34-49): for each `(child, parents)`
entry, run the guarded DFS from the direct parents; the resulting
locally-seen set is the closure of the child. -/
def transitiveClosure (edges : List (String × List String)) :
    List (String × List String) :=
  edges.map (fun ce => (ce.1, closureDFS edges ce.2.reverse []))

/-- Convenience: look a key up in a closure/edge map and default to the
empty set, mirroring `edges.get(p)` followed by the `if (pp)` guard. -/
def closureGet (M : List (String × List String)) (k : String) : List String :=
  (lookupMap M k).getD []

/-- One directed edge of the hierarchy: `b` is a direct parent of `a`. -/
def edgeStep (edges : List (String × List String)) (a b : String) : Prop :=
  b ∈ closureGet edges a

/-- Reachability along one or more direct edges. -/
def Reaches (edges : List (String × List String)) : String → String → Prop :=
  Relation.TransGen (edgeStep edges)

/-! ### TBox indices (lines 95-125) -/

/-- Subjects of `?s rdf:type <classIRI>` declarations, deduplicated in
insertion order (`new Set(...)`). -/
def typeDeclSubjects (store : List Stmt) (classIRI : String) : List String :=
  ((store.filter (fun q =>
      decide (q.predicate = Term.namedNode RDF_TYPE ∧
        q.object = Term.namedNode classIRI))).map
    (fun q => q.subject.value)).foldl setAdd []

/-- `symmetricProps` (line 107). -/
def symmetricPropsOf (store : List Stmt) : List String :=
  typeDeclSubjects store OWL_SYM

/-- `transitiveProps` (line 108). -/
def transitivePropsOf (store : List Stmt) : List String :=
  typeDeclSubjects store OWL_TRANS

/-- One step of the two-way `inverseOf` registration (lines 113-116 and
121-124): ensure both keys, then record each property in the set of the
other. -/
def invAdd (M : List (String × List String)) (p inv : String) :
    List (String × List String) :=
  mapAddVal (mapAddVal (mapEnsure (mapEnsure M p) inv) p inv) inv p

/-- The `owl:inverseOf` statements of the store. -/
def inverseQuads (store : List Stmt) : List Stmt :=
  store.filter (fun q => decide (q.predicate = Term.namedNode OWL_INV))

/-- `inversePairs` (lines 110-125): the two-way inverse map; the source
runs the same registration loop twice, which the double fold mirrors. -/
def inversePairsOf (store : List Stmt) : List (String × List String) :=
  let m := (inverseQuads store).foldl
    (fun m q => invAdd m q.subject.value q.object.value) []
  (inverseQuads store).foldl
    (fun m q => invAdd m q.subject.value q.object.value) m

/-- The frozen per-run indices (built once from the initial RDF/JS store,
lines 95-125). -/
structure InferCtx where
  classSupers : List (String × List String)
  propSupers : List (String × List String)
  domainMap : List (String × List String)
  rangeMap : List (String × List String)
  symmetricProps : List String
  transitiveProps : List String
  inversePairs : List (String × List String)
deriving DecidableEq

/-- Build the frozen indices from the initial store snapshot. -/
def buildCtx (rdfjsStore : List Stmt) : InferCtx :=
  { classSupers := transitiveClosure (mapFromQuads rdfjsStore RDFS_SC)
    propSupers := transitiveClosure (mapFromQuads rdfjsStore RDFS_SP)
    domainMap := mapFromQuads rdfjsStore RDFS_DOMAIN
    rangeMap := mapFromQuads rdfjsStore RDFS_RANGE
    symmetricProps := symmetricPropsOf rdfjsStore
    transitiveProps := transitivePropsOf rdfjsStore
    inversePairs := inversePairsOf rdfjsStore }

/-! ### Local expanders (lines 153-262) -/

/-- `expandTypesWithClosure(newTypes)` (lines 155-171): lift each
`(x, rdf:type, C)` through the frozen class closure, skipping non-IRI
super-classes (the `isAbsoluteIri` guard is active since the bridge
defines the function). -/
def expandTypesWithClosure (ctx : InferCtx) (newTypes : List Stmt) : List Stmt :=
  newTypes.flatMap (fun s =>
    match lookupMap ctx.classSupers s.object.value with
    | none => []
    | some supers =>
        (supers.filter (fun sup => isAbsoluteIri sup)).map (fun sup =>
          { subject := s.subject, predicate := Term.namedNode RDF_TYPE,
            object := Term.namedNode sup }))

/-- `expandPropsWithClosure(newProps)` (lines 177-203): lift each
`(x, p, y)` through the frozen property closure, with the same non-IRI
guard. -/
def expandPropsWithClosure (ctx : InferCtx) (newProps : List Stmt) : List Stmt :=
  newProps.flatMap (fun s =>
    match lookupMap ctx.propSupers s.predicate.value with
    | none => []
    | some supers =>
        (supers.filter (fun sup => isAbsoluteIri sup)).map (fun sup =>
          { subject := s.subject, predicate := Term.namedNode sup,
            object := s.object }))

/-- `applyInverseAndSymmetric(newProps)` (lines 205-218). -/
def applyInverseAndSymmetric (ctx : InferCtx) (newProps : List Stmt) : List Stmt :=
  newProps.flatMap (fun s =>
    let p := s.predicate.value
    (if p ∈ ctx.symmetricProps then
        [{ subject := s.object, predicate := Term.namedNode p,
           object := s.subject : Stmt }]
      else []) ++
    (match lookupMap ctx.inversePairs p with
      | some invs =>
          invs.map (fun inv =>
            { subject := s.object, predicate := Term.namedNode inv,
              object := s.subject : Stmt })
      | none => []))

/-- `applyDomainRange(newProps)` (lines 221-244), with the non-IRI
guards on emitted domain and range classes. -/
def applyDomainRange (ctx : InferCtx) (newProps : List Stmt) : List Stmt :=
  newProps.flatMap (fun s =>
    let p := s.predicate.value
    (match lookupMap ctx.domainMap p with
      | some Ds =>
          (Ds.filter (fun d => isAbsoluteIri d)).map (fun d =>
            { subject := s.subject, predicate := Term.namedNode RDF_TYPE,
              object := Term.namedNode d : Stmt })
      | none => []) ++
    (match lookupMap ctx.rangeMap p with
      | some Rs =>
          (Rs.filter (fun r => isAbsoluteIri r)).map (fun r =>
            { subject := s.object, predicate := Term.namedNode RDF_TYPE,
              object := Term.namedNode r : Stmt })
      | none => []))

/-- `applyTransitiveProps(newPropsBatch)` (lines 247-262): the only
expander that searches the shared RDF/JS store beyond its batch.  Note
that both emitted positions taken from the store are rebuilt with
`$rdf.sym(...)`, i.e. coerced to named nodes of the matched term's
string value. -/
def applyTransitiveProps (ctx : InferCtx) (rdfjsStore : List Stmt)
    (newPropsBatch : List Stmt) : List Stmt :=
  newPropsBatch.flatMap (fun s =>
    let p := s.predicate.value
    if p ∈ ctx.transitiveProps then
      ((rdfjsStore.filter (fun q =>
          decide (q.subject = s.object ∧ q.predicate = Term.namedNode p))).map
        (fun yz =>
          { subject := s.subject, predicate := Term.namedNode p,
            object := Term.namedNode yz.object.value : Stmt })) ++
      ((rdfjsStore.filter (fun q =>
          decide (q.object = s.subject ∧ q.predicate = Term.namedNode p))).map
        (fun wx =>
          { subject := Term.namedNode wx.subject.value,
            predicate := Term.namedNode p, object := s.object : Stmt }))
    else [])

/-! ### Conversions between rdflib statements and N3 quads -/

/-- `toSubject` (line 86): named nodes stay, everything else becomes a
blank node carrying the value. -/
def toSubject : Term → Term
  | .namedNode v => .namedNode v
  | t => .blankNode t.value

/-- `toObject` (lines 87-93): named and blank nodes stay; literals keep
their language tag if truthy, else their datatype if present. -/
def toObject : Term → Term
  | .namedNode v => .namedNode v
  | .blankNode v => .blankNode v
  | .literal v lang dt =>
      match strOpt lang with
      | some l => .literal v (some l) none
      | none =>
        match dt with
          | some d => .literal v none (some d)
          | none => .literal v none none

/-- The quad built inside `enqueue` (line 141):
`quad(toSubject(s.subject), toNamed(s.predicate.value), toObject(s.object), defaultGraph())`. -/
def enqueueQuad (s : Stmt) : Stmt :=
  { subject := toSubject s.subject, predicate := Term.namedNode s.predicate.value,
    object := toObject s.object, why := none }

/-- `N3.Store.addQuad`: the store is a set of quads, adding an existing
quad is a no-op. -/
def addQuadDedup (store : List Stmt) (q : Stmt) : List Stmt :=
  if q ∈ store then store else store ++ [q]

/-- `Set.add` on the seen-key index. -/
def seenAdd (seen : List String) (nt : String) : List String :=
  if nt ∈ seen then seen else seen ++ [nt]

/-- `new Set(graph.statements.map(s => s.toNT()))` (line 74). -/
def ntSetOf (l : List Stmt) : List String :=
  l.foldl (fun acc q => seenAdd acc q.toNT) []

/-- Per-statement conversion inside `formulaToRdfjsStore` (bridge lines
124-155): subject named-or-blank, predicate forced named, literal object
keeps truthy language else datatype, context kept when truthy. -/
def formulaQuad (st : Stmt) : Stmt :=
  { subject :=
      match st.subject with
      | Term.namedNode v => Term.namedNode v
      | t => Term.blankNode t.value
    predicate := Term.namedNode st.predicate.value
    object :=
      match st.object with
      | Term.namedNode v => Term.namedNode v
      | Term.blankNode v => Term.blankNode (if v = "" then "o" else v)
      | Term.literal v lang dt =>
          match strOpt lang with
          | some l => Term.literal v (some l) none
          | none =>
            match dt with
              | some d => Term.literal v none (some d)
              | none => Term.literal v none none
    why := strOpt st.why }

/-- `formulaToRdfjsStore(graph)` (bridge lines 124-155): convert every
statement and add it to a fresh N3 store. -/
def formulaToRdfjsStore (graph : List Stmt) : List Stmt :=
  graph.foldl (fun store st => addQuadDedup store (formulaQuad st)) []

/-- `asRdfjsSubject` (bridge lines 95-100). -/
def asRdfjsSubject (v ttype : String) : Term :=
  let iri := normalizeIriString v
  if ttype = "NamedNode" ∧ isAbsoluteIri iri then Term.namedNode iri
  else if isAbsoluteIri iri then Term.namedNode iri
  else Term.blankNode (stripBnode v)

/-- `asRdfjsPredicate` (bridge lines 103-108); throws when the value is
not an absolute IRI. -/
def asRdfjsPredicate (v ttype : String) : Except String Term :=
  let iri := normalizeIriString v
  if ttype = "NamedNode" ∧ isAbsoluteIri iri then .ok (Term.namedNode iri)
  else if isAbsoluteIri iri then .ok (Term.namedNode iri)
  else .error ("Predicate must be absolute IRI: " ++ v)

/-- `asRdfjsObject` (bridge lines 111-121). -/
def asRdfjsObject (v ttype : String) (lang datatype : Option String) : Term :=
  let iri := normalizeIriString v
  if ttype = "NamedNode" ∧ isAbsoluteIri iri then Term.namedNode iri
  else if ttype = "BlankNode" ∨ looksLikeBnodeId v then Term.blankNode (stripBnode v)
  else
    match strOpt lang with
    | some l => Term.literal v (some l) none
    | none =>
      match strOpt datatype with
        | some d => Term.literal v none (some (normalizeIriString d))
        | none =>
          if isAbsoluteIri iri then Term.namedNode iri
          else Term.literal v none none

/-! ### Run state, enqueue, queues (lines 72-151, 264-285) -/

/-- The mutable run state of `inferUntilStable`: the rdflib base graph,
the seen-key set, the N3 overlay store, the shared RDF/JS store, and the
two work queues. -/
structure InferState where
  baseGraph : List Stmt
  seen : List String
  overlayStore : List Stmt
  rdfjsStore : List Stmt
  workTypes : List Stmt
  workProps : List Stmt
deriving DecidableEq

/-- Processing of one candidate statement inside `enqueue` (lines
132-150): skip if the key is seen, otherwise add to base graph, seen
set, overlay store and RDF/JS store, and route to the type or property
queue by predicate value. -/
def enqueueStep (st : InferState) (s : Stmt) : InferState :=
  if s.toNT ∈ st.seen then st
  else
    { baseGraph := st.baseGraph ++
        [{ subject := s.subject, predicate := s.predicate, object := s.object }]
      seen := seenAdd st.seen s.toNT
      overlayStore := addQuadDedup st.overlayStore (enqueueQuad s)
      rdfjsStore := addQuadDedup st.rdfjsStore (enqueueQuad s)
      workTypes :=
        if s.predicate.value = RDF_TYPE then st.workTypes ++ [s] else st.workTypes
      workProps :=
        if s.predicate.value = RDF_TYPE then st.workProps else st.workProps ++ [s] }

/-- `enqueue(stmts)` (lines 131-151). -/
def enqueue (st : InferState) (stmts : List Stmt) : InferState :=
  stmts.foldl enqueueStep st

/-- The `if (workTypes.length)` block of the `processQueues` body (lines
267-271): take the whole type queue as one batch, expand it through the
class closure, and enqueue any output. -/
def drainTypes (ctx : InferCtx) (st : InferState) (progressed : Bool) :
    InferState × Bool :=
  if st.workTypes.isEmpty then (st, progressed)
  else
    let batch := st.workTypes
    let st := { st with workTypes := [] }
    let extra := expandTypesWithClosure ctx batch
    if extra.isEmpty then (st, progressed) else (enqueue st extra, true)

/-- The `if (workProps.length)` block of the `processQueues` body (lines
272-282): take the whole property queue as one batch, compute all four
expansions (before enqueueing any of them), then enqueue them in
order. -/
def drainProps (ctx : InferCtx) (st : InferState) (progressed : Bool) :
    InferState × Bool :=
  if st.workProps.isEmpty then (st, progressed)
  else
    let batch := st.workProps
    let st := { st with workProps := [] }
    let extra1 := expandPropsWithClosure ctx batch
    let extra2 := applyInverseAndSymmetric ctx batch
    let extra3 := applyDomainRange ctx batch
    let extra4 := applyTransitiveProps ctx st.rdfjsStore batch
    let b1 := if extra1.isEmpty then (st, progressed) else (enqueue st extra1, true)
    let b2 := if extra2.isEmpty then (b1.1, b1.2) else (enqueue b1.1 extra2, true)
    let b3 := if extra3.isEmpty then (b2.1, b2.2) else (enqueue b2.1 extra3, true)
    if extra4.isEmpty then (b3.1, b3.2) else (enqueue b3.1 extra4, true)

/-- One iteration of the `while (workTypes.length || workProps.length)`
body of `processQueues` (lines 266-282): the type block, then the
property block. -/
def drainBody (ctx : InferCtx) (st : InferState) (progressed : Bool) :
    InferState × Bool :=
  let a := drainTypes ctx st progressed
  drainProps ctx a.1 a.2

/-- The fuelled `processQueues` loop (lines 264-285); returns `none`
when the fuel is exhausted before both queues drain. -/
def processQueuesAux (ctx : InferCtx) (fuel : Nat) (st : InferState)
    (progressed : Bool) : Option (InferState × Bool) :=
  if st.workTypes.isEmpty ∧ st.workProps.isEmpty then some (st, progressed)
  else
    match fuel with
    | 0 => none
    | fuel + 1 =>
        let a := drainBody ctx st progressed
        processQueuesAux ctx fuel a.1 a.2

/-- `processQueues()` with its `progressed` flag starting at `false`. -/
def processQueues (ctx : InferCtx) (fuel : Nat) (st : InferState) :
    Option (InferState × Bool) :=
  processQueuesAux ctx fuel st false

/-! ### Seeding (lines 288-368) and `selectUnseen` (lines 478-490) -/

/-- `selectUnseen(stmts, seenNT)`: batch-internal dedup by key, then drop
globally seen keys; returns the novel statements and the batch-unique
count. -/
def selectUnseen (stmts : List Stmt) (seenNT : List String) : List Stmt × Nat :=
  let acc := stmts.foldl
    (fun (acc : List String × List Stmt) s =>
      let nt := s.toNT
      if nt ∈ acc.1 then acc
      else (acc.1 ++ [nt], if nt ∈ seenNT then acc.2 else acc.2 ++ [s]))
    ([], [])
  (acc.2, acc.1.length)

/-- The seed-phase effect application (lines 306-332 and 340-366): add
the lifted statement to the base graph, add its bridge-converted quad to
the overlay and RDF/JS stores, and mark its key seen.  The predicate
conversion can throw, which aborts the run like any other exception. -/
def seedApply (st : InferState) (s : Stmt) : Except String InferState :=
  match asRdfjsPredicate s.predicate.value s.predicate.termType with
  | .error e => .error e
  | .ok pred =>
      let subj := asRdfjsSubject s.subject.value s.subject.termType
      let obj := asRdfjsObject s.object.value s.object.termType s.object.langOf
        s.object.datatypeOf
      let q : Stmt := { subject := subj, predicate := pred, object := obj }
      .ok { st with
        baseGraph := st.baseGraph ++
          [{ subject := s.subject, predicate := s.predicate, object := s.object }]
        overlayStore := addQuadDedup st.overlayStore q
        rdfjsStore := addQuadDedup st.rdfjsStore q
        seen := seenAdd st.seen s.toNT }

/-- Sequential application of the seed effect to a batch of novel lifted
statements (the `for (const s of ...Unseen)` loops). -/
def seedApplyAll : List Stmt → InferState → Except String InferState
  | [], st => .ok st
  | s :: rest, st =>
      match seedApply st s with
      | .error e => .error e
      | .ok st1 => seedApplyAll rest st1

/-- The seed phase (lines 291-368): partition the current base graph by
predicate, lift all property assertions through the property closure and
apply the novel ones, then lift all type assertions through the class
closure and apply the novel ones. -/
def seedPhase (ctx : InferCtx) (st : InferState) : Except String InferState :=
  let seedTypes := st.baseGraph.filter (fun q => decide (q.predicate.value = RDF_TYPE))
  let seedProps := st.baseGraph.filter (fun q => decide (¬q.predicate.value = RDF_TYPE))
  let seededPropLifts := expandPropsWithClosure ctx seedProps
  let seedPropUnseen := (selectUnseen seededPropLifts st.seen).1
  match seedApplyAll seedPropUnseen st with
  | .error e => .error e
  | .ok st1 =>
      let seededTypeLifts := expandTypesWithClosure ctx seedTypes
      let seedTypeUnseen := (selectUnseen seededTypeLifts st1.seen).1
      seedApplyAll seedTypeUnseen st1

/-! ### Rule catalogue (lines 545-659) -/

/-- The shared SPARQL prefix block. -/
def PREFIXES : String :=
  "\n    PREFIX rdf:  <http://www.w3.org/1999/02/22-rdf-syntax-ns#>\n" ++
  "    PREFIX rdfs: <http://www.w3.org/2000/01/rdf-schema#>\n" ++
  "    PREFIX owl:  <http://www.w3.org/2002/07/owl#>\n  "

/-- The per-rule CONSTRUCT queries of the `RULES` object (braces written
as escapes); unknown rule identifiers have no entry. -/
def ruleQuery : String → Option String
  | "inverse" => some
      ("\n      CONSTRUCT \x7b ?S ?P ?O \x7d\n      WHERE \x7b\n        \x7b\n" ++
       "          ?x ?p ?y .\n          ?p owl:inverseOf ?inverse .\n" ++
       "          BIND(?y AS ?S) BIND(?inverse AS ?P) BIND(?x AS ?O)\n        \x7d\n" ++
       "        UNION\n        \x7b\n          ?x ?inverse ?y .\n" ++
       "          ?p owl:inverseOf ?inverse .\n" ++
       "          BIND(?y AS ?S) BIND(?p AS ?P) BIND(?x AS ?O)\n        \x7d\n" ++
       "        FILTER NOT EXISTS \x7b\n          \x7b ?S ?P ?O \x7d\n" ++
       "          UNION\n          \x7b GRAPH ?g \x7b ?S ?P ?O \x7d \x7d\n" ++
       "        \x7d\n      \x7d\n    ")
  | "subpropertyof" => some
      ("\n      CONSTRUCT \x7b ?x ?super ?y \x7d\n      WHERE \x7b\n" ++
       "        ?x ?p ?y .\n        ?p rdfs:subPropertyOf+ ?super .\n" ++
       "        FILTER(?p != ?super)\n        FILTER NOT EXISTS \x7b\n" ++
       "          \x7b ?x ?super ?y \x7d\n          UNION\n" ++
       "          \x7b GRAPH ?g \x7b ?x ?super ?y \x7d \x7d\n        \x7d\n      \x7d\n    ")
  | "subclassof" => some
      ("\n      CONSTRUCT \x7b ?x rdf:type ?superClass \x7d\n      WHERE \x7b\n" ++
       "        ?x rdf:type ?class .\n        ?class rdfs:subClassOf+ ?superClass .\n" ++
       "        FILTER(?class != ?superClass)\n        FILTER NOT EXISTS \x7b\n" ++
       "          \x7b ?x rdf:type ?superClass \x7d\n          UNION\n" ++
       "          \x7b GRAPH ?g \x7b ?x rdf:type ?superClass \x7d \x7d\n        \x7d\n      \x7d\n    ")
  | "domain" => some
      ("\n      CONSTRUCT \x7b ?x rdf:type ?domain \x7d\n      WHERE \x7b\n" ++
       "        ?x ?p ?y .\n        ?p rdfs:domain ?domain .\n" ++
       "        FILTER NOT EXISTS \x7b\n          \x7b ?x rdf:type ?domain \x7d\n" ++
       "          UNION\n          \x7b GRAPH ?g \x7b ?x rdf:type ?domain \x7d \x7d\n" ++
       "        \x7d\n      \x7d\n    ")
  | "range" => some
      ("\n      CONSTRUCT \x7b ?y rdf:type ?range \x7d\n      WHERE \x7b\n" ++
       "        ?x ?p ?y .\n        ?p rdfs:range ?range .\n" ++
       "        FILTER NOT EXISTS \x7b\n          \x7b ?y rdf:type ?range \x7d\n" ++
       "          UNION\n          \x7b GRAPH ?g \x7b ?y rdf:type ?range \x7d \x7d\n" ++
       "        \x7d\n      \x7d\n    ")
  | "transitive" => some
      ("\n      CONSTRUCT \x7b ?x ?p ?z \x7d\n      WHERE \x7b\n" ++
       "        ?x ?p ?y .\n        ?y ?p ?z .\n        ?p a owl:TransitiveProperty .\n" ++
       "        FILTER NOT EXISTS \x7b\n          \x7b ?x ?p ?z \x7d\n" ++
       "          UNION\n          \x7b GRAPH ?g \x7b ?x ?p ?z \x7d \x7d\n" ++
       "        \x7d\n      \x7d\n    ")
  | "symmetric" => some
      ("\n      CONSTRUCT \x7b ?y ?p ?x \x7d\n      WHERE \x7b\n" ++
       "        ?x ?p ?y .\n        ?p a owl:SymmetricProperty .\n" ++
       "        FILTER NOT EXISTS \x7b\n          \x7b ?y ?p ?x \x7d\n" ++
       "          UNION\n          \x7b GRAPH ?g \x7b ?y ?p ?x \x7d \x7d\n" ++
       "        \x7d\n      \x7d\n    ")
  | _ => none

/-- `getConstructQueryForRule(rule)` (lines 545-659):
`PREFIXES + (RULES[rule] || '')` — note that unknown rules still yield
the non-empty prefix block. -/
def getConstructQueryForRule (rule : String) : String :=
  PREFIXES ++ (match ruleQuery rule with | some q => q | none => "")

/-! ### The rule-driven fixpoint loop (lines 69-427, 668-684) -/

/-- `runRuleOnce(rule, baseGraph, rdfjsStore)` (lines 668-684), preferred
CONSTRUCT path: feed the rule's query and the shared store to the
external evaluator `E` (`applyConstructWithComunica`). -/
def runRuleOnce (E : String → List Stmt → Except String (List Stmt))
    (rule : String) (rdfjsStore : List Stmt) : Except String (List Stmt) :=
  E (getConstructQueryForRule rule) rdfjsStore

/-- The batch dedup by key applied to rule results (lines 386-391). -/
def dedupByNT (stmts : List Stmt) : List Stmt :=
  (stmts.foldl
    (fun (acc : List String × List Stmt) s =>
      let nt := s.toNT
      if s.toNT ∈ acc.1 then acc else (acc.1 ++ [nt], acc.2 ++ [s]))
    ([], [])).2

/-- The body of one iteration of the `for (const rule of rulesFiltered)`
loop (lines 379-403): skip rules with an empty query, run the evaluator,
dedup the batch by key, enqueue, drain the queues to a local fixpoint,
and update `totalAdded`/`changed` from the growth of the seen set.
Returns the updated `(state, totalAdded, changed)` triple, `none` when
the drain fuel runs out, or the evaluator's error. -/
def runRuleStep (E : String → List Stmt → Except String (List Stmt))
    (ctx : InferCtx) (drainFuel : Nat) (rule : String) (st : InferState)
    (totalAdded : Nat) (changed : Bool) :
    Except String (Option (InferState × Nat × Bool)) :=
  let constructQuery := getConstructQueryForRule rule
  if constructQuery = "" then .ok (some (st, totalAdded, changed))
  else
    match runRuleOnce E rule st.rdfjsStore with
    | .error e => .error e
    | .ok newStmts =>
        let batch := dedupByNT newStmts
        let beforeSeenSize := st.seen.length
        let st2 := enqueue st batch
        match processQueues ctx drainFuel st2 with
        | none => .ok none
        | some (st3, _) =>
            let added := st3.seen.length - beforeSeenSize
            if 0 < added then .ok (some (st3, totalAdded + added, true))
            else .ok (some (st3, totalAdded, changed))

/-- One pass of the inner `for (const rule of rulesFiltered)` loop
(lines 378-404): apply `runRuleStep` to each rule in order, threading
the state and the `totalAdded`/`changed` accumulators. -/
def runRules (E : String → List Stmt → Except String (List Stmt))
    (ctx : InferCtx) (drainFuel : Nat) :
    List String → InferState → Nat → Bool →
      Except String (Option (InferState × Nat × Bool))
  | [], st, totalAdded, changed => .ok (some (st, totalAdded, changed))
  | rule :: rest, st, totalAdded, changed =>
      match runRuleStep E ctx drainFuel rule st totalAdded changed with
      | .error e => .error e
      | .ok none => .ok none
      | .ok (some (st3, totalAdded3, changed3)) =>
          runRules E ctx drainFuel rest st3 totalAdded3 changed3

/-- The filter dropping the two closure-handled rules (line 374). -/
def rulesFilteredOf (rules : List String) : List String :=
  rules.filter (fun r => decide (¬(r = "subclassof" ∨ r = "subpropertyof")))

/-- The outer `while (changed)` loop (lines 371-405) with explicit pass
fuel; the body always runs at least once since `changed` starts true. -/
def outerLoop (E : String → List Stmt → Except String (List Stmt))
    (ctx : InferCtx) (drainFuel : Nat) (rulesFiltered : List String) :
    Nat → InferState → Nat → Except String (Option (InferState × Nat))
  | 0, _, _ => .ok none
  | fuel + 1, st, totalAdded =>
      match runRules E ctx drainFuel rulesFiltered st totalAdded false with
      | .error e => .error e
      | .ok none => .ok none
      | .ok (some (st1, totalAdded1, changed)) =>
          if changed then outerLoop E ctx drainFuel rulesFiltered fuel st1 totalAdded1
          else .ok (some (st1, totalAdded1))

/-- The conversion of one overlay quad back into an rdflib statement
(lines 409-422); the result is added to the overlay graph with no
context. -/
def overlayConvBack (q : Stmt) : Stmt :=
  { subject :=
      match q.subject with
      | Term.namedNode v => Term.namedNode v
      | t => Term.blankNode t.value
    predicate := Term.namedNode q.predicate.value
    object :=
      match q.object with
      | Term.namedNode v => Term.namedNode v
      | Term.blankNode v => Term.blankNode v
      | Term.literal v lang dt =>
          match strOpt lang with
          | some l => Term.literal v (some l) none
          | none =>
            match dt with
              | some d => Term.literal v none (some d)
              | none => Term.literal v none none }

/-- `overlayStore` → `overlayGraph` (lines 407-423). -/
def overlayToGraph (overlayStore : List Stmt) : List Stmt :=
  overlayStore.map overlayConvBack

/-- The initial run state built from the loaded base graph (lines
72-82). -/
def initState (base : List Stmt) : InferState :=
  { baseGraph := base
    seen := ntSetOf base
    overlayStore := []
    rdfjsStore := formulaToRdfjsStore base
    workTypes := []
    workProps := [] }

/-- The result record of a completed run: final state, converted overlay
graph, and `metrics.totalAdded`. -/
structure InferResult where
  finalState : InferState
  overlayGraph : List Stmt
  totalAdded : Nat
deriving DecidableEq

/-- `inferUntilStable(rules)` (lines 69-427), parameterized by the
external evaluator `E`, with fuel for the inner drain loop and the outer
pass loop.  `Except.error` is a propagated evaluator (or predicate
conversion) failure; `Option.none` is exhausted fuel. -/
def inferUntilStable (E : String → List Stmt → Except String (List Stmt))
    (rules : List String) (base : List Stmt) (drainFuel outerFuel : Nat) :
    Except String (Option InferResult) :=
  let st0 := initState base
  let ctx := buildCtx st0.rdfjsStore
  match seedPhase ctx st0 with
  | .error e => .error e
  | .ok st =>
      match outerLoop E ctx drainFuel (rulesFilteredOf rules) outerFuel st 0 with
      | .error e => .error e
      | .ok none => .ok none
      | .ok (some (st1, totalAdded)) =>
          .ok (some { finalState := st1,
                      overlayGraph := overlayToGraph st1.overlayStore,
                      totalAdded := totalAdded })

/-! ### Well-formedness predicates used by run-level theorems -/

/-- A term is "good" when it is a named node whose value is a stable
absolute IRI (trimming and bracket-stripping change nothing).  The
spec's data model requires absolute identifiers in predicate position;
goodness extends this to all three positions for run-level theorems. -/
def goodTermB (t : Term) : Bool :=
  match t with
  | Term.namedNode v => isAbsoluteIri v && decide (normalizeIriString v = v)
  | _ => false

/-- A statement all of whose terms are good, carried without a context
(the form in which every closure lift is produced). -/
def goodStmtB (s : Stmt) : Bool :=
  goodTermB s.subject && goodTermB s.predicate && goodTermB s.object &&
    decide (s.why = none)

/-- The queue a statement is routed to by `enqueue`. -/
def queueOf (st : InferState) (s : Stmt) : List Stmt :=
  if s.predicate.value = RDF_TYPE then st.workTypes else st.workProps

/-- The closure lifts of a single statement: the class-closure lifts for
type assertions, the property-closure lifts otherwise — exactly what the
drain loop feeds a statement of that kind into. -/
def liftsOf (ctx : InferCtx) (s : Stmt) : List Stmt :=
  if s.predicate.value = RDF_TYPE then expandTypesWithClosure ctx [s]
  else expandPropsWithClosure ctx [s]

/-- Monotone growth between run states: the seen index and the overlay
store only ever gain entries (nothing is rolled back). -/
def GrowsTo (a b : InferState) : Prop :=
  (∃ ns, b.seen = a.seen ++ ns) ∧ (∃ tail, b.overlayStore = a.overlayStore ++ tail)

/-- The duplicate-freedom invariant of a run state: the seen index holds
each key at most once, and the overlay store holds each quad at most
once (both are JS `Set`-like containers). -/
def NodupState (st : InferState) : Prop :=
  st.seen.Nodup ∧ st.overlayStore.Nodup

/-- The folded step of `selectUnseen`, named so that run-level lemmas
can speak about the fold directly. -/
def selectStep (seenNT : List String) (acc : List String × List Stmt)
    (s : Stmt) : List String × List Stmt :=
  let nt := s.toNT
  if nt ∈ acc.1 then acc
  else (acc.1 ++ [nt], if nt ∈ seenNT then acc.2 else acc.2 ++ [s])

/-- The state produced by one seed-phase application of a good
(all-named, stable-IRI, context-free) statement: the bridge conversions
are the identity, so the statement itself lands in the base graph, the
overlay store, the RDF/JS store and the seen index. -/
def seedApplyGoodState (st : InferState) (s : Stmt) : InferState :=
  { baseGraph := st.baseGraph ++ [s]
    seen := seenAdd st.seen s.toNT
    overlayStore := addQuadDedup st.overlayStore s
    rdfjsStore := addQuadDedup st.rdfjsStore s
    workTypes := st.workTypes
    workProps := st.workProps }

/-! ### A concrete seeded run (for claim C10)

A two-statement base graph whose sub-property declaration makes the seed
phase lift one novel statement into the overlay, while no rules run, so
`metrics.totalAdded` stays zero. -/

/-- TBox: `urn:p rdfs:subPropertyOf urn:q`. -/
def c10s1 : Stmt :=
  { subject := Term.namedNode "urn:p", predicate := Term.namedNode RDFS_SP,
    object := Term.namedNode "urn:q" }

/-- ABox: `urn:a urn:p urn:b`. -/
def c10s2 : Stmt :=
  { subject := Term.namedNode "urn:a", predicate := Term.namedNode "urn:p",
    object := Term.namedNode "urn:b" }

/-- The concrete base graph of the C10 run. -/
def c10Base : List Stmt := [c10s1, c10s2]

/-- The one statement the seed phase lifts: `urn:a urn:q urn:b`. -/
def c10Lift : Stmt :=
  { subject := Term.namedNode "urn:a", predicate := Term.namedNode "urn:q",
    object := Term.namedNode "urn:b" }

/-- The frozen indices of the C10 run: one property-closure edge. -/
def c10Ctx : InferCtx :=
  { classSupers := [], propSupers := [("urn:p", ["urn:q"])], domainMap := [],
    rangeMap := [], symmetricProps := [], transitiveProps := [],
    inversePairs := [] }

/-- The post-seed state of the C10 run: the lift has been written to the
base graph, the seen index, the overlay store and the RDF/JS store. -/
def c10St1 : InferState :=
  { baseGraph := [c10s1, c10s2, c10Lift]
    seen := [c10s1.toNT, c10s2.toNT, c10Lift.toNT]
    overlayStore := [c10Lift]
    rdfjsStore := [c10s1, c10s2, c10Lift]
    workTypes := []
    workProps := [] }

/-! ### A concrete pair of runs refuting naive idempotence (claim C3)

The TBox statement `urn:q rdfs:subPropertyOf rdfs:subClassOf` makes the
property `urn:q` a sub-property of the hierarchy predicate itself.  The
first run seeds `urn:B rdfs:subClassOf urn:A` from `urn:B urn:q urn:A`,
but its class closure was frozen before that statement existed, so
`urn:x rdf:type urn:B` is not lifted to `urn:A`.  A second run over the
union sees the new subclass edge and produces a non-empty overlay. -/

/-- TBox: `urn:q rdfs:subPropertyOf rdfs:subClassOf`. -/
def c3s1 : Stmt :=
  { subject := Term.namedNode "urn:q", predicate := Term.namedNode RDFS_SP,
    object := Term.namedNode RDFS_SC }

/-- ABox: `urn:B urn:q urn:A`. -/
def c3s2 : Stmt :=
  { subject := Term.namedNode "urn:B", predicate := Term.namedNode "urn:q",
    object := Term.namedNode "urn:A" }

/-- ABox: `urn:x rdf:type urn:B`. -/
def c3s3 : Stmt :=
  { subject := Term.namedNode "urn:x", predicate := Term.namedNode RDF_TYPE,
    object := Term.namedNode "urn:B" }

/-- The concrete base graph of the C3 counterexample. -/
def c3Base : List Stmt := [c3s1, c3s2, c3s3]

/-- The statement run 1 seeds: `urn:B rdfs:subClassOf urn:A`. -/
def c3Lift1 : Stmt :=
  { subject := Term.namedNode "urn:B", predicate := Term.namedNode RDFS_SC,
    object := Term.namedNode "urn:A" }

/-- The statement only run 2 can seed: `urn:x rdf:type urn:A`. -/
def c3Lift2 : Stmt :=
  { subject := Term.namedNode "urn:x", predicate := Term.namedNode RDF_TYPE,
    object := Term.namedNode "urn:A" }

/-- Run 1's frozen indices: no subclass edges yet. -/
def c3Ctx1 : InferCtx :=
  { classSupers := [], propSupers := [("urn:q", [RDFS_SC])], domainMap := [],
    rangeMap := [], symmetricProps := [], transitiveProps := [],
    inversePairs := [] }

/-- Run 2's frozen indices: the seeded subclass edge is now visible. -/
def c3Ctx2 : InferCtx :=
  { classSupers := [("urn:B", ["urn:A"])],
    propSupers := [("urn:q", [RDFS_SC])], domainMap := [],
    rangeMap := [], symmetricProps := [], transitiveProps := [],
    inversePairs := [] }

/-- Run 1's post-seed (= final) state. -/
def c3St1 : InferState :=
  { baseGraph := [c3s1, c3s2, c3s3, c3Lift1]
    seen := [c3s1.toNT, c3s2.toNT, c3s3.toNT, c3Lift1.toNT]
    overlayStore := [c3Lift1]
    rdfjsStore := [c3s1, c3s2, c3s3, c3Lift1]
    workTypes := []
    workProps := [] }

/-- Run 2's post-seed (= final) state. -/
def c3St2 : InferState :=
  { baseGraph := [c3s1, c3s2, c3s3, c3Lift1, c3Lift2]
    seen := [c3s1.toNT, c3s2.toNT, c3s3.toNT, c3Lift1.toNT, c3Lift2.toNT]
    overlayStore := [c3Lift2]
    rdfjsStore := [c3s1, c3s2, c3s3, c3Lift1, c3Lift2]
    workTypes := []
    workProps := [] }

/-! ### A rule-driven run whose union is closed (witness for amended C3)

Both hierarchies are populated (`urn:p rdfs:subPropertyOf urn:q`,
`urn:C rdfs:subClassOf urn:D`), the seed lifts two statements, and the
`inverse` rule fires once, materializing a statement with a blank-node
subject and a plain-literal object.  The union of the input and the
first overlay is closed under the frozen lifts and under the rule, so
a second run materializes nothing. -/

/-- TBox: `urn:C rdfs:subClassOf urn:D`. -/
def c3ws3 : Stmt :=
  { subject := Term.namedNode "urn:C", predicate := Term.namedNode RDFS_SC,
    object := Term.namedNode "urn:D" }

/-- ABox: `urn:x rdf:type urn:C`. -/
def c3ws4 : Stmt :=
  { subject := Term.namedNode "urn:x", predicate := Term.namedNode RDF_TYPE,
    object := Term.namedNode "urn:C" }

/-- The statement the `inverse` rule materializes: blank-node subject,
plain-literal object. -/
def c3we : Stmt :=
  { subject := Term.blankNode "inv1", predicate := Term.namedNode "urn:pinv",
    object := Term.literal "42" none none }

/-- The class lift the seed materializes: `urn:x rdf:type urn:D`. -/
def c3wLiftT : Stmt :=
  { subject := Term.namedNode "urn:x", predicate := Term.namedNode RDF_TYPE,
    object := Term.namedNode "urn:D" }

/-- The base graph of the rule-driven C3 witness run. -/
def c3wBase : List Stmt := [c10s1, c10s2, c3ws3, c3ws4]

/-- The frozen indices of the witness run: one property edge and one
class edge. -/
def c3wCtx : InferCtx :=
  { classSupers := [("urn:C", ["urn:D"])],
    propSupers := [("urn:p", ["urn:q"])], domainMap := [],
    rangeMap := [], symmetricProps := [], transitiveProps := [],
    inversePairs := [] }

/-- The witness run's post-seed state: both lifts materialized. -/
def c3wSt1 : InferState :=
  { baseGraph := [c10s1, c10s2, c3ws3, c3ws4, c10Lift, c3wLiftT]
    seen := [c10s1.toNT, c10s2.toNT, c3ws3.toNT, c3ws4.toNT, c10Lift.toNT,
             c3wLiftT.toNT]
    overlayStore := [c10Lift, c3wLiftT]
    rdfjsStore := [c10s1, c10s2, c3ws3, c3ws4, c10Lift, c3wLiftT]
    workTypes := []
    workProps := [] }

/-- The witness run's final state: the rule-derived statement has been
enqueued and drained. -/
def c3wFinal : InferState :=
  { baseGraph := [c10s1, c10s2, c3ws3, c3ws4, c10Lift, c3wLiftT, c3we]
    seen := [c10s1.toNT, c10s2.toNT, c3ws3.toNT, c3ws4.toNT, c10Lift.toNT,
             c3wLiftT.toNT, c3we.toNT]
    overlayStore := [c10Lift, c3wLiftT, c3we]
    rdfjsStore := [c10s1, c10s2, c3ws3, c3ws4, c10Lift, c3wLiftT, c3we]
    workTypes := []
    workProps := [] }

/-- The witness run's result: two seed lifts plus one rule-derived
statement in the overlay, `totalAdded = 1`. -/
def c3wR1 : InferResult :=
  { finalState := c3wFinal, overlayGraph := [c10Lift, c3wLiftT, c3we],
    totalAdded := 1 }

/-! ## Theorems

### Association-list and closure facts (claim C2) -/

theorem lookupMap_mem_keys {M : List (String × List String)} {k : String}
    {v : List String} (h : lookupMap M k = some v) : k ∈ mapKeys M := by
  induction M with
  | nil => simp [lookupMap] at h
  | cons hd tl ih =>
      simp only [lookupMap] at h
      by_cases hk : hd.1 = k
      · simp [mapKeys, hk]
      · rw [if_neg hk] at h
        simp only [mapKeys, List.map_cons, List.mem_cons]
        exact Or.inr (ih h)

theorem closureDFS_mem_of_mem_seen (edges : List (String × List String))
    (stack seenLocal : List String) :
    ∀ x ∈ seenLocal, x ∈ closureDFS edges stack seenLocal := by
  induction stack, seenLocal using closureDFS.induct edges with
  | case1 seenLocal => simp [closureDFS]
  | case2 p rest seenLocal hseen ih =>
      rw [closureDFS, dif_pos hseen]; exact ih
  | case3 p rest seenLocal hseen pp hlook ih =>
      rw [closureDFS, dif_neg hseen, hlook]
      exact fun x hx => ih x (List.mem_cons_of_mem p hx)
  | case4 p rest seenLocal hseen hlook ih =>
      rw [closureDFS, dif_neg hseen, hlook]
      exact fun x hx => ih x (List.mem_cons_of_mem p hx)

theorem closureDFS_mem_of_mem_stack (edges : List (String × List String))
    (stack seenLocal : List String) :
    ∀ x ∈ stack, x ∈ closureDFS edges stack seenLocal := by
  induction stack, seenLocal using closureDFS.induct edges with
  | case1 seenLocal => simp
  | case2 p rest seenLocal hseen ih =>
      rw [closureDFS, dif_pos hseen]
      intro x hx
      rcases List.mem_cons.mp hx with hx | hx
      · exact hx ▸ closureDFS_mem_of_mem_seen edges rest seenLocal p hseen
      · exact ih x hx
  | case3 p rest seenLocal hseen pp hlook ih =>
      rw [closureDFS, dif_neg hseen, hlook]
      intro x hx
      rcases List.mem_cons.mp hx with hx | hx
      · exact closureDFS_mem_of_mem_seen edges _ _ x (hx ▸ List.mem_cons_self p _)
      · exact ih x (by simp [hx])
  | case4 p rest seenLocal hseen hlook ih =>
      rw [closureDFS, dif_neg hseen, hlook]
      intro x hx
      rcases List.mem_cons.mp hx with hx | hx
      · exact closureDFS_mem_of_mem_seen edges _ _ x (hx ▸ List.mem_cons_self p _)
      · exact ih x hx

theorem closureDFS_closed (edges : List (String × List String))
    (stack seenLocal : List String)
    (hinv : ∀ x ∈ seenLocal, ∀ y ∈ closureGet edges x, y ∈ seenLocal ∨ y ∈ stack) :
    ∀ x ∈ closureDFS edges stack seenLocal, ∀ y ∈ closureGet edges x,
      y ∈ closureDFS edges stack seenLocal := by
  induction stack, seenLocal using closureDFS.induct edges with
  | case1 seenLocal =>
      intro x hx y hy
      rw [closureDFS] at hx ⊢
      rcases hinv x hx y hy with h | h
      · exact h
      · simp at h
  | case2 p rest seenLocal hseen ih =>
      rw [closureDFS, dif_pos hseen]
      apply ih
      intro x hx y hy
      rcases hinv x hx y hy with h | h
      · exact Or.inl h
      · rcases List.mem_cons.mp h with h | h
        · exact Or.inl (h ▸ hseen)
        · exact Or.inr h
  | case3 p rest seenLocal hseen pp hlook ih =>
      rw [closureDFS, dif_neg hseen, hlook]
      apply ih
      intro x hx y hy
      rcases List.mem_cons.mp hx with hx | hx
      · subst hx
        rw [closureGet, hlook] at hy
        exact Or.inr (List.mem_append_left _ (List.mem_reverse.mpr hy))
      · rcases hinv x hx y hy with h | h
        · exact Or.inl (List.mem_cons_of_mem p h)
        · rcases List.mem_cons.mp h with h | h
          · exact Or.inl (h ▸ List.mem_cons_self p _)
          · exact Or.inr (List.mem_append_right _ h)
  | case4 p rest seenLocal hseen hlook ih =>
      rw [closureDFS, dif_neg hseen, hlook]
      apply ih
      intro x hx y hy
      rcases List.mem_cons.mp hx with hx | hx
      · subst hx
        rw [closureGet, hlook] at hy
        simp at hy
      · rcases hinv x hx y hy with h | h
        · exact Or.inl (List.mem_cons_of_mem p h)
        · rcases List.mem_cons.mp h with h | h
          · exact Or.inl (h ▸ List.mem_cons_self p _)
          · exact Or.inr h

theorem closureDFS_sound (edges : List (String × List String))
    (stack seenLocal : List String) :
    ∀ x ∈ closureDFS edges stack seenLocal,
      x ∈ seenLocal ∨ ∃ y ∈ stack, Relation.ReflTransGen (edgeStep edges) y x := by
  induction stack, seenLocal using closureDFS.induct edges with
  | case1 seenLocal =>
      intro x hx
      rw [closureDFS] at hx
      exact Or.inl hx
  | case2 p rest seenLocal hseen ih =>
      rw [closureDFS, dif_pos hseen]
      intro x hx
      rcases ih x hx with h | ⟨y, hy, hr⟩
      · exact Or.inl h
      · exact Or.inr ⟨y, List.mem_cons_of_mem p hy, hr⟩
  | case3 p rest seenLocal hseen pp hlook ih =>
      rw [closureDFS, dif_neg hseen, hlook]
      intro x hx
      rcases ih x hx with h | ⟨y, hy, hr⟩
      · rcases List.mem_cons.mp h with h | h
        · refine Or.inr ⟨p, List.mem_cons_self p _, ?_⟩
          rw [h]
        · exact Or.inl h
      · rcases List.mem_append.mp hy with h | h
        · refine Or.inr ⟨p, List.mem_cons_self p _, Relation.ReflTransGen.head ?_ hr⟩
          rw [edgeStep, closureGet, hlook]
          exact List.mem_reverse.mp h
        · exact Or.inr ⟨y, List.mem_cons_of_mem p h, hr⟩
  | case4 p rest seenLocal hseen hlook ih =>
      rw [closureDFS, dif_neg hseen, hlook]
      intro x hx
      rcases ih x hx with h | ⟨y, hy, hr⟩
      · rcases List.mem_cons.mp h with h | h
        · refine Or.inr ⟨p, List.mem_cons_self p _, ?_⟩
          rw [h]
        · exact Or.inl h
      · exact Or.inr ⟨y, List.mem_cons_of_mem p hy, hr⟩

theorem lookupMap_eq_of_mem_nodup {M : List (String × List String)}
    (hnd : (mapKeys M).Nodup) {k : String} {v : List String}
    (hmem : (k, v) ∈ M) : lookupMap M k = some v := by
  induction M with
  | nil => simp at hmem
  | cons hd tl ih =>
      rw [mapKeys, List.map_cons, List.nodup_cons] at hnd
      rcases List.mem_cons.mp hmem with h | h
      · subst h; simp [lookupMap]
      · have hk : hd.1 ≠ k := by
          intro he
          exact hnd.1 (he ▸ List.mem_map.mpr ⟨(k, v), h, rfl⟩)
        rw [lookupMap, if_neg hk]
        exact ih hnd.2 h

theorem exists_entry_of_mem_keys {M : List (String × List String)} {k : String}
    (h : k ∈ mapKeys M) : ∃ v, (k, v) ∈ M := by
  rw [mapKeys] at h
  obtain ⟨⟨k', v⟩, hmem, hk⟩ := List.mem_map.mp h
  exact ⟨v, by rwa [show k' = k from hk] at hmem⟩

theorem mapKeys_transitiveClosure (edges : List (String × List String)) :
    mapKeys (transitiveClosure edges) = mapKeys edges := by
  simp [mapKeys, transitiveClosure, List.map_map, Function.comp]

theorem lookupMap_transitiveClosure {edges : List (String × List String)}
    (hnd : (mapKeys edges).Nodup) {child : String} {parents : List String}
    (hmem : (child, parents) ∈ edges) :
    lookupMap (transitiveClosure edges) child =
      some (closureDFS edges parents.reverse []) := by
  apply lookupMap_eq_of_mem_nodup
  · rw [mapKeys_transitiveClosure]; exact hnd
  · exact List.mem_map.mpr ⟨(child, parents), hmem, rfl⟩

/-- The reachability characterization of `transitiveClosure`, shared by
the C2 claim theorem and the closure-transitivity lemma. -/
theorem transitiveClosure_reachability (edges : List (String × List String))
    (hnd : (mapKeys edges).Nodup) (child : String) (parents : List String)
    (hmem : (child, parents) ∈ edges) :
    ∀ x : String,
      x ∈ closureGet (transitiveClosure edges) child ↔ Reaches edges child x := by
  intro x
  have hlookC : closureGet (transitiveClosure edges) child =
      closureDFS edges parents.reverse [] := by
    rw [closureGet, lookupMap_transitiveClosure hnd hmem]; rfl
  have hlookE : closureGet edges child = parents := by
    rw [closureGet, lookupMap_eq_of_mem_nodup hnd hmem]; rfl
  rw [hlookC]
  constructor
  · intro hx
    rcases closureDFS_sound edges parents.reverse [] x hx with h | ⟨y, hy, hr⟩
    · simp at h
    · have hstep : edgeStep edges child y := by
        rw [edgeStep, hlookE]
        exact List.mem_reverse.mp hy
      exact Relation.TransGen.head' hstep hr
  · intro hr
    induction hr with
    | single hstep =>
        apply closureDFS_mem_of_mem_stack
        rw [edgeStep, hlookE] at hstep
        exact List.mem_reverse.mpr hstep
    | tail _ hstep ih =>
        exact closureDFS_closed edges parents.reverse [] (by simp) _ ih _ hstep

/-- Claim C2: for every finite direct-edge map with unique child keys,
`transitiveClosure` assigns to each child with at least one map entry
exactly the set of identifiers reachable from it by one or more direct
edges.  In particular, taking `x := child`, a child belongs to its own
closure exactly when it lies on a cycle; and `closureDFS` itself is a
total function (the recursion is well-founded even on cyclic inputs via
the per-child locally-seen guard), so no input causes non-termination. -/
theorem C2_transitiveClosure_reachability (edges : List (String × List String))
    (hnd : (mapKeys edges).Nodup) (child : String) (parents : List String)
    (hmem : (child, parents) ∈ edges) :
    ∀ x : String,
      x ∈ closureGet (transitiveClosure edges) child ↔ Reaches edges child x :=
  transitiveClosure_reachability edges hnd child parents hmem

/-- Witness for C2 on a concrete cyclic hierarchy with two entries:
`a`'s parents are `{b}`, `b`'s parents are `{a, c}`. -/
theorem C2_witness :
    (mapKeys [("a", ["b"]), ("b", ["a", "c"])]).Nodup ∧
      (("a", ["b"]) ∈ [("a", ["b"]), ("b", ["a", "c"])]) ∧
      ∀ x : String,
        x ∈ closureGet (transitiveClosure [("a", ["b"]), ("b", ["a", "c"])]) "a" ↔
          Reaches [("a", ["b"]), ("b", ["a", "c"])] "a" x :=
  ⟨by decide, by decide,
    C2_transitiveClosure_reachability [("a", ["b"]), ("b", ["a", "c"])]
      (by decide) "a" ["b"] (by decide)⟩

/-- Transitivity of closure membership (used for seed-phase
completeness): anything in the closure of `b` is in the closure of `a`
whenever `b` is in the closure of `a`. -/
theorem closureGet_transitiveClosure_trans {edges : List (String × List String)}
    (hnd : (mapKeys edges).Nodup) {a b z : String}
    (hab : b ∈ closureGet (transitiveClosure edges) a)
    (hbz : z ∈ closureGet (transitiveClosure edges) b) :
    z ∈ closureGet (transitiveClosure edges) a := by
  have hmemA : a ∈ mapKeys (transitiveClosure edges) := by
    rcases hA : lookupMap (transitiveClosure edges) a with _ | v
    · rw [closureGet, hA] at hab; simp at hab
    · exact lookupMap_mem_keys hA
  have hmemB : b ∈ mapKeys (transitiveClosure edges) := by
    rcases hB : lookupMap (transitiveClosure edges) b with _ | v
    · rw [closureGet, hB] at hbz; simp at hbz
    · exact lookupMap_mem_keys hB
  rw [mapKeys_transitiveClosure] at hmemA hmemB
  obtain ⟨pa, hpa⟩ := exists_entry_of_mem_keys hmemA
  obtain ⟨pb, hpb⟩ := exists_entry_of_mem_keys hmemB
  have h1 := (transitiveClosure_reachability edges hnd a pa hpa b).mp hab
  have h2 := (transitiveClosure_reachability edges hnd b pb hpb z).mp hbz
  exact (transitiveClosure_reachability edges hnd a pa hpa z).mpr
    (Relation.TransGen.trans h1 h2)

/-! ### Expander characterizations (claims C4, C5) -/

theorem mem_applyTransitiveProps (ctx : InferCtx) (store batch : List Stmt)
    (t : Stmt) :
    t ∈ applyTransitiveProps ctx store batch ↔
      ∃ s ∈ batch, s.predicate.value ∈ ctx.transitiveProps ∧
        ((∃ yz ∈ store, yz.subject = s.object ∧
            yz.predicate = Term.namedNode s.predicate.value ∧
            t = { subject := s.subject,
                  predicate := Term.namedNode s.predicate.value,
                  object := Term.namedNode yz.object.value }) ∨
          (∃ wx ∈ store, wx.object = s.subject ∧
            wx.predicate = Term.namedNode s.predicate.value ∧
            t = { subject := Term.namedNode wx.subject.value,
                  predicate := Term.namedNode s.predicate.value,
                  object := s.object })) := by
  unfold applyTransitiveProps
  rw [List.mem_flatMap]
  constructor
  · rintro ⟨s, hs, ht⟩
    by_cases hp : s.predicate.value ∈ ctx.transitiveProps
    · rw [if_pos hp] at ht
      rcases List.mem_append.mp ht with h | h
      · obtain ⟨yz, hyz, rfl⟩ := List.mem_map.mp h
        obtain ⟨hyzmem, hyzc⟩ := List.mem_filter.mp hyz
        rw [decide_eq_true_eq] at hyzc
        exact ⟨s, hs, hp, Or.inl ⟨yz, hyzmem, hyzc.1, hyzc.2, rfl⟩⟩
      · obtain ⟨wx, hwx, rfl⟩ := List.mem_map.mp h
        obtain ⟨hwxmem, hwxc⟩ := List.mem_filter.mp hwx
        rw [decide_eq_true_eq] at hwxc
        exact ⟨s, hs, hp, Or.inr ⟨wx, hwxmem, hwxc.1, hwxc.2, rfl⟩⟩
    · rw [if_neg hp] at ht
      simp at ht
  · rintro ⟨s, hs, hp, h⟩
    refine ⟨s, hs, ?_⟩
    rw [if_pos hp]
    rcases h with ⟨yz, hyzmem, h1, h2, rfl⟩ | ⟨wx, hwxmem, h1, h2, rfl⟩
    · exact List.mem_append_left _
        (List.mem_map.mpr ⟨yz, List.mem_filter.mpr ⟨hyzmem, by simp [h1, h2]⟩, rfl⟩)
    · exact List.mem_append_right _
        (List.mem_map.mpr ⟨wx, List.mem_filter.mpr ⟨hwxmem, by simp [h1, h2]⟩, rfl⟩)

/-- Claim C4 counterexample: with `urn:p` transitive, the batch statement
`(urn:a, urn:p, urn:b)` and the working-set statement
`(urn:b, urn:p, "c")` (a literal object), the claimed output
`(urn:a, urn:p, "c")` is NOT emitted — the expander rebuilds the object
as a named node `urn:a urn:p <c>` via `$rdf.sym(yz.object.value)`. -/
theorem C4_counterexample :
    (({ subject := Term.namedNode "urn:b", predicate := Term.namedNode "urn:p",
        object := Term.literal "c" none none } : Stmt) ∈
        [({ subject := Term.namedNode "urn:b", predicate := Term.namedNode "urn:p",
            object := Term.literal "c" none none } : Stmt)]) ∧
      ("urn:p" ∈ (InferCtx.mk [] [] [] [] [] ["urn:p"] []).transitiveProps) ∧
      (({ subject := Term.namedNode "urn:a", predicate := Term.namedNode "urn:p",
          object := Term.literal "c" none none } : Stmt) ∉
        applyTransitiveProps (InferCtx.mk [] [] [] [] [] ["urn:p"] [])
          [{ subject := Term.namedNode "urn:b", predicate := Term.namedNode "urn:p",
             object := Term.literal "c" none none }]
          [{ subject := Term.namedNode "urn:a", predicate := Term.namedNode "urn:p",
             object := Term.namedNode "urn:b" }]) := by
  refine ⟨by decide, by decide, by decide⟩

/-- Claim C4, amended: for every batch statement `(x, p, y)` whose
predicate `p` is a declared transitive property, `applyTransitiveProps`
emits `(x, p, σ z)` for every working-set statement `(y, p, z)` and
`(σ w, p, y)` for every working-set statement `(w, p, x)`, where `σ`
coerces the matched term to a named node carrying its string value
(the identity on named nodes); nothing is emitted for non-transitive
predicates, and these are the only emissions.  (The other three
expanders take no working-set argument at all, so this is the only
expander that reads beyond its batch.) -/
theorem C4_applyTransitiveProps_amended (ctx : InferCtx) (store batch : List Stmt) :
    (∀ s ∈ batch, s.predicate.value ∈ ctx.transitiveProps →
      (∀ yz ∈ store, yz.subject = s.object →
        yz.predicate = Term.namedNode s.predicate.value →
        ({ subject := s.subject, predicate := Term.namedNode s.predicate.value,
           object := Term.namedNode yz.object.value } : Stmt) ∈
          applyTransitiveProps ctx store batch) ∧
      (∀ wx ∈ store, wx.object = s.subject →
        wx.predicate = Term.namedNode s.predicate.value →
        ({ subject := Term.namedNode wx.subject.value,
           predicate := Term.namedNode s.predicate.value,
           object := s.object } : Stmt) ∈
          applyTransitiveProps ctx store batch)) ∧
    (∀ t ∈ applyTransitiveProps ctx store batch,
      ∃ s ∈ batch, s.predicate.value ∈ ctx.transitiveProps ∧
        ((∃ yz ∈ store, yz.subject = s.object ∧
            yz.predicate = Term.namedNode s.predicate.value ∧
            t = { subject := s.subject,
                  predicate := Term.namedNode s.predicate.value,
                  object := Term.namedNode yz.object.value }) ∨
          (∃ wx ∈ store, wx.object = s.subject ∧
            wx.predicate = Term.namedNode s.predicate.value ∧
            t = { subject := Term.namedNode wx.subject.value,
                  predicate := Term.namedNode s.predicate.value,
                  object := s.object }))) := by
  constructor
  · intro s hs hp
    constructor
    · intro yz hyz h1 h2
      exact (mem_applyTransitiveProps ctx store batch _).mpr
        ⟨s, hs, hp, Or.inl ⟨yz, hyz, h1, h2, rfl⟩⟩
    · intro wx hwx h1 h2
      exact (mem_applyTransitiveProps ctx store batch _).mpr
        ⟨s, hs, hp, Or.inr ⟨wx, hwx, h1, h2, rfl⟩⟩
  · intro t ht
    exact (mem_applyTransitiveProps ctx store batch t).mp ht

/-- Witness for the amended C4 theorem at the counterexample input: the
coerced statement is emitted. -/
theorem C4_amended_witness :
    ({ subject := Term.namedNode "urn:a", predicate := Term.namedNode "urn:p",
       object := Term.namedNode "c" } : Stmt) ∈
      applyTransitiveProps (InferCtx.mk [] [] [] [] [] ["urn:p"] [])
        [{ subject := Term.namedNode "urn:b", predicate := Term.namedNode "urn:p",
           object := Term.literal "c" none none }]
        [{ subject := Term.namedNode "urn:a", predicate := Term.namedNode "urn:p",
           object := Term.namedNode "urn:b" }] :=
  (((C4_applyTransitiveProps_amended (InferCtx.mk [] [] [] [] [] ["urn:p"] [])
      [{ subject := Term.namedNode "urn:b", predicate := Term.namedNode "urn:p",
         object := Term.literal "c" none none }]
      [{ subject := Term.namedNode "urn:a", predicate := Term.namedNode "urn:p",
         object := Term.namedNode "urn:b" }]).1
    { subject := Term.namedNode "urn:a", predicate := Term.namedNode "urn:p",
      object := Term.namedNode "urn:b" } (by decide) (by decide)).1
    { subject := Term.namedNode "urn:b", predicate := Term.namedNode "urn:p",
      object := Term.literal "c" none none } (by decide) (by decide) (by decide))

/-! ### Inverse/symmetric expander and inverse-map symmetry (claim C5) -/

theorem mem_setAdd {l : List String} {x b : String} :
    b ∈ setAdd l x ↔ b ∈ l ∨ b = x := by
  unfold setAdd
  by_cases h : x ∈ l
  · rw [if_pos h]
    constructor
    · exact Or.inl
    · rintro (hb | rfl)
      · exact hb
      · exact h
  · rw [if_neg h]; simp

theorem lookupMap_append (M N : List (String × List String)) (k : String) :
    lookupMap (M ++ N) k =
      match lookupMap M k with
      | some v => some v
      | none => lookupMap N k := by
  induction M with
  | nil => simp [lookupMap]
  | cons hd tl ih =>
      by_cases hk : hd.1 = k
      · simp [lookupMap, hk]
      · simp only [List.cons_append, lookupMap, if_neg hk]
        exact ih

theorem lookupMap_mapEnsure (M : List (String × List String)) (k j : String) :
    lookupMap (mapEnsure M k) j =
      if j = k then some (closureGet M k) else lookupMap M j := by
  unfold mapEnsure
  rcases hk : lookupMap M k with _ | v
  · simp only [hk, Option.isSome_none, Bool.false_eq_true, if_false]
    rw [lookupMap_append]
    by_cases hjk : j = k
    · rw [if_pos hjk, hjk, hk]
      simp [lookupMap, closureGet, hk]
    · rw [if_neg hjk]
      cases hj : lookupMap M j with
      | none =>
          have hkj : ¬k = j := fun h => hjk h.symm
          simp [hj, lookupMap, hkj]
      | some w => simp [hj]
  · simp only [hk, Option.isSome_some, if_true]
    by_cases hjk : j = k
    · rw [if_pos hjk, hjk, hk]
      simp [closureGet, hk]
    · rw [if_neg hjk]

theorem closureGet_mapEnsure (M : List (String × List String)) (k j : String) :
    closureGet (mapEnsure M k) j = closureGet M j := by
  unfold closureGet
  rw [lookupMap_mapEnsure]
  by_cases hjk : j = k
  · rw [if_pos hjk, hjk]
    simp [closureGet]
  · rw [if_neg hjk]

theorem lookupMap_mapAddVal (M : List (String × List String)) (k v j : String) :
    lookupMap (mapAddVal M k v) j =
      if j = k then Option.map (fun s => setAdd s v) (lookupMap M k)
      else lookupMap M j := by
  induction M with
  | nil => simp [mapAddVal, lookupMap]
  | cons hd tl ih =>
      obtain ⟨a, s⟩ := hd
      by_cases hak : a = k
      · subst hak
        rw [show mapAddVal ((a, s) :: tl) a v = (a, setAdd s v) :: tl from by
          simp [mapAddVal]]
        by_cases hja : j = a
        · subst hja
          simp [lookupMap]
        · have haj : ¬a = j := fun h => hja h.symm
          simp [lookupMap, haj, hja]
      · rw [show mapAddVal ((a, s) :: tl) k v = (a, s) :: mapAddVal tl k v from by
          simp [mapAddVal, hak]]
        by_cases haj : a = j
        · subst haj
          simp [lookupMap, hak]
        · simp only [lookupMap, if_neg haj, if_neg hak]
          exact ih

theorem closureGet_invAdd (M : List (String × List String)) (p q a b : String) :
    b ∈ closureGet (invAdd M p q) a ↔
      b ∈ closureGet M a ∨ (a = p ∧ b = q) ∨ (a = q ∧ b = p) := by
  have h2p : lookupMap (mapEnsure (mapEnsure M p) q) p = some (closureGet M p) := by
    rw [lookupMap_mapEnsure]
    by_cases hpq : p = q
    · rw [if_pos hpq, closureGet_mapEnsure, ← hpq]
    · rw [if_neg hpq, lookupMap_mapEnsure, if_pos rfl]
  have h2q : lookupMap (mapEnsure (mapEnsure M p) q) q = some (closureGet M q) := by
    rw [lookupMap_mapEnsure, if_pos rfl, closureGet_mapEnsure]
  have h2x : ∀ x, x ≠ p → x ≠ q →
      lookupMap (mapEnsure (mapEnsure M p) q) x = lookupMap M x := by
    intro x hxp hxq
    rw [lookupMap_mapEnsure, if_neg hxq, lookupMap_mapEnsure, if_neg hxp]
  have hL : closureGet (invAdd M p q) a =
      (lookupMap (mapAddVal (mapAddVal (mapEnsure (mapEnsure M p) q) p q) q p)
        a).getD [] := rfl
  rw [hL, lookupMap_mapAddVal]
  by_cases haq : a = q
  · rw [if_pos haq, lookupMap_mapAddVal]
    by_cases hqp : q = p
    · subst hqp
      rw [if_pos rfl, h2p]
      subst haq
      simp only [Option.map_some', Option.getD_some]
      rw [mem_setAdd, mem_setAdd]
      tauto
    · rw [if_neg hqp, h2q]
      subst haq
      simp only [Option.map_some', Option.getD_some]
      rw [mem_setAdd]
      tauto
  · rw [if_neg haq, lookupMap_mapAddVal]
    by_cases hap : a = p
    · subst hap
      rw [if_pos rfl, h2p]
      simp only [Option.map_some', Option.getD_some]
      rw [mem_setAdd]
      tauto
    · rw [if_neg hap, h2x a hap haq]
      tauto

theorem invAdd_foldl_symm {M : List (String × List String)}
    (hM : ∀ a b, b ∈ closureGet M a ↔ a ∈ closureGet M b) (qs : List Stmt) :
    ∀ a b,
      b ∈ closureGet
        (qs.foldl (fun m q => invAdd m q.subject.value q.object.value) M) a ↔
      a ∈ closureGet
        (qs.foldl (fun m q => invAdd m q.subject.value q.object.value) M) b := by
  induction qs generalizing M with
  | nil => simpa using hM
  | cons q rest ih =>
      simp only [List.foldl_cons]
      apply ih
      intro a b
      rw [closureGet_invAdd, closureGet_invAdd, hM a b]
      tauto

/-- Claim C5: (1) `applyInverseAndSymmetric` emits, for each batch
statement `(x, p, y)`, the swapped statement `(y, p, x)` exactly when
`p` is a declared symmetric property and `(y, inv, x)` for exactly the
properties `inv` registered as inverses of `p` (the emitted predicate is
`$rdf.sym` of the property string, i.e. the original predicate whenever
it is a named node, which the data model guarantees); and (2) the
`inversePairs` map built at run start is symmetric by construction. -/
theorem C5_applyInverseAndSymmetric (ctx : InferCtx) (batch : List Stmt) :
    (∀ t : Stmt, t ∈ applyInverseAndSymmetric ctx batch ↔
      ∃ s ∈ batch,
        (s.predicate.value ∈ ctx.symmetricProps ∧
          t = { subject := s.object,
                predicate := Term.namedNode s.predicate.value,
                object := s.subject }) ∨
        (∃ inv ∈ closureGet ctx.inversePairs s.predicate.value,
          t = { subject := s.object, predicate := Term.namedNode inv,
                object := s.subject })) ∧
    (∀ store : List Stmt, ∀ p q : String,
      q ∈ closureGet (inversePairsOf store) p ↔
      p ∈ closureGet (inversePairsOf store) q) := by
  constructor
  · intro t
    unfold applyInverseAndSymmetric
    rw [List.mem_flatMap]
    constructor
    · rintro ⟨s, hs, ht⟩
      rcases List.mem_append.mp ht with h | h
      · by_cases hp : s.predicate.value ∈ ctx.symmetricProps
        · rw [if_pos hp] at h
          simp only [List.mem_singleton] at h
          exact ⟨s, hs, Or.inl ⟨hp, h⟩⟩
        · rw [if_neg hp] at h
          simp at h
      · rcases hlook : lookupMap ctx.inversePairs s.predicate.value with _ | invs
        · rw [hlook] at h; simp at h
        · rw [hlook] at h
          obtain ⟨inv, hinv, rfl⟩ := List.mem_map.mp h
          refine ⟨s, hs, Or.inr ⟨inv, ?_, rfl⟩⟩
          rw [closureGet, hlook]
          exact hinv
    · rintro ⟨s, hs, ⟨hp, rfl⟩ | ⟨inv, hinv, rfl⟩⟩
      · exact ⟨s, hs, List.mem_append_left _ (by rw [if_pos hp]; simp)⟩
      · refine ⟨s, hs, List.mem_append_right _ ?_⟩
        rcases hlook : lookupMap ctx.inversePairs s.predicate.value with _ | invs
        · rw [closureGet, hlook] at hinv; simp at hinv
        · rw [closureGet, hlook] at hinv
          exact List.mem_map.mpr ⟨inv, hinv, rfl⟩
  · intro store p q
    unfold inversePairsOf
    apply invAdd_foldl_symm
    apply invAdd_foldl_symm
    intro a b
    simp [closureGet, lookupMap]

/-! ### Dedup-key context independence (claim C6) -/

theorem enqueueStep_of_seen {st : InferState} {s : Stmt}
    (h : s.toNT ∈ st.seen) : enqueueStep st s = st := by
  unfold enqueueStep
  rw [if_pos h]

theorem seen_mem_enqueueStep_self (st : InferState) (s : Stmt) :
    s.toNT ∈ (enqueueStep st s).seen := by
  unfold enqueueStep
  by_cases h : s.toNT ∈ st.seen
  · rw [if_pos h]; exact h
  · rw [if_neg h]
    simp only
    unfold seenAdd
    rw [if_neg h]
    simp

/-- Claim C6: the dedup key `Statement.toNT()` depends only on subject,
predicate and object — two statements agreeing on those but differing in
context have the same key — and consequently at most one of them is ever
materialized: once the first has passed the novelty gate, enqueueing the
second changes nothing (working set, overlay, seen index, queues and
counts all stay as they were). -/
theorem C6_key_context_independent (s t : Stmt) (st : InferState)
    (hspo : sameSPO s t) :
    s.toNT = t.toNT ∧
      (s.toNT ∉ st.seen →
        enqueue st [s, t] = enqueueStep st s ∧
          enqueueStep (enqueueStep st s) t = enqueueStep st s) := by
  obtain ⟨h1, h2, h3⟩ := hspo
  have hkey : s.toNT = t.toNT := by
    unfold Stmt.toNT
    rw [h1, h2, h3]
  refine ⟨hkey, fun _ => ?_⟩
  have hseen : t.toNT ∈ (enqueueStep st s).seen :=
    hkey ▸ seen_mem_enqueueStep_self st s
  have hstep : enqueueStep (enqueueStep st s) t = enqueueStep st s :=
    enqueueStep_of_seen hseen
  exact ⟨by simp only [enqueue, List.foldl_cons, List.foldl_nil]; exact hstep, hstep⟩

/-! ### Effects of `enqueue` -/

theorem enqueue_cons (st : InferState) (c : Stmt) (cs : List Stmt) :
    enqueue st (c :: cs) = enqueue (enqueueStep st c) cs := by
  simp [enqueue]

theorem enqueueStep_seen_append (st : InferState) (c : Stmt) :
    ∃ m, (enqueueStep st c).seen = st.seen ++ m ∧
      ∀ x ∈ m, x ∉ st.seen ∧ x = c.toNT := by
  unfold enqueueStep
  by_cases h : c.toNT ∈ st.seen
  · rw [if_pos h]
    exact ⟨[], by simp, by simp⟩
  · rw [if_neg h]
    refine ⟨[c.toNT], ?_, by simp [h]⟩
    simp only
    unfold seenAdd
    rw [if_neg h]

theorem enqueue_seen_append (cs : List Stmt) (st : InferState) :
    ∃ ns, (enqueue st cs).seen = st.seen ++ ns ∧
      ∀ x ∈ ns, x ∉ st.seen ∧ ∃ c ∈ cs, x = c.toNT := by
  induction cs generalizing st with
  | nil => exact ⟨[], by simp [enqueue], by simp⟩
  | cons c cs ih =>
      rw [enqueue_cons]
      obtain ⟨m, hm, hmp⟩ := enqueueStep_seen_append st c
      obtain ⟨ns, hns, hnsp⟩ := ih (enqueueStep st c)
      refine ⟨m ++ ns, by rw [hns, hm, List.append_assoc], ?_⟩
      intro x hx
      rcases List.mem_append.mp hx with h | h
      · obtain ⟨h1, h2⟩ := hmp x h
        exact ⟨h1, c, List.mem_cons_self _ _, h2⟩
      · obtain ⟨h1, h2⟩ := hnsp x h
        rw [hm] at h1
        obtain ⟨c', hc', he⟩ := h2
        exact ⟨fun hmem => h1 (List.mem_append_left _ hmem), c',
          List.mem_cons_of_mem _ hc', he⟩

theorem enqueue_seen_mono (cs : List Stmt) (st : InferState) :
    ∀ x ∈ st.seen, x ∈ (enqueue st cs).seen := by
  obtain ⟨ns, hns, _⟩ := enqueue_seen_append cs st
  intro x hx
  rw [hns]
  exact List.mem_append_left _ hx

theorem enqueue_mem_seen (cs : List Stmt) (st : InferState) :
    ∀ c ∈ cs, c.toNT ∈ (enqueue st cs).seen := by
  induction cs generalizing st with
  | nil => simp
  | cons c cs ih =>
      intro d hd
      rw [enqueue_cons]
      rcases List.mem_cons.mp hd with h | h
      · subst h
        exact enqueue_seen_mono cs (enqueueStep st d) _
          (seen_mem_enqueueStep_self st d)
      · exact ih (enqueueStep st c) d h

theorem enqueue_eq_of_seen_eq (cs : List Stmt) (st : InferState)
    (hEq : (enqueue st cs).seen = st.seen) : enqueue st cs = st := by
  induction cs generalizing st with
  | nil => simp [enqueue]
  | cons c cs ih =>
      rw [enqueue_cons] at hEq ⊢
      by_cases h : c.toNT ∈ st.seen
      · rw [enqueueStep_of_seen h] at hEq ⊢
        exact ih st hEq
      · exfalso
        have hm2 : (enqueueStep st c).seen = st.seen ++ [c.toNT] := by
          unfold enqueueStep
          rw [if_neg h]
          simp only
          unfold seenAdd
          rw [if_neg h]
        obtain ⟨ns, hns, _⟩ := enqueue_seen_append cs (enqueueStep st c)
        rw [hns, hm2] at hEq
        have hlen := congrArg List.length hEq
        simp only [List.length_append, List.length_singleton] at hlen
        omega

theorem enqueueStep_workTypes_mem (st : InferState) (c : Stmt) :
    ∀ s ∈ (enqueueStep st c).workTypes, s ∈ st.workTypes ∨ s = c := by
  unfold enqueueStep
  by_cases h : c.toNT ∈ st.seen
  · rw [if_pos h]
    exact fun s hs => Or.inl hs
  · rw [if_neg h]
    simp only
    by_cases hp : c.predicate.value = RDF_TYPE
    · rw [if_pos hp]
      intro s hs
      rcases List.mem_append.mp hs with h | h
      · exact Or.inl h
      · exact Or.inr (List.mem_singleton.mp h)
    · rw [if_neg hp]
      exact fun s hs => Or.inl hs

theorem enqueueStep_workProps_mem (st : InferState) (c : Stmt) :
    ∀ s ∈ (enqueueStep st c).workProps, s ∈ st.workProps ∨ s = c := by
  unfold enqueueStep
  by_cases h : c.toNT ∈ st.seen
  · rw [if_pos h]
    exact fun s hs => Or.inl hs
  · rw [if_neg h]
    simp only
    by_cases hp : c.predicate.value = RDF_TYPE
    · rw [if_pos hp]
      exact fun s hs => Or.inl hs
    · rw [if_neg hp]
      intro s hs
      rcases List.mem_append.mp hs with h | h
      · exact Or.inl h
      · exact Or.inr (List.mem_singleton.mp h)

theorem enqueue_workTypes_mem (cs : List Stmt) (st : InferState) :
    ∀ s ∈ (enqueue st cs).workTypes, s ∈ st.workTypes ∨ s ∈ cs := by
  induction cs generalizing st with
  | nil => simp [enqueue]
  | cons c cs ih =>
      rw [enqueue_cons]
      intro s hs
      rcases ih (enqueueStep st c) s hs with h | h
      · rcases enqueueStep_workTypes_mem st c s h with h2 | h2
        · exact Or.inl h2
        · exact Or.inr (h2 ▸ List.mem_cons_self _ _)
      · exact Or.inr (List.mem_cons_of_mem _ h)

theorem enqueue_workProps_mem (cs : List Stmt) (st : InferState) :
    ∀ s ∈ (enqueue st cs).workProps, s ∈ st.workProps ∨ s ∈ cs := by
  induction cs generalizing st with
  | nil => simp [enqueue]
  | cons c cs ih =>
      rw [enqueue_cons]
      intro s hs
      rcases ih (enqueueStep st c) s hs with h | h
      · rcases enqueueStep_workProps_mem st c s h with h2 | h2
        · exact Or.inl h2
        · exact Or.inr (h2 ▸ List.mem_cons_self _ _)
      · exact Or.inr (List.mem_cons_of_mem _ h)

theorem enqueue_appends (cs : List Stmt) (st : InferState) :
    (∃ t1, (enqueue st cs).baseGraph = st.baseGraph ++ t1) ∧
      (∃ t2, (enqueue st cs).overlayStore = st.overlayStore ++ t2) ∧
      (∃ t3, (enqueue st cs).rdfjsStore = st.rdfjsStore ++ t3) := by
  induction cs generalizing st with
  | nil => exact ⟨⟨[], by simp [enqueue]⟩, ⟨[], by simp [enqueue]⟩, ⟨[], by simp [enqueue]⟩⟩
  | cons c cs ih =>
      rw [enqueue_cons]
      obtain ⟨⟨t1, h1⟩, ⟨t2, h2⟩, ⟨t3, h3⟩⟩ := ih (enqueueStep st c)
      have hstep :
          (∃ u1, (enqueueStep st c).baseGraph = st.baseGraph ++ u1) ∧
            (∃ u2, (enqueueStep st c).overlayStore = st.overlayStore ++ u2) ∧
            (∃ u3, (enqueueStep st c).rdfjsStore = st.rdfjsStore ++ u3) := by
        unfold enqueueStep
        by_cases h : c.toNT ∈ st.seen
        · rw [if_pos h]
          exact ⟨⟨[], by simp⟩, ⟨[], by simp⟩, ⟨[], by simp⟩⟩
        · rw [if_neg h]
          refine ⟨⟨_, rfl⟩, ?_, ?_⟩
          · unfold addQuadDedup
            by_cases hq : enqueueQuad c ∈ st.overlayStore
            · rw [if_pos hq]; exact ⟨[], by simp⟩
            · rw [if_neg hq]; exact ⟨[enqueueQuad c], rfl⟩
          · unfold addQuadDedup
            by_cases hq : enqueueQuad c ∈ st.rdfjsStore
            · rw [if_pos hq]; exact ⟨[], by simp⟩
            · rw [if_neg hq]; exact ⟨[enqueueQuad c], rfl⟩
      obtain ⟨⟨u1, g1⟩, ⟨u2, g2⟩, ⟨u3, g3⟩⟩ := hstep
      exact ⟨⟨u1 ++ t1, by rw [h1, g1, List.append_assoc]⟩,
        ⟨u2 ++ t2, by rw [h2, g2, List.append_assoc]⟩,
        ⟨u3 ++ t3, by rw [h3, g3, List.append_assoc]⟩⟩

/-! ### Queue-drain termination (claim C7) -/

theorem filter_length_lt_of_mem {l : List String} {p q : String → Bool}
    (himp : ∀ x, p x = true → q x = true) {y : String}
    (hyl : y ∈ l) (hq : q y = true) (hp : p y = false) :
    (l.filter p).length < (l.filter q).length := by
  have hsub : (l.filter p).Sublist (l.filter q) :=
    List.monotone_filter_right l himp
  apply Nat.lt_of_le_of_ne (List.Sublist.length_le hsub)
  intro hlen
  have heq := List.Sublist.eq_of_length hsub hlen
  have hymem : y ∈ l.filter q := List.mem_filter.mpr ⟨hyl, hq⟩
  rw [← heq] at hymem
  have := (List.mem_filter.mp hymem).2
  rw [hp] at this
  cases this

theorem mem_seenAdd {l : List String} {x b : String} :
    b ∈ seenAdd l x ↔ b ∈ l ∨ b = x := by
  unfold seenAdd
  by_cases h : x ∈ l
  · rw [if_pos h]
    constructor
    · exact Or.inl
    · rintro (hb | rfl)
      · exact hb
      · exact h
  · rw [if_neg h]; simp

theorem mem_ntSetOf_iff {l : List Stmt} {x : String} :
    x ∈ ntSetOf l ↔ ∃ c ∈ l, x = c.toNT := by
  have hgen : ∀ (acc : List String),
      x ∈ l.foldl (fun a q => seenAdd a q.toNT) acc ↔
        x ∈ acc ∨ ∃ c ∈ l, x = c.toNT := by
    induction l with
    | nil => simp
    | cons c cs ih =>
        intro acc
        rw [List.foldl_cons, ih, mem_seenAdd]
        constructor
        · rintro ((h | rfl) | ⟨d, hd, he⟩)
          · exact Or.inl h
          · exact Or.inr ⟨c, List.mem_cons_self _ _, rfl⟩
          · exact Or.inr ⟨d, List.mem_cons_of_mem _ hd, he⟩
        · rintro (h | ⟨d, hd, he⟩)
          · exact Or.inl (Or.inl h)
          · rcases List.mem_cons.mp hd with h2 | h2
            · exact Or.inl (Or.inr (h2 ▸ he))
            · exact Or.inr ⟨d, h2, he⟩
  rw [ntSetOf, hgen]
  simp

theorem mem_expandTypes_singleton (ctx : InferCtx) (batch : List Stmt) (t : Stmt) :
    t ∈ expandTypesWithClosure ctx batch ↔
      ∃ s ∈ batch, t ∈ expandTypesWithClosure ctx [s] := by
  unfold expandTypesWithClosure
  simp [List.mem_flatMap]

theorem mem_expandProps_singleton (ctx : InferCtx) (batch : List Stmt) (t : Stmt) :
    t ∈ expandPropsWithClosure ctx batch ↔
      ∃ s ∈ batch, t ∈ expandPropsWithClosure ctx [s] := by
  unfold expandPropsWithClosure
  simp [List.mem_flatMap]

theorem mem_applyInvSym_singleton (ctx : InferCtx) (batch : List Stmt) (t : Stmt) :
    t ∈ applyInverseAndSymmetric ctx batch ↔
      ∃ s ∈ batch, t ∈ applyInverseAndSymmetric ctx [s] := by
  unfold applyInverseAndSymmetric
  simp [List.mem_flatMap]

theorem mem_applyDomainRange_singleton (ctx : InferCtx) (batch : List Stmt) (t : Stmt) :
    t ∈ applyDomainRange ctx batch ↔
      ∃ s ∈ batch, t ∈ applyDomainRange ctx [s] := by
  unfold applyDomainRange
  simp [List.mem_flatMap]

theorem mem_applyTransitive_singleton (ctx : InferCtx) (store batch : List Stmt)
    (t : Stmt) :
    t ∈ applyTransitiveProps ctx store batch ↔
      ∃ s ∈ batch, t ∈ applyTransitiveProps ctx store [s] := by
  unfold applyTransitiveProps
  simp [List.mem_flatMap]

theorem ite_enqueue_fst (st : InferState) (p : Bool) (l : List Stmt) :
    (if l.isEmpty then (st, p) else (enqueue st l, true)).1 = enqueue st l := by
  cases l with
  | nil => simp [enqueue]
  | cons a as => simp [List.isEmpty]

theorem drainTypes_fst (ctx : InferCtx) (st : InferState) (prog : Bool) :
    (drainTypes ctx st prog).1 =
      if st.workTypes.isEmpty then st
      else enqueue { st with workTypes := [] }
        (expandTypesWithClosure ctx st.workTypes) := by
  unfold drainTypes
  cases hemp : st.workTypes.isEmpty
  · simp only [Bool.false_eq_true, if_false]
    exact ite_enqueue_fst _ _ _
  · simp only [if_true]

theorem drainProps_fst (ctx : InferCtx) (st : InferState) (prog : Bool) :
    (drainProps ctx st prog).1 =
      if st.workProps.isEmpty then st
      else
        enqueue
          (enqueue
            (enqueue
              (enqueue { st with workProps := [] }
                (expandPropsWithClosure ctx st.workProps))
              (applyInverseAndSymmetric ctx st.workProps))
            (applyDomainRange ctx st.workProps))
          (applyTransitiveProps ctx st.rdfjsStore st.workProps) := by
  unfold drainProps
  cases hemp : st.workProps.isEmpty
  · simp only [Bool.false_eq_true, if_false, ite_enqueue_fst]
  · simp only [if_true]

/-- One stage of draining: enqueueing candidates that all lie in the
universe `U` keeps both queues inside `U`, grows the seen set only by
fresh keys of `U`-statements, and is the identity when the seen set does
not grow. -/
theorem enqueue_stage (U : List Stmt) (st : InferState) (l : List Stmt)
    (hl : ∀ c ∈ l, c ∈ U)
    (hT : ∀ s ∈ st.workTypes, s ∈ U) (hP : ∀ s ∈ st.workProps, s ∈ U) :
    (∀ s ∈ (enqueue st l).workTypes, s ∈ U) ∧
      (∀ s ∈ (enqueue st l).workProps, s ∈ U) ∧
      (∃ ns, (enqueue st l).seen = st.seen ++ ns ∧
        ∀ x ∈ ns, x ∉ st.seen ∧ ∃ c ∈ U, x = c.toNT) ∧
      ((enqueue st l).seen = st.seen → enqueue st l = st) := by
  refine ⟨?_, ?_, ?_, enqueue_eq_of_seen_eq l st⟩
  · intro s hs
    rcases enqueue_workTypes_mem l st s hs with h | h
    · exact hT s h
    · exact hl s h
  · intro s hs
    rcases enqueue_workProps_mem l st s hs with h | h
    · exact hP s h
    · exact hl s h
  · obtain ⟨ns, hns, hprop⟩ := enqueue_seen_append l st
    refine ⟨ns, hns, fun x hx => ?_⟩
    obtain ⟨h1, c, hc, he⟩ := hprop x hx
    exact ⟨h1, c, hl c hc, he⟩

theorem drainTypes_spec (ctx : InferCtx) (U : List Stmt) (st : InferState)
    (prog : Bool)
    (hT : ∀ s ∈ st.workTypes, s ∈ U) (hP : ∀ s ∈ st.workProps, s ∈ U)
    (hU1 : ∀ s ∈ U, ∀ t ∈ expandTypesWithClosure ctx [s], t ∈ U) :
    (∀ s ∈ (drainTypes ctx st prog).1.workTypes, s ∈ U) ∧
      (∀ s ∈ (drainTypes ctx st prog).1.workProps, s ∈ U) ∧
      (∃ ns, (drainTypes ctx st prog).1.seen = st.seen ++ ns ∧
        ∀ x ∈ ns, x ∉ st.seen ∧ ∃ c ∈ U, x = c.toNT) ∧
      ((drainTypes ctx st prog).1.seen = st.seen →
        (drainTypes ctx st prog).1.workTypes = [] ∧
          (drainTypes ctx st prog).1.workProps = st.workProps) := by
  rw [drainTypes_fst]
  by_cases hemp : st.workTypes.isEmpty
  · rw [if_pos hemp]
    exact ⟨hT, hP, ⟨[], by simp, by simp⟩,
      fun _ => ⟨List.isEmpty_iff.mp hemp, rfl⟩⟩
  · rw [if_neg hemp]
    have hextra : ∀ c ∈ expandTypesWithClosure ctx st.workTypes, c ∈ U := by
      intro c hc
      obtain ⟨s, hs, hc1⟩ := (mem_expandTypes_singleton ctx st.workTypes c).mp hc
      exact hU1 s (hT s hs) c hc1
    obtain ⟨h1, h2, ⟨ns, hns, hnsp⟩, h4⟩ :=
      enqueue_stage U { st with workTypes := [] }
        (expandTypesWithClosure ctx st.workTypes) hextra (by simp) hP
    refine ⟨h1, h2, ⟨ns, hns, hnsp⟩, fun hgrow => ?_⟩
    have := h4 hgrow
    rw [this]
    exact ⟨rfl, rfl⟩

theorem drainProps_spec (ctx : InferCtx) (U : List Stmt) (st : InferState)
    (prog : Bool)
    (hT : ∀ s ∈ st.workTypes, s ∈ U) (hP : ∀ s ∈ st.workProps, s ∈ U)
    (hU2 : ∀ s ∈ U, ∀ t ∈ expandPropsWithClosure ctx [s], t ∈ U)
    (hU3 : ∀ s ∈ U, ∀ t ∈ applyInverseAndSymmetric ctx [s], t ∈ U)
    (hU4 : ∀ s ∈ U, ∀ t ∈ applyDomainRange ctx [s], t ∈ U)
    (hU5 : ∀ s ∈ U, ∀ store : List Stmt,
      ∀ t ∈ applyTransitiveProps ctx store [s], t ∈ U) :
    (∀ s ∈ (drainProps ctx st prog).1.workTypes, s ∈ U) ∧
      (∀ s ∈ (drainProps ctx st prog).1.workProps, s ∈ U) ∧
      (∃ ns, (drainProps ctx st prog).1.seen = st.seen ++ ns ∧
        ∀ x ∈ ns, x ∉ st.seen ∧ ∃ c ∈ U, x = c.toNT) ∧
      ((drainProps ctx st prog).1.seen = st.seen →
        (drainProps ctx st prog).1.workProps = [] ∧
          (drainProps ctx st prog).1.workTypes = st.workTypes) := by
  rw [drainProps_fst]
  by_cases hemp : st.workProps.isEmpty
  · rw [if_pos hemp]
    exact ⟨hT, hP, ⟨[], by simp, by simp⟩,
      fun _ => ⟨List.isEmpty_iff.mp hemp, rfl⟩⟩
  · rw [if_neg hemp]
    have he1 : ∀ c ∈ expandPropsWithClosure ctx st.workProps, c ∈ U := by
      intro c hc
      obtain ⟨s, hs, hc1⟩ := (mem_expandProps_singleton ctx st.workProps c).mp hc
      exact hU2 s (hP s hs) c hc1
    have he2 : ∀ c ∈ applyInverseAndSymmetric ctx st.workProps, c ∈ U := by
      intro c hc
      obtain ⟨s, hs, hc1⟩ := (mem_applyInvSym_singleton ctx st.workProps c).mp hc
      exact hU3 s (hP s hs) c hc1
    have he3 : ∀ c ∈ applyDomainRange ctx st.workProps, c ∈ U := by
      intro c hc
      obtain ⟨s, hs, hc1⟩ := (mem_applyDomainRange_singleton ctx st.workProps c).mp hc
      exact hU4 s (hP s hs) c hc1
    have he4 : ∀ c ∈ applyTransitiveProps ctx st.rdfjsStore st.workProps, c ∈ U := by
      intro c hc
      obtain ⟨s, hs, hc1⟩ :=
        (mem_applyTransitive_singleton ctx st.rdfjsStore st.workProps c).mp hc
      exact hU5 s (hP s hs) st.rdfjsStore c hc1
    obtain ⟨a1, a2, ⟨n1, hn1, hp1⟩, a4⟩ :=
      enqueue_stage U { st with workProps := [] }
        (expandPropsWithClosure ctx st.workProps) he1 hT (by simp)
    obtain ⟨b1, b2, ⟨n2, hn2, hp2⟩, b4⟩ :=
      enqueue_stage U _ (applyInverseAndSymmetric ctx st.workProps) he2 a1 a2
    obtain ⟨c1, c2, ⟨n3, hn3, hp3⟩, c4⟩ :=
      enqueue_stage U _ (applyDomainRange ctx st.workProps) he3 b1 b2
    obtain ⟨d1, d2, ⟨n4, hn4, hp4⟩, d4⟩ :=
      enqueue_stage U _ (applyTransitiveProps ctx st.rdfjsStore st.workProps)
        he4 c1 c2
    have hseen : (enqueue (enqueue (enqueue (enqueue { st with workProps := [] }
        (expandPropsWithClosure ctx st.workProps))
        (applyInverseAndSymmetric ctx st.workProps))
        (applyDomainRange ctx st.workProps))
        (applyTransitiveProps ctx st.rdfjsStore st.workProps)).seen =
        st.seen ++ (n1 ++ n2 ++ n3 ++ n4) := by
      rw [hn4, hn3, hn2, hn1]
      simp [List.append_assoc]
    refine ⟨d1, d2, ⟨n1 ++ n2 ++ n3 ++ n4, hseen, ?_⟩, fun hgrow => ?_⟩
    · intro x hx
      have hmono1 : ∀ y ∈ st.seen,
          y ∈ (enqueue { st with workProps := [] }
            (expandPropsWithClosure ctx st.workProps)).seen := by
        intro y hy
        rw [hn1]; exact List.mem_append_left _ hy
      have hmono2 : ∀ y ∈ st.seen,
          y ∈ (enqueue (enqueue { st with workProps := [] }
            (expandPropsWithClosure ctx st.workProps))
            (applyInverseAndSymmetric ctx st.workProps)).seen := by
        intro y hy
        rw [hn2]; exact List.mem_append_left _ (hmono1 y hy)
      have hmono3 : ∀ y ∈ st.seen,
          y ∈ (enqueue (enqueue (enqueue { st with workProps := [] }
            (expandPropsWithClosure ctx st.workProps))
            (applyInverseAndSymmetric ctx st.workProps))
            (applyDomainRange ctx st.workProps)).seen := by
        intro y hy
        rw [hn3]; exact List.mem_append_left _ (hmono2 y hy)
      rcases List.mem_append.mp hx with hx1 | hx4
      · rcases List.mem_append.mp hx1 with hx1 | hx3
        · rcases List.mem_append.mp hx1 with hx1 | hx2
          · obtain ⟨hf, hc⟩ := hp1 x hx1
            exact ⟨hf, hc⟩
          · obtain ⟨hf, hc⟩ := hp2 x hx2
            exact ⟨fun hmem => hf (hmono1 x hmem), hc⟩
        · obtain ⟨hf, hc⟩ := hp3 x hx3
          exact ⟨fun hmem => hf (hmono2 x hmem), hc⟩
      · obtain ⟨hf, hc⟩ := hp4 x hx4
        exact ⟨fun hmem => hf (hmono3 x hmem), hc⟩
    · -- no growth: every stage was the identity
      rw [hseen] at hgrow
      have hlen := congrArg List.length hgrow
      simp only [List.length_append] at hlen
      have h1n : n1 = [] := List.eq_nil_of_length_eq_zero (by omega)
      have h2n : n2 = [] := List.eq_nil_of_length_eq_zero (by omega)
      have h3n : n3 = [] := List.eq_nil_of_length_eq_zero (by omega)
      have h4n : n4 = [] := List.eq_nil_of_length_eq_zero (by omega)
      have e1 := a4 (by rw [hn1, h1n, List.append_nil])
      rw [e1] at hn2 hn3 hn4 b4 c4 d4 ⊢
      have e2 := b4 (by rw [hn2, h2n, List.append_nil])
      rw [e2] at hn3 hn4 c4 d4 ⊢
      have e3 := c4 (by rw [hn3, h3n, List.append_nil])
      rw [e3] at hn4 d4 ⊢
      have e4 := d4 (by rw [hn4, h4n, List.append_nil])
      rw [e4]
      exact ⟨rfl, rfl⟩

theorem drainBody_spec (ctx : InferCtx) (U : List Stmt) (st : InferState)
    (prog : Bool)
    (hT : ∀ s ∈ st.workTypes, s ∈ U) (hP : ∀ s ∈ st.workProps, s ∈ U)
    (hU1 : ∀ s ∈ U, ∀ t ∈ expandTypesWithClosure ctx [s], t ∈ U)
    (hU2 : ∀ s ∈ U, ∀ t ∈ expandPropsWithClosure ctx [s], t ∈ U)
    (hU3 : ∀ s ∈ U, ∀ t ∈ applyInverseAndSymmetric ctx [s], t ∈ U)
    (hU4 : ∀ s ∈ U, ∀ t ∈ applyDomainRange ctx [s], t ∈ U)
    (hU5 : ∀ s ∈ U, ∀ store : List Stmt,
      ∀ t ∈ applyTransitiveProps ctx store [s], t ∈ U) :
    (∀ s ∈ (drainBody ctx st prog).1.workTypes, s ∈ U) ∧
      (∀ s ∈ (drainBody ctx st prog).1.workProps, s ∈ U) ∧
      (∃ ns, (drainBody ctx st prog).1.seen = st.seen ++ ns ∧
        ∀ x ∈ ns, x ∉ st.seen ∧ ∃ c ∈ U, x = c.toNT) ∧
      ((drainBody ctx st prog).1.seen = st.seen →
        (drainBody ctx st prog).1.workTypes = [] ∧
          (drainBody ctx st prog).1.workProps = []) := by
  obtain ⟨a1, a2, ⟨nsA, hnsA, hpA⟩, a4⟩ := drainTypes_spec ctx U st prog hT hP hU1
  obtain ⟨b1, b2, ⟨nsB, hnsB, hpB⟩, b4⟩ :=
    drainProps_spec ctx U (drainTypes ctx st prog).1 (drainTypes ctx st prog).2
      a1 a2 hU2 hU3 hU4 hU5
  have hbody : drainBody ctx st prog =
      drainProps ctx (drainTypes ctx st prog).1 (drainTypes ctx st prog).2 := rfl
  rw [hbody]
  refine ⟨b1, b2, ⟨nsA ++ nsB, ?_, ?_⟩, fun hgrow => ?_⟩
  · rw [hnsB, hnsA, List.append_assoc]
  · intro x hx
    rcases List.mem_append.mp hx with hx | hx
    · exact hpA x hx
    · obtain ⟨hf, hc⟩ := hpB x hx
      refine ⟨fun hmem => hf ?_, hc⟩
      rw [hnsA]
      exact List.mem_append_left _ hmem
  · rw [hnsB, hnsA, List.append_assoc] at hgrow
    have hlen := congrArg List.length hgrow
    simp only [List.length_append] at hlen
    have hAn : nsA = [] := List.eq_nil_of_length_eq_zero (by omega)
    have hBn : nsB = [] := List.eq_nil_of_length_eq_zero (by omega)
    have hAeq : (drainTypes ctx st prog).1.seen = st.seen := by
      rw [hnsA, hAn, List.append_nil]
    obtain ⟨hA1, hA2⟩ := a4 hAeq
    obtain ⟨hB1, hB2⟩ := b4 (by rw [hnsB, hBn, List.append_nil])
    exact ⟨hB2.trans hA1, hB1⟩

theorem processQueuesAux_empty (ctx : InferCtx) (fuel : Nat) (st : InferState)
    (prog : Bool) (hT : st.workTypes = []) (hP : st.workProps = []) :
    processQueuesAux ctx fuel st prog = some (st, prog) := by
  cases fuel with
  | zero =>
      rw [processQueuesAux]
      rw [if_pos ⟨by simp [hT], by simp [hP]⟩]
  | succ f =>
      rw [processQueuesAux]
      rw [if_pos ⟨by simp [hT], by simp [hP]⟩]

theorem processQueuesAux_step (ctx : InferCtx) (fuel : Nat) (st : InferState)
    (prog : Bool) (hcond : ¬(st.workTypes.isEmpty ∧ st.workProps.isEmpty)) :
    processQueuesAux ctx (fuel + 1) st prog =
      processQueuesAux ctx fuel (drainBody ctx st prog).1 (drainBody ctx st prog).2 := by
  conv_lhs => rw [processQueuesAux]
  rw [if_neg hcond]

theorem processQueuesAux_terminates (ctx : InferCtx) (U : List Stmt)
    (hU1 : ∀ s ∈ U, ∀ t ∈ expandTypesWithClosure ctx [s], t ∈ U)
    (hU2 : ∀ s ∈ U, ∀ t ∈ expandPropsWithClosure ctx [s], t ∈ U)
    (hU3 : ∀ s ∈ U, ∀ t ∈ applyInverseAndSymmetric ctx [s], t ∈ U)
    (hU4 : ∀ s ∈ U, ∀ t ∈ applyDomainRange ctx [s], t ∈ U)
    (hU5 : ∀ s ∈ U, ∀ store : List Stmt,
      ∀ t ∈ applyTransitiveProps ctx store [s], t ∈ U) :
    ∀ (n : Nat) (st : InferState) (prog : Bool),
      (∀ s ∈ st.workTypes, s ∈ U) → (∀ s ∈ st.workProps, s ∈ U) →
      ((ntSetOf U).filter (fun x => decide (x ∉ st.seen))).length ≤ n →
      ∃ st' prog', processQueuesAux ctx (n + 1) st prog = some (st', prog') ∧
        st'.workTypes = [] ∧ st'.workProps = [] := by
  intro n
  induction n with
  | zero =>
      intro st prog hT hP hcount
      by_cases hq : st.workTypes = [] ∧ st.workProps = []
      · exact ⟨st, prog, processQueuesAux_empty ctx 1 st prog hq.1 hq.2, hq.1, hq.2⟩
      · have hcond : ¬(st.workTypes.isEmpty ∧ st.workProps.isEmpty) := by
          intro hh
          exact hq ⟨List.isEmpty_iff.mp hh.1, List.isEmpty_iff.mp hh.2⟩
        obtain ⟨b1, b2, ⟨ns, hns, hnsp⟩, b4⟩ :=
          drainBody_spec ctx U st prog hT hP hU1 hU2 hU3 hU4 hU5
        cases ns with
        | cons x xs =>
            exfalso
            obtain ⟨hf, c, hc, he⟩ := hnsp x (List.mem_cons_self _ _)
            have hx : x ∈ (ntSetOf U).filter (fun y => decide (y ∉ st.seen)) :=
              List.mem_filter.mpr
                ⟨mem_ntSetOf_iff.mpr ⟨c, hc, he⟩, by simp [hf]⟩
            have : 0 < ((ntSetOf U).filter
                (fun y => decide (y ∉ st.seen))).length :=
              List.length_pos_of_mem hx
            omega
        | nil =>
            obtain ⟨hq1, hq2⟩ := b4 (by rw [hns, List.append_nil])
            rw [processQueuesAux_step ctx 0 st prog hcond]
            exact ⟨(drainBody ctx st prog).1, (drainBody ctx st prog).2,
              processQueuesAux_empty ctx 0 _ _ hq1 hq2, hq1, hq2⟩
  | succ n ih =>
      intro st prog hT hP hcount
      by_cases hq : st.workTypes = [] ∧ st.workProps = []
      · exact ⟨st, prog, processQueuesAux_empty ctx (n + 2) st prog hq.1 hq.2,
          hq.1, hq.2⟩
      · have hcond : ¬(st.workTypes.isEmpty ∧ st.workProps.isEmpty) := by
          intro hh
          exact hq ⟨List.isEmpty_iff.mp hh.1, List.isEmpty_iff.mp hh.2⟩
        obtain ⟨b1, b2, ⟨ns, hns, hnsp⟩, b4⟩ :=
          drainBody_spec ctx U st prog hT hP hU1 hU2 hU3 hU4 hU5
        rw [processQueuesAux_step ctx (n + 1) st prog hcond]
        cases ns with
        | nil =>
            obtain ⟨hq1, hq2⟩ := b4 (by rw [hns, List.append_nil])
            exact ⟨(drainBody ctx st prog).1, (drainBody ctx st prog).2,
              processQueuesAux_empty ctx (n + 1) _ _ hq1 hq2, hq1, hq2⟩
        | cons x xs =>
            apply ih (drainBody ctx st prog).1 (drainBody ctx st prog).2 b1 b2
            obtain ⟨hf, c, hc, he⟩ := hnsp x (List.mem_cons_self _ _)
            have hlt : ((ntSetOf U).filter
                (fun y => decide (y ∉ (drainBody ctx st prog).1.seen))).length <
                ((ntSetOf U).filter (fun y => decide (y ∉ st.seen))).length := by
              apply filter_length_lt_of_mem (y := x)
              · intro z hz
                simp only [decide_eq_true_eq] at hz ⊢
                intro hmem
                apply hz
                rw [hns]
                exact List.mem_append_left _ hmem
              · exact mem_ntSetOf_iff.mpr ⟨c, hc, he⟩
              · simp [hf]
              · simp only [decide_eq_false_iff_not, Decidable.not_not]
                rw [hns]
                exact List.mem_append_right _ (List.mem_cons_self _ _)
            omega

/-- Claim C7: whenever the universe of derivable statements is finite —
formalized as a finite list `U` containing both queues and closed under
every per-statement expansion the drain loop can perform — the inner
drain loop `processQueues` terminates within `|keys of U| + 1`
iterations of fuel, and when it returns both the type queue and the
property queue are empty.  (The outer rule loop calls `processQueues`
after every rule, so both queues are empty between outer rule
iterations.) -/
theorem C7_processQueues_drains (ctx : InferCtx) (U : List Stmt) (st : InferState)
    (hT : ∀ s ∈ st.workTypes, s ∈ U) (hP : ∀ s ∈ st.workProps, s ∈ U)
    (hU1 : ∀ s ∈ U, ∀ t ∈ expandTypesWithClosure ctx [s], t ∈ U)
    (hU2 : ∀ s ∈ U, ∀ t ∈ expandPropsWithClosure ctx [s], t ∈ U)
    (hU3 : ∀ s ∈ U, ∀ t ∈ applyInverseAndSymmetric ctx [s], t ∈ U)
    (hU4 : ∀ s ∈ U, ∀ t ∈ applyDomainRange ctx [s], t ∈ U)
    (hU5 : ∀ s ∈ U, ∀ store : List Stmt,
      ∀ t ∈ applyTransitiveProps ctx store [s], t ∈ U) :
    ∃ st' prog, processQueues ctx ((ntSetOf U).length + 1) st = some (st', prog) ∧
      st'.workTypes = [] ∧ st'.workProps = [] := by
  unfold processQueues
  exact processQueuesAux_terminates ctx U hU1 hU2 hU3 hU4 hU5 (ntSetOf U).length
    st false hT hP (List.length_filter_le _ _)

/-- Witness for C7: a concrete state with one queued type assertion over
empty frozen indices drains to empty queues. -/
theorem C7_witness :
    ∃ st' prog,
      processQueues (InferCtx.mk [] [] [] [] [] [] [])
        ((ntSetOf [Stmt.mk (Term.namedNode "urn:x") (Term.namedNode RDF_TYPE)
          (Term.namedNode "urn:C") none]).length + 1)
        (InferState.mk [] [] [] []
          [Stmt.mk (Term.namedNode "urn:x") (Term.namedNode RDF_TYPE)
            (Term.namedNode "urn:C") none] []) = some (st', prog) ∧
        st'.workTypes = [] ∧ st'.workProps = [] := by
  apply C7_processQueues_drains (InferCtx.mk [] [] [] [] [] [] [])
    [Stmt.mk (Term.namedNode "urn:x") (Term.namedNode RDF_TYPE)
      (Term.namedNode "urn:C") none]
  · intro s hs; exact hs
  · intro s hs; simp at hs
  · intro s _ t ht
    simp [expandTypesWithClosure, lookupMap] at ht
  · intro s _ t ht
    simp [expandPropsWithClosure, lookupMap] at ht
  · intro s _ t ht
    simp [applyInverseAndSymmetric, lookupMap] at ht
  · intro s _ t ht
    simp [applyDomainRange, lookupMap] at ht
  · intro s _ store t ht
    simp [applyTransitiveProps] at ht

/-! ### Error propagation and no-rollback monotonicity (claim C8) -/

theorem growsTo_refl (st : InferState) : GrowsTo st st :=
  ⟨⟨[], by simp⟩, ⟨[], by simp⟩⟩

theorem growsTo_trans {a b c : InferState} (h1 : GrowsTo a b) (h2 : GrowsTo b c) :
    GrowsTo a c := by
  obtain ⟨⟨n1, hn1⟩, ⟨t1, ht1⟩⟩ := h1
  obtain ⟨⟨n2, hn2⟩, ⟨t2, ht2⟩⟩ := h2
  exact ⟨⟨n1 ++ n2, by rw [hn2, hn1, List.append_assoc]⟩,
    ⟨t1 ++ t2, by rw [ht2, ht1, List.append_assoc]⟩⟩

theorem enqueue_growsTo (st : InferState) (l : List Stmt) :
    GrowsTo st (enqueue st l) := by
  obtain ⟨ns, hns, _⟩ := enqueue_seen_append l st
  exact ⟨⟨ns, hns⟩, (enqueue_appends l st).2.1⟩

theorem drainTypes_growsTo (ctx : InferCtx) (st : InferState) (prog : Bool) :
    GrowsTo st (drainTypes ctx st prog).1 := by
  rw [drainTypes_fst]
  by_cases hemp : st.workTypes.isEmpty
  · rw [if_pos hemp]; exact growsTo_refl st
  · rw [if_neg hemp]
    exact growsTo_trans (growsTo_refl _)
      (enqueue_growsTo { st with workTypes := [] } _)

theorem drainProps_growsTo (ctx : InferCtx) (st : InferState) (prog : Bool) :
    GrowsTo st (drainProps ctx st prog).1 := by
  rw [drainProps_fst]
  by_cases hemp : st.workProps.isEmpty
  · rw [if_pos hemp]; exact growsTo_refl st
  · rw [if_neg hemp]
    refine growsTo_trans (growsTo_trans (growsTo_trans (growsTo_trans
      (growsTo_refl { st with workProps := [] }) (enqueue_growsTo _ _))
      (enqueue_growsTo _ _)) (enqueue_growsTo _ _)) (enqueue_growsTo _ _)

theorem drainBody_growsTo (ctx : InferCtx) (st : InferState) (prog : Bool) :
    GrowsTo st (drainBody ctx st prog).1 := by
  unfold drainBody
  exact growsTo_trans (drainTypes_growsTo ctx st prog)
    (drainProps_growsTo ctx (drainTypes ctx st prog).1 (drainTypes ctx st prog).2)

theorem processQueuesAux_growsTo (ctx : InferCtx) :
    ∀ (fuel : Nat) (st : InferState) (prog : Bool) (st' : InferState) (prog' : Bool),
      processQueuesAux ctx fuel st prog = some (st', prog') → GrowsTo st st' := by
  intro fuel
  induction fuel with
  | zero =>
      intro st prog st' prog' h
      rw [processQueuesAux] at h
      by_cases hcond : st.workTypes.isEmpty ∧ st.workProps.isEmpty
      · rw [if_pos hcond] at h
        cases h
        exact growsTo_refl st
      · rw [if_neg hcond] at h
        cases h
  | succ fuel ih =>
      intro st prog st' prog' h
      rw [processQueuesAux] at h
      by_cases hcond : st.workTypes.isEmpty ∧ st.workProps.isEmpty
      · rw [if_pos hcond] at h
        cases h
        exact growsTo_refl st
      · rw [if_neg hcond] at h
        exact growsTo_trans (drainBody_growsTo ctx st prog)
          (ih (drainBody ctx st prog).1 (drainBody ctx st prog).2 st' prog' h)

theorem runRuleStep_growsTo (E : String → List Stmt → Except String (List Stmt))
    (ctx : InferCtx) (drainFuel : Nat) (rule : String) (st : InferState)
    (ta : Nat) (ch : Bool) (st3 : InferState) (ta3 : Nat) (ch3 : Bool)
    (h : runRuleStep E ctx drainFuel rule st ta ch = .ok (some (st3, ta3, ch3))) :
    GrowsTo st st3 := by
  simp only [runRuleStep] at h
  by_cases hcq : getConstructQueryForRule rule = ""
  · rw [if_pos hcq] at h
    cases h
    exact growsTo_refl st
  · rw [if_neg hcq] at h
    rcases hEr : runRuleOnce E rule st.rdfjsStore with e | newStmts
    · rw [hEr] at h
      simp at h
    · rw [hEr] at h
      simp only at h
      rcases hPQ : processQueues ctx drainFuel (enqueue st (dedupByNT newStmts))
        with _ | p
      · rw [hPQ] at h
        simp at h
      · obtain ⟨stq, b⟩ := p
        rw [hPQ] at h
        simp only at h
        have hgrow : GrowsTo st stq :=
          growsTo_trans (enqueue_growsTo st (dedupByNT newStmts))
            (processQueuesAux_growsTo ctx drainFuel _ false stq b hPQ)
        by_cases hAdd : 0 < stq.seen.length - st.seen.length
        · rw [if_pos hAdd] at h
          cases h
          exact hgrow
        · rw [if_neg hAdd] at h
          cases h
          exact hgrow

theorem runRuleStep_error (E : String → List Stmt → Except String (List Stmt))
    (ctx : InferCtx) (drainFuel : Nat) (rule : String) (st : InferState)
    (ta : Nat) (ch : Bool) (e : String)
    (hq : getConstructQueryForRule rule ≠ "")
    (hE : E (getConstructQueryForRule rule) st.rdfjsStore = .error e) :
    runRuleStep E ctx drainFuel rule st ta ch = .error e := by
  simp only [runRuleStep]
  rw [if_neg hq]
  have hrr : runRuleOnce E rule st.rdfjsStore = .error e := hE
  rw [hrr]

theorem runRules_growsTo (E : String → List Stmt → Except String (List Stmt))
    (ctx : InferCtx) (drainFuel : Nat) :
    ∀ (rs : List String) (st : InferState) (ta : Nat) (ch : Bool)
      (st' : InferState) (ta' : Nat) (ch' : Bool),
      runRules E ctx drainFuel rs st ta ch = .ok (some (st', ta', ch')) →
      GrowsTo st st' := by
  intro rs
  induction rs with
  | nil =>
      intro st ta ch st' ta' ch' h
      rw [runRules] at h
      cases h
      exact growsTo_refl st
  | cons rule rest ih =>
      intro st ta ch st' ta' ch' h
      rw [runRules] at h
      rcases hstep : runRuleStep E ctx drainFuel rule st ta ch with e | o
      · rw [hstep] at h
        simp at h
      · rcases o with _ | ⟨st3, ta3, ch3⟩
        · rw [hstep] at h
          simp at h
        · rw [hstep] at h
          simp only at h
          exact growsTo_trans
            (runRuleStep_growsTo E ctx drainFuel rule st ta ch st3 ta3 ch3 hstep)
            (ih st3 ta3 ch3 st' ta' ch' h)

theorem runRules_error_of_prefix (E : String → List Stmt → Except String (List Stmt))
    (ctx : InferCtx) (drainFuel : Nat) :
    ∀ (rs1 : List String) (r : String) (rs2 : List String) (st : InferState)
      (ta : Nat) (ch : Bool) (st' : InferState) (ta' : Nat) (ch' : Bool) (e : String),
      runRules E ctx drainFuel rs1 st ta ch = .ok (some (st', ta', ch')) →
      getConstructQueryForRule r ≠ "" →
      E (getConstructQueryForRule r) st'.rdfjsStore = .error e →
      runRules E ctx drainFuel (rs1 ++ r :: rs2) st ta ch = .error e := by
  intro rs1
  induction rs1 with
  | nil =>
      intro r rs2 st ta ch st' ta' ch' e hpre hq hE
      rw [runRules] at hpre
      cases hpre
      rw [List.nil_append, runRules,
        runRuleStep_error E ctx drainFuel r st ta ch e hq hE]
  | cons rule rest ih =>
      intro r rs2 st ta ch st' ta' ch' e hpre hq hE
      show runRules E ctx drainFuel (rule :: (rest ++ r :: rs2)) st ta ch =
        Except.error e
      rw [runRules] at hpre ⊢
      rcases hstep : runRuleStep E ctx drainFuel rule st ta ch with e0 | o
      · rw [hstep] at hpre
        simp at hpre
      · rcases o with _ | ⟨st3, ta3, ch3⟩
        · rw [hstep] at hpre
          simp at hpre
        · rw [hstep] at hpre
          simp only at hpre
          show runRules E ctx drainFuel (rest ++ r :: rs2) st3 ta3 ch3 =
            Except.error e
          exact ih r rs2 st3 ta3 ch3 st' ta' ch' e hpre hq hE

/-- Claim C8: if the external evaluator fails on some rule, the error
propagates out of the whole `inferUntilStable` run (the run aborts with
exactly that error, with no retry — the evaluator is consulted once per
rule per pass and the first failure surfaces immediately); and nothing
is rolled back: the state reached just before the failing rule only ever
extends the post-seed state (the seen index and overlay grow
append-only along the successful prefix). -/
theorem C8_evaluator_error_propagates
    (E : String → List Stmt → Except String (List Stmt))
    (rules : List String) (base : List Stmt) (drainFuel outerFuel : Nat)
    (st1 : InferState) (rs1 : List String) (r : String) (rs2 : List String)
    (st' : InferState) (ta' : Nat) (ch' : Bool) (e : String)
    (hseed : seedPhase (buildCtx (initState base).rdfjsStore) (initState base) =
      .ok st1)
    (hsplit : rulesFilteredOf rules = rs1 ++ r :: rs2)
    (hpre : runRules E (buildCtx (initState base).rdfjsStore) drainFuel rs1 st1 0
      false = .ok (some (st', ta', ch')))
    (hq : getConstructQueryForRule r ≠ "")
    (hE : E (getConstructQueryForRule r) st'.rdfjsStore = .error e) :
    inferUntilStable E rules base drainFuel (outerFuel + 1) = .error e ∧
      GrowsTo st1 st' := by
  have hrun : runRules E (buildCtx (initState base).rdfjsStore) drainFuel
      (rulesFilteredOf rules) st1 0 false = .error e := by
    rw [hsplit]
    exact runRules_error_of_prefix E _ drainFuel rs1 r rs2 st1 0 false st' ta' ch'
      e hpre hq hE
  constructor
  · have houter : outerLoop E (buildCtx (initState base).rdfjsStore) drainFuel
        (rulesFilteredOf rules) (outerFuel + 1) st1 0 = .error e := by
      rw [outerLoop, hrun]
    simp only [inferUntilStable]
    rw [hseed]
    simp [houter]
  · exact runRules_growsTo E _ drainFuel rs1 st1 0 false st' ta' ch' hpre

/-- Witness for C8: empty base, one `inverse` rule, an evaluator that
always rejects — the run returns exactly that error. -/
theorem C8_witness :
    inferUntilStable (fun _ _ => Except.error "boom") ["inverse"] [] 3 3 =
        .error "boom" ∧
      GrowsTo (initState []) (initState []) := by
  have h := C8_evaluator_error_propagates (fun _ _ => Except.error "boom")
    ["inverse"] [] 3 2 (initState []) [] "inverse" [] (initState []) 0 false
    "boom" (by rfl) (by rfl) (by rfl) (by decide) (by rfl)
  exact h

/-! ### Unknown rule identifiers (claim C9)

The spec says unknown rule identifiers are ignored without error and
cause no evaluator invocation.  The code clearly intends this — it
guards with `if (!constructQuery) continue` — but
`getConstructQueryForRule` returns `PREFIXES + (RULES[rule] || '')`,
which is never the empty string, so the guard is dead and the evaluator
IS invoked with a prefix-only query for unknown identifiers.  The
theorem below exhibits this at a concrete failing input: with an
evaluator that reports any invocation as an error, a run over the single
unknown rule `"frobnicate"` invokes the evaluator and aborts. -/

/-- Claim C9 (code bug): the empty-query guard never fires — the query
returned for an unknown rule is the non-empty prefix block — so an
unknown rule identifier reaches the external evaluator and any resulting
error aborts the run, contrary to the claim. -/
theorem C9_unknown_rule_reaches_evaluator :
    getConstructQueryForRule "frobnicate" ≠ "" ∧
      getConstructQueryForRule "frobnicate" = PREFIXES ∧
      inferUntilStable (fun _ _ => Except.error "evaluator invoked")
        ["frobnicate"] [] 3 3 = .error "evaluator invoked" :=
  ⟨by decide, by rfl, by rfl⟩

/-! ### Seed lifts and `totalAdded` accounting (claim C10) -/

theorem growsTo_seen_le {a b : InferState} (h : GrowsTo a b) :
    a.seen.length ≤ b.seen.length := by
  obtain ⟨⟨ns, hns⟩, _⟩ := h
  rw [hns, List.length_append]
  omega

theorem runRuleStep_accounting (E : String → List Stmt → Except String (List Stmt))
    (ctx : InferCtx) (drainFuel : Nat) (rule : String) (st : InferState)
    (ta : Nat) (ch : Bool) (st3 : InferState) (ta3 : Nat) (ch3 : Bool)
    (h : runRuleStep E ctx drainFuel rule st ta ch = .ok (some (st3, ta3, ch3))) :
    ta3 + st.seen.length = ta + st3.seen.length := by
  simp only [runRuleStep] at h
  by_cases hcq : getConstructQueryForRule rule = ""
  · rw [if_pos hcq] at h
    cases h
    rfl
  · rw [if_neg hcq] at h
    rcases hEr : runRuleOnce E rule st.rdfjsStore with e | newStmts
    · rw [hEr] at h
      simp at h
    · rw [hEr] at h
      simp only at h
      rcases hPQ : processQueues ctx drainFuel (enqueue st (dedupByNT newStmts))
        with _ | p
      · rw [hPQ] at h
        simp at h
      · obtain ⟨stq, b⟩ := p
        rw [hPQ] at h
        simp only at h
        have hle : st.seen.length ≤ stq.seen.length :=
          growsTo_seen_le (growsTo_trans (enqueue_growsTo st (dedupByNT newStmts))
            (processQueuesAux_growsTo ctx drainFuel _ false stq b hPQ))
        by_cases hAdd : 0 < stq.seen.length - st.seen.length
        · rw [if_pos hAdd] at h
          cases h
          omega
        · rw [if_neg hAdd] at h
          cases h
          omega

theorem runRules_accounting (E : String → List Stmt → Except String (List Stmt))
    (ctx : InferCtx) (drainFuel : Nat) :
    ∀ (rs : List String) (st : InferState) (ta : Nat) (ch : Bool)
      (st' : InferState) (ta' : Nat) (ch' : Bool),
      runRules E ctx drainFuel rs st ta ch = .ok (some (st', ta', ch')) →
      ta' + st.seen.length = ta + st'.seen.length := by
  intro rs
  induction rs with
  | nil =>
      intro st ta ch st' ta' ch' h
      rw [runRules] at h
      cases h
      rfl
  | cons rule rest ih =>
      intro st ta ch st' ta' ch' h
      rw [runRules] at h
      rcases hstep : runRuleStep E ctx drainFuel rule st ta ch with e | o
      · rw [hstep] at h
        simp at h
      · rcases o with _ | ⟨st3, ta3, ch3⟩
        · rw [hstep] at h
          simp at h
        · rw [hstep] at h
          simp only at h
          have h1 := runRuleStep_accounting E ctx drainFuel rule st ta ch
            st3 ta3 ch3 hstep
          have h2 := ih st3 ta3 ch3 st' ta' ch' h
          omega

theorem outerLoop_growsTo (E : String → List Stmt → Except String (List Stmt))
    (ctx : InferCtx) (drainFuel : Nat) (rulesFiltered : List String) :
    ∀ (fuel : Nat) (st : InferState) (ta : Nat) (st' : InferState) (ta' : Nat),
      outerLoop E ctx drainFuel rulesFiltered fuel st ta = .ok (some (st', ta')) →
      GrowsTo st st' := by
  intro fuel
  induction fuel with
  | zero =>
      intro st ta st' ta' h
      rw [outerLoop] at h
      cases h
  | succ fuel ih =>
      intro st ta st' ta' h
      rw [outerLoop] at h
      rcases hrr : runRules E ctx drainFuel rulesFiltered st ta false with e | o
      · rw [hrr] at h
        simp at h
      · rcases o with _ | ⟨st1, ta1, changed⟩
        · rw [hrr] at h
          simp at h
        · rw [hrr] at h
          simp only at h
          have hg1 := runRules_growsTo E ctx drainFuel rulesFiltered st ta false
            st1 ta1 changed hrr
          cases changed with
          | true =>
              rw [if_pos rfl] at h
              exact growsTo_trans hg1 (ih st1 ta1 st' ta' h)
          | false =>
              rw [if_neg (by simp)] at h
              cases h
              exact hg1

theorem outerLoop_accounting (E : String → List Stmt → Except String (List Stmt))
    (ctx : InferCtx) (drainFuel : Nat) (rulesFiltered : List String) :
    ∀ (fuel : Nat) (st : InferState) (ta : Nat) (st' : InferState) (ta' : Nat),
      outerLoop E ctx drainFuel rulesFiltered fuel st ta = .ok (some (st', ta')) →
      ta' + st.seen.length = ta + st'.seen.length := by
  intro fuel
  induction fuel with
  | zero =>
      intro st ta st' ta' h
      rw [outerLoop] at h
      cases h
  | succ fuel ih =>
      intro st ta st' ta' h
      rw [outerLoop] at h
      rcases hrr : runRules E ctx drainFuel rulesFiltered st ta false with e | o
      · rw [hrr] at h
        simp at h
      · rcases o with _ | ⟨st1, ta1, changed⟩
        · rw [hrr] at h
          simp at h
        · rw [hrr] at h
          simp only at h
          have h1 := runRules_accounting E ctx drainFuel rulesFiltered st ta false
            st1 ta1 changed hrr
          cases changed with
          | true =>
              rw [if_pos rfl] at h
              have h2 := ih st1 ta1 st' ta' h
              omega
          | false =>
              rw [if_neg (by simp)] at h
              cases h
              omega

theorem inferUntilStable_ok_inv (E : String → List Stmt → Except String (List Stmt))
    (rules : List String) (base : List Stmt) (drainFuel outerFuel : Nat)
    (res : InferResult)
    (h : inferUntilStable E rules base drainFuel outerFuel = .ok (some res)) :
    ∃ st1, seedPhase (buildCtx (initState base).rdfjsStore) (initState base) =
        .ok st1 ∧
      outerLoop E (buildCtx (initState base).rdfjsStore) drainFuel
          (rulesFilteredOf rules) outerFuel st1 0 =
        .ok (some (res.finalState, res.totalAdded)) ∧
      res.overlayGraph = overlayToGraph res.finalState.overlayStore := by
  simp only [inferUntilStable] at h
  rcases hseed : seedPhase (buildCtx (initState base).rdfjsStore) (initState base)
    with e | st1
  · rw [hseed] at h
    simp at h
  · rw [hseed] at h
    simp only at h
    rcases houter : outerLoop E (buildCtx (initState base).rdfjsStore) drainFuel
        (rulesFilteredOf rules) outerFuel st1 0 with e | o
    · rw [houter] at h
      simp at h
    · rcases o with _ | ⟨st2, ta⟩
      · rw [houter] at h
        simp at h
      · rw [houter] at h
        simp only at h
        cases h
        exact ⟨st1, rfl, houter, rfl⟩

theorem c10_ctx_eq : buildCtx (initState c10Base).rdfjsStore = c10Ctx := by
  have h0 : mapFromQuads (initState c10Base).rdfjsStore RDFS_SP =
      [("urn:p", ["urn:q"])] := by decide
  have h1 : transitiveClosure (mapFromQuads (initState c10Base).rdfjsStore
      RDFS_SP) = [("urn:p", ["urn:q"])] := by
    rw [h0]
    show [("urn:p", closureDFS [("urn:p", ["urn:q"])]
      (List.reverse ["urn:q"]) [])] = _
    rw [show List.reverse ["urn:q"] = ["urn:q"] from rfl]
    rw [closureDFS]
    simp only [List.mem_nil_iff, dite_false]
    rw [show lookupMap [("urn:p", ["urn:q"])] "urn:q" = none from by decide]
    rw [closureDFS]
  simp only [buildCtx]
  rw [h1]
  decide

theorem c10_seed_eq : seedPhase c10Ctx (initState c10Base) = .ok c10St1 := by
  rfl

theorem c10_run_eq :
    inferUntilStable (fun _ _ => Except.ok []) [] c10Base 2 2 =
      .ok (some { finalState := c10St1, overlayGraph := [c10Lift],
                  totalAdded := 0 }) := by
  simp only [inferUntilStable]
  rw [c10_ctx_eq, c10_seed_eq]
  rfl

/-- Claim C10: statements materialized during the seed phase are written
to the working set, the overlay store and the seen index, but are never
counted by `metrics.totalAdded`: the counter starts at zero and, over
the whole outer loop, accumulates exactly the growth of the seen index
after seeding, so `totalAdded = |final seen| - |post-seed seen|`; the
post-seed seen entries and overlay entries persist (append-only) into
the final state; and consequently the returned overlay can be strictly
larger than `totalAdded`, as the concrete run `c10Base` with one
seed-lifted triple and no rules shows. -/
theorem C10_seed_not_counted (E : String → List Stmt → Except String (List Stmt))
    (rules : List String) (base : List Stmt) (drainFuel outerFuel : Nat)
    (res : InferResult) (st1 : InferState)
    (hseed : seedPhase (buildCtx (initState base).rdfjsStore) (initState base) =
      .ok st1)
    (hrun : inferUntilStable E rules base drainFuel outerFuel = .ok (some res)) :
    (res.totalAdded + st1.seen.length = res.finalState.seen.length) ∧
      (∃ ns, res.finalState.seen = st1.seen ++ ns) ∧
      (∃ tail, res.finalState.overlayStore = st1.overlayStore ++ tail) ∧
      res.overlayGraph.length = res.finalState.overlayStore.length ∧
      (∃ r0 : InferResult,
        inferUntilStable (fun _ _ => Except.ok []) [] c10Base 2 2 =
          .ok (some r0) ∧
        r0.totalAdded < r0.overlayGraph.length) := by
  obtain ⟨st1', hseed', houter, hov⟩ :=
    inferUntilStable_ok_inv E rules base drainFuel outerFuel res hrun
  rw [hseed] at hseed'
  cases hseed'
  have hacct := outerLoop_accounting E (buildCtx (initState base).rdfjsStore)
    drainFuel (rulesFilteredOf rules) outerFuel st1 0 res.finalState
    res.totalAdded houter
  have hgrow := outerLoop_growsTo E (buildCtx (initState base).rdfjsStore)
    drainFuel (rulesFilteredOf rules) outerFuel st1 0 res.finalState
    res.totalAdded houter
  refine ⟨by omega, hgrow.1, hgrow.2, ?_, ?_⟩
  · rw [hov]
    simp [overlayToGraph]
  · exact ⟨{ finalState := c10St1, overlayGraph := [c10Lift], totalAdded := 0 },
      c10_run_eq, by decide⟩

/-- Witness for C10 on an empty base with no rules. -/
theorem C10_witness :
    ∃ res : InferResult, ∃ st1 : InferState,
      seedPhase (buildCtx (initState []).rdfjsStore) (initState []) = .ok st1 ∧
      inferUntilStable (fun _ _ => Except.ok []) [] [] 2 2 = .ok (some res) ∧
      ((res.totalAdded + st1.seen.length = res.finalState.seen.length) ∧
        (∃ ns, res.finalState.seen = st1.seen ++ ns) ∧
        (∃ tail, res.finalState.overlayStore = st1.overlayStore ++ tail) ∧
        res.overlayGraph.length = res.finalState.overlayStore.length ∧
        (∃ r0 : InferResult,
          inferUntilStable (fun _ _ => Except.ok []) [] c10Base 2 2 =
            .ok (some r0) ∧
          r0.totalAdded < r0.overlayGraph.length)) :=
  ⟨_, _, rfl,
    rfl,
    C10_seed_not_counted (fun _ _ => Except.ok []) [] [] 2 2 _ _ rfl rfl⟩

/-- Witness for C6: two concrete statements identical up to context, the
first in the default graph, the second in a named graph. -/
theorem C6_witness :
    ({ subject := Term.namedNode "urn:s", predicate := Term.namedNode "urn:p",
       object := Term.namedNode "urn:o" } : Stmt).toNT =
      ({ subject := Term.namedNode "urn:s", predicate := Term.namedNode "urn:p",
         object := Term.namedNode "urn:o", why := some "urn:g" } : Stmt).toNT ∧
      (({ subject := Term.namedNode "urn:s", predicate := Term.namedNode "urn:p",
          object := Term.namedNode "urn:o" } : Stmt).toNT ∉
            (initState []).seen →
        enqueue (initState [])
            [{ subject := Term.namedNode "urn:s", predicate := Term.namedNode "urn:p",
               object := Term.namedNode "urn:o" },
             { subject := Term.namedNode "urn:s", predicate := Term.namedNode "urn:p",
               object := Term.namedNode "urn:o", why := some "urn:g" }] =
          enqueueStep (initState [])
            { subject := Term.namedNode "urn:s", predicate := Term.namedNode "urn:p",
              object := Term.namedNode "urn:o" } ∧
          enqueueStep
            (enqueueStep (initState [])
              { subject := Term.namedNode "urn:s", predicate := Term.namedNode "urn:p",
                object := Term.namedNode "urn:o" })
            { subject := Term.namedNode "urn:s", predicate := Term.namedNode "urn:p",
              object := Term.namedNode "urn:o", why := some "urn:g" } =
          enqueueStep (initState [])
            { subject := Term.namedNode "urn:s", predicate := Term.namedNode "urn:p",
              object := Term.namedNode "urn:o" }) :=
  C6_key_context_independent _ _ (initState []) ⟨rfl, rfl, rfl⟩

/-! ### The seen-gate and duplicate-freedom invariant (claim C1) -/

theorem seenAdd_nodup {seen : List String} {nt : String} (h : seen.Nodup) :
    (seenAdd seen nt).Nodup := by
  unfold seenAdd
  by_cases hnt : nt ∈ seen
  · rw [if_pos hnt]; exact h
  · rw [if_neg hnt]
    exact List.Nodup.append h (List.nodup_singleton _) (by simpa using hnt)

theorem addQuadDedup_nodup {store : List Stmt} {q : Stmt} (h : store.Nodup) :
    (addQuadDedup store q).Nodup := by
  unfold addQuadDedup
  by_cases hq : q ∈ store
  · rw [if_pos hq]; exact h
  · rw [if_neg hq]
    exact List.Nodup.append h (List.nodup_singleton _) (by simpa using hq)

theorem ntSetOf_nodup (base : List Stmt) : (ntSetOf base).Nodup := by
  have hgen : ∀ (l : List Stmt) (acc : List String), acc.Nodup →
      (l.foldl (fun acc q => seenAdd acc q.toNT) acc).Nodup := by
    intro l
    induction l with
    | nil => intro acc h; exact h
    | cons a tl ih =>
        intro acc h
        exact ih (seenAdd acc a.toNT) (seenAdd_nodup h)
  exact hgen base [] List.nodup_nil

theorem initState_nodupState (base : List Stmt) : NodupState (initState base) :=
  ⟨ntSetOf_nodup base, List.nodup_nil⟩

theorem enqueueStep_nodupState {st : InferState} (s : Stmt)
    (h : NodupState st) : NodupState (enqueueStep st s) := by
  unfold enqueueStep
  by_cases hs : s.toNT ∈ st.seen
  · rw [if_pos hs]; exact h
  · rw [if_neg hs]
    exact ⟨seenAdd_nodup h.1, addQuadDedup_nodup h.2⟩

theorem enqueue_nodupState (l : List Stmt) :
    ∀ (st : InferState), NodupState st → NodupState (enqueue st l) := by
  induction l with
  | nil => intro st h; exact h
  | cons a tl ih =>
      intro st h
      exact ih (enqueueStep st a) (enqueueStep_nodupState a h)

theorem drainTypes_nodupState (ctx : InferCtx) (st : InferState) (prog : Bool)
    (h : NodupState st) : NodupState (drainTypes ctx st prog).1 := by
  rw [drainTypes_fst]
  by_cases hemp : st.workTypes.isEmpty
  · rw [if_pos hemp]; exact h
  · rw [if_neg hemp]
    exact enqueue_nodupState _ _ h

theorem drainProps_nodupState (ctx : InferCtx) (st : InferState) (prog : Bool)
    (h : NodupState st) : NodupState (drainProps ctx st prog).1 := by
  rw [drainProps_fst]
  by_cases hemp : st.workProps.isEmpty
  · rw [if_pos hemp]; exact h
  · rw [if_neg hemp]
    exact enqueue_nodupState _ _ (enqueue_nodupState _ _
      (enqueue_nodupState _ _ (enqueue_nodupState _ _ h)))

theorem drainBody_nodupState (ctx : InferCtx) (st : InferState) (prog : Bool)
    (h : NodupState st) : NodupState (drainBody ctx st prog).1 := by
  unfold drainBody
  exact drainProps_nodupState ctx (drainTypes ctx st prog).1
    (drainTypes ctx st prog).2 (drainTypes_nodupState ctx st prog h)

theorem processQueuesAux_nodupState (ctx : InferCtx) :
    ∀ (fuel : Nat) (st : InferState) (prog : Bool) (st' : InferState)
      (prog' : Bool),
      processQueuesAux ctx fuel st prog = some (st', prog') →
      NodupState st → NodupState st' := by
  intro fuel
  induction fuel with
  | zero =>
      intro st prog st' prog' h hnd
      rw [processQueuesAux] at h
      by_cases hcond : st.workTypes.isEmpty ∧ st.workProps.isEmpty
      · rw [if_pos hcond] at h
        cases h
        exact hnd
      · rw [if_neg hcond] at h
        cases h
  | succ fuel ih =>
      intro st prog st' prog' h hnd
      rw [processQueuesAux] at h
      by_cases hcond : st.workTypes.isEmpty ∧ st.workProps.isEmpty
      · rw [if_pos hcond] at h
        cases h
        exact hnd
      · rw [if_neg hcond] at h
        exact ih (drainBody ctx st prog).1 (drainBody ctx st prog).2 st' prog' h
          (drainBody_nodupState ctx st prog hnd)

theorem seedApply_nodupState {st : InferState} {s : Stmt} {st1 : InferState}
    (hok : seedApply st s = .ok st1) (h : NodupState st) : NodupState st1 := by
  unfold seedApply at hok
  rcases hp : asRdfjsPredicate s.predicate.value s.predicate.termType
    with e | pred
  · rw [hp] at hok
    simp at hok
  · rw [hp] at hok
    simp only at hok
    cases hok
    exact ⟨seenAdd_nodup h.1, addQuadDedup_nodup h.2⟩

theorem seedApplyAll_nodupState :
    ∀ (l : List Stmt) (st st1 : InferState),
      seedApplyAll l st = .ok st1 → NodupState st → NodupState st1 := by
  intro l
  induction l with
  | nil =>
      intro st st1 hok h
      rw [seedApplyAll] at hok
      cases hok
      exact h
  | cons a tl ih =>
      intro st st1 hok h
      rw [seedApplyAll] at hok
      rcases ha : seedApply st a with e | st2
      · rw [ha] at hok
        simp at hok
      · rw [ha] at hok
        simp only at hok
        exact ih st2 st1 hok (seedApply_nodupState ha h)

theorem seedPhase_nodupState {ctx : InferCtx} {st st1 : InferState}
    (hok : seedPhase ctx st = .ok st1) (h : NodupState st) : NodupState st1 := by
  simp only [seedPhase] at hok
  split at hok
  · simp at hok
  · rename_i st2 h1
    exact seedApplyAll_nodupState _ st2 st1 hok
      (seedApplyAll_nodupState _ st st2 h1 h)

theorem runRuleStep_nodupState (E : String → List Stmt → Except String (List Stmt))
    (ctx : InferCtx) (drainFuel : Nat) (rule : String) (st : InferState)
    (ta : Nat) (ch : Bool) (st3 : InferState) (ta3 : Nat) (ch3 : Bool)
    (h : runRuleStep E ctx drainFuel rule st ta ch = .ok (some (st3, ta3, ch3)))
    (hnd : NodupState st) : NodupState st3 := by
  simp only [runRuleStep] at h
  by_cases hcq : getConstructQueryForRule rule = ""
  · rw [if_pos hcq] at h
    cases h
    exact hnd
  · rw [if_neg hcq] at h
    rcases hEr : runRuleOnce E rule st.rdfjsStore with e | newStmts
    · rw [hEr] at h
      simp at h
    · rw [hEr] at h
      simp only at h
      rcases hPQ : processQueues ctx drainFuel (enqueue st (dedupByNT newStmts))
        with _ | p
      · rw [hPQ] at h
        simp at h
      · obtain ⟨stq, b⟩ := p
        rw [hPQ] at h
        simp only at h
        have hq : NodupState stq :=
          processQueuesAux_nodupState ctx drainFuel _ false stq b hPQ
            (enqueue_nodupState _ st hnd)
        by_cases hAdd : 0 < stq.seen.length - st.seen.length
        · rw [if_pos hAdd] at h
          cases h
          exact hq
        · rw [if_neg hAdd] at h
          cases h
          exact hq

theorem runRules_nodupState (E : String → List Stmt → Except String (List Stmt))
    (ctx : InferCtx) (drainFuel : Nat) :
    ∀ (rs : List String) (st : InferState) (ta : Nat) (ch : Bool)
      (st' : InferState) (ta' : Nat) (ch' : Bool),
      runRules E ctx drainFuel rs st ta ch = .ok (some (st', ta', ch')) →
      NodupState st → NodupState st' := by
  intro rs
  induction rs with
  | nil =>
      intro st ta ch st' ta' ch' h hnd
      rw [runRules] at h
      cases h
      exact hnd
  | cons rule rest ih =>
      intro st ta ch st' ta' ch' h hnd
      rw [runRules] at h
      rcases hstep : runRuleStep E ctx drainFuel rule st ta ch with e | o
      · rw [hstep] at h
        simp at h
      · rcases o with _ | ⟨st3, ta3, ch3⟩
        · rw [hstep] at h
          simp at h
        · rw [hstep] at h
          simp only at h
          exact ih st3 ta3 ch3 st' ta' ch' h
            (runRuleStep_nodupState E ctx drainFuel rule st ta ch st3 ta3 ch3
              hstep hnd)

theorem outerLoop_nodupState (E : String → List Stmt → Except String (List Stmt))
    (ctx : InferCtx) (drainFuel : Nat) (rulesFiltered : List String) :
    ∀ (fuel : Nat) (st : InferState) (ta : Nat) (st' : InferState) (ta' : Nat),
      outerLoop E ctx drainFuel rulesFiltered fuel st ta = .ok (some (st', ta')) →
      NodupState st → NodupState st' := by
  intro fuel
  induction fuel with
  | zero =>
      intro st ta st' ta' h hnd
      rw [outerLoop] at h
      cases h
  | succ fuel ih =>
      intro st ta st' ta' h hnd
      rw [outerLoop] at h
      rcases hrr : runRules E ctx drainFuel rulesFiltered st ta false with e | o
      · rw [hrr] at h
        simp at h
      · rcases o with _ | ⟨st1, ta1, changed⟩
        · rw [hrr] at h
          simp at h
        · rw [hrr] at h
          simp only at h
          have h1 : NodupState st1 :=
            runRules_nodupState E ctx drainFuel rulesFiltered st ta false
              st1 ta1 changed hrr hnd
          cases changed with
          | true =>
              rw [if_pos rfl] at h
              exact ih st1 ta1 st' ta' h h1
          | false =>
              rw [if_neg (by simp)] at h
              cases h
              exact h1

/-- Claim C1: inside `enqueue`, a candidate statement is a no-op when
its canonical key is already in the seen index, and otherwise is
appended to the base graph, the seen index, the overlay and RDF/JS
stores, and routed to the type queue exactly when its predicate is
`rdf:type` and to the property queue otherwise; consequently, over a
whole successful run, the seen index and the overlay store are
duplicate-free (a statement derived twice appears once), and
`metrics.totalAdded` equals the number of distinct new keys added after
seeding: each deduplicated statement is counted exactly once. -/
theorem C1_enqueue_gate_dedup
    (E : String → List Stmt → Except String (List Stmt))
    (rules : List String) (base : List Stmt) (drainFuel outerFuel : Nat)
    (res : InferResult) (st1 : InferState)
    (hseed : seedPhase (buildCtx (initState base).rdfjsStore) (initState base) =
      .ok st1)
    (hrun : inferUntilStable E rules base drainFuel outerFuel = .ok (some res)) :
    (∀ (st : InferState) (s : Stmt), s.toNT ∈ st.seen → enqueueStep st s = st) ∧
      (∀ (st : InferState) (s : Stmt), s.toNT ∉ st.seen →
        (enqueueStep st s).seen = st.seen ++ [s.toNT] ∧
        (enqueueStep st s).overlayStore =
          addQuadDedup st.overlayStore (enqueueQuad s) ∧
        (enqueueStep st s).rdfjsStore =
          addQuadDedup st.rdfjsStore (enqueueQuad s) ∧
        (enqueueStep st s).baseGraph = st.baseGraph ++
          [{ subject := s.subject, predicate := s.predicate,
             object := s.object }] ∧
        (enqueueStep st s).workTypes =
          (if s.predicate.value = RDF_TYPE then st.workTypes ++ [s]
           else st.workTypes) ∧
        (enqueueStep st s).workProps =
          (if s.predicate.value = RDF_TYPE then st.workProps
           else st.workProps ++ [s])) ∧
      res.finalState.seen.Nodup ∧
      res.finalState.overlayStore.Nodup ∧
      res.totalAdded + st1.seen.length = res.finalState.seen.length := by
  obtain ⟨st1', hseed', houter, _⟩ :=
    inferUntilStable_ok_inv E rules base drainFuel outerFuel res hrun
  rw [hseed] at hseed'
  cases hseed'
  have hnd1 : NodupState st1 :=
    seedPhase_nodupState hseed (initState_nodupState base)
  have hndF : NodupState res.finalState :=
    outerLoop_nodupState E (buildCtx (initState base).rdfjsStore) drainFuel
      (rulesFilteredOf rules) outerFuel st1 0 res.finalState res.totalAdded
      houter hnd1
  have hacct := outerLoop_accounting E (buildCtx (initState base).rdfjsStore)
    drainFuel (rulesFilteredOf rules) outerFuel st1 0 res.finalState
    res.totalAdded houter
  refine ⟨?_, ?_, hndF.1, hndF.2, by omega⟩
  · intro st s hs
    unfold enqueueStep
    rw [if_pos hs]
  · intro st s hs
    unfold enqueueStep
    rw [if_neg hs]
    refine ⟨?_, rfl, rfl, rfl, rfl, rfl⟩
    show seenAdd st.seen s.toNT = st.seen ++ [s.toNT]
    unfold seenAdd
    rw [if_neg hs]

/-- Witness for C1 on an empty base with no rules. -/
theorem C1_witness :
    ∃ res : InferResult, ∃ st1 : InferState,
      seedPhase (buildCtx (initState []).rdfjsStore) (initState []) = .ok st1 ∧
      inferUntilStable (fun _ _ => Except.ok []) [] [] 3 3 = .ok (some res) ∧
      ((∀ (st : InferState) (s : Stmt), s.toNT ∈ st.seen →
          enqueueStep st s = st) ∧
        (∀ (st : InferState) (s : Stmt), s.toNT ∉ st.seen →
          (enqueueStep st s).seen = st.seen ++ [s.toNT] ∧
          (enqueueStep st s).overlayStore =
            addQuadDedup st.overlayStore (enqueueQuad s) ∧
          (enqueueStep st s).rdfjsStore =
            addQuadDedup st.rdfjsStore (enqueueQuad s) ∧
          (enqueueStep st s).baseGraph = st.baseGraph ++
            [{ subject := s.subject, predicate := s.predicate,
               object := s.object }] ∧
          (enqueueStep st s).workTypes =
            (if s.predicate.value = RDF_TYPE then st.workTypes ++ [s]
             else st.workTypes) ∧
          (enqueueStep st s).workProps =
            (if s.predicate.value = RDF_TYPE then st.workProps
             else st.workProps ++ [s])) ∧
        res.finalState.seen.Nodup ∧
        res.finalState.overlayStore.Nodup ∧
        res.totalAdded + st1.seen.length = res.finalState.seen.length) :=
  ⟨_, _, rfl, rfl,
    C1_enqueue_gate_dedup (fun _ _ => Except.ok []) [] [] 3 3 _ _ rfl rfl⟩

/-! ### Hierarchy freeze breaks naive idempotence (claim C3) -/

theorem c3_ctx1_eq : buildCtx (initState c3Base).rdfjsStore = c3Ctx1 := by
  have h0 : mapFromQuads (initState c3Base).rdfjsStore RDFS_SP =
      [("urn:q", [RDFS_SC])] := by decide
  have h1 : transitiveClosure (mapFromQuads (initState c3Base).rdfjsStore
      RDFS_SP) = [("urn:q", [RDFS_SC])] := by
    rw [h0]
    show [("urn:q", closureDFS [("urn:q", [RDFS_SC])]
      (List.reverse [RDFS_SC]) [])] = _
    rw [show List.reverse [RDFS_SC] = [RDFS_SC] from rfl]
    rw [closureDFS]
    simp only [List.mem_nil_iff, dite_false]
    rw [show lookupMap [("urn:q", [RDFS_SC])] RDFS_SC = none from by decide]
    rw [closureDFS]
  simp only [buildCtx]
  rw [h1]
  decide

theorem c3_ctx2_eq :
    buildCtx (initState (c3Base ++ [c3Lift1])).rdfjsStore = c3Ctx2 := by
  have hSP0 : mapFromQuads (initState (c3Base ++ [c3Lift1])).rdfjsStore
      RDFS_SP = [("urn:q", [RDFS_SC])] := by decide
  have hSP : transitiveClosure (mapFromQuads
      (initState (c3Base ++ [c3Lift1])).rdfjsStore RDFS_SP) =
      [("urn:q", [RDFS_SC])] := by
    rw [hSP0]
    show [("urn:q", closureDFS [("urn:q", [RDFS_SC])]
      (List.reverse [RDFS_SC]) [])] = _
    rw [show List.reverse [RDFS_SC] = [RDFS_SC] from rfl]
    rw [closureDFS]
    simp only [List.mem_nil_iff, dite_false]
    rw [show lookupMap [("urn:q", [RDFS_SC])] RDFS_SC = none from by decide]
    rw [closureDFS]
  have hSC0 : mapFromQuads (initState (c3Base ++ [c3Lift1])).rdfjsStore
      RDFS_SC = [("urn:B", ["urn:A"])] := by decide
  have hSC : transitiveClosure (mapFromQuads
      (initState (c3Base ++ [c3Lift1])).rdfjsStore RDFS_SC) =
      [("urn:B", ["urn:A"])] := by
    rw [hSC0]
    show [("urn:B", closureDFS [("urn:B", ["urn:A"])]
      (List.reverse ["urn:A"]) [])] = _
    rw [show List.reverse ["urn:A"] = ["urn:A"] from rfl]
    rw [closureDFS]
    simp only [List.mem_nil_iff, dite_false]
    rw [show lookupMap [("urn:B", ["urn:A"])] "urn:A" = none from by decide]
    rw [closureDFS]
  simp only [buildCtx]
  rw [hSP, hSC]
  decide

theorem c3_seed1_eq : seedPhase c3Ctx1 (initState c3Base) = .ok c3St1 := by
  rfl

theorem c3_seed2_eq :
    seedPhase c3Ctx2 (initState (c3Base ++ [c3Lift1])) = .ok c3St2 := by
  rfl

theorem c3_run1_eq :
    inferUntilStable (fun _ _ => Except.ok []) [] c3Base 2 2 =
      .ok (some { finalState := c3St1, overlayGraph := [c3Lift1],
                  totalAdded := 0 }) := by
  simp only [inferUntilStable]
  rw [c3_ctx1_eq, c3_seed1_eq]
  rfl

theorem c3_run2_eq :
    inferUntilStable (fun _ _ => Except.ok []) [] (c3Base ++ [c3Lift1]) 2 2 =
      .ok (some { finalState := c3St2, overlayGraph := [c3Lift2],
                  totalAdded := 0 }) := by
  simp only [inferUntilStable]
  rw [c3_ctx2_eq, c3_seed2_eq]
  rfl

/-- Counterexample to claim C3 as stated: on the three-statement base
`c3Base` (whose TBox makes `urn:q` a sub-property of
`rdfs:subClassOf`), the first run returns the overlay
`[urn:B rdfs:subClassOf urn:A]`, and a second full run on the union of
the original input and that overlay returns the non-empty overlay
`[urn:x rdf:type urn:A]`: the first run did not reach a fixpoint,
because its class closure was frozen before the subclass edge it itself
derived existed. -/
theorem C3_counterexample :
    inferUntilStable (fun _ _ => Except.ok []) [] c3Base 2 2 =
      .ok (some { finalState := c3St1, overlayGraph := [c3Lift1],
                  totalAdded := 0 }) ∧
      inferUntilStable (fun _ _ => Except.ok []) [] (c3Base ++ [c3Lift1]) 2 2 =
        .ok (some { finalState := c3St2, overlayGraph := [c3Lift2],
                    totalAdded := 0 }) ∧
      ([c3Lift2] : List Stmt) ≠ [] :=
  ⟨c3_run1_eq, c3_run2_eq, by decide⟩

/-! ### Bridge conversions on good terms, `selectUnseen` facts -/

set_option maxRecDepth 4096 in
theorem getConstructQueryForRule_ne (rule : String) :
    getConstructQueryForRule rule ≠ "" := by
  unfold getConstructQueryForRule
  intro h
  have hlen := congrArg String.length h
  rw [String.length_append] at hlen
  rw [show String.length "" = 0 from rfl] at hlen
  have hp : 0 < PREFIXES.length := by decide
  omega

theorem mem_addQuadDedup {store : List Stmt} {q x : Stmt} :
    x ∈ addQuadDedup store q ↔ x ∈ store ∨ x = q := by
  unfold addQuadDedup
  by_cases h : q ∈ store
  · rw [if_pos h]
    constructor
    · exact Or.inl
    · rintro (hx | rfl)
      · exact hx
      · exact h
  · rw [if_neg h]; simp

theorem asRdfjsSubject_good {v : String} (habs : isAbsoluteIri v = true)
    (hnorm : normalizeIriString v = v) :
    asRdfjsSubject v "NamedNode" = Term.namedNode v := by
  simp [asRdfjsSubject, hnorm, habs]

theorem asRdfjsPredicate_good {v : String} (habs : isAbsoluteIri v = true)
    (hnorm : normalizeIriString v = v) :
    asRdfjsPredicate v "NamedNode" = .ok (Term.namedNode v) := by
  simp [asRdfjsPredicate, hnorm, habs]

theorem asRdfjsObject_good {v : String} (habs : isAbsoluteIri v = true)
    (hnorm : normalizeIriString v = v) :
    asRdfjsObject v "NamedNode" none none = Term.namedNode v := by
  simp [asRdfjsObject, hnorm, habs]

theorem goodStmtB_elim {s : Stmt} (h : goodStmtB s = true) :
    ∃ v1 v2 v3,
      s = { subject := Term.namedNode v1, predicate := Term.namedNode v2,
            object := Term.namedNode v3, why := none } ∧
        isAbsoluteIri v1 = true ∧ normalizeIriString v1 = v1 ∧
        isAbsoluteIri v2 = true ∧ normalizeIriString v2 = v2 ∧
        isAbsoluteIri v3 = true ∧ normalizeIriString v3 = v3 := by
  obtain ⟨s1, s2, s3, w⟩ := s
  cases s1 with
  | blankNode v => simp [goodStmtB, goodTermB] at h
  | literal v l d => simp [goodStmtB, goodTermB] at h
  | namedNode v1 =>
      cases s2 with
      | blankNode v => simp [goodStmtB, goodTermB] at h
      | literal v l d => simp [goodStmtB, goodTermB] at h
      | namedNode v2 =>
          cases s3 with
          | blankNode v => simp [goodStmtB, goodTermB] at h
          | literal v l d => simp [goodStmtB, goodTermB] at h
          | namedNode v3 =>
              simp only [goodStmtB, goodTermB, Bool.and_eq_true,
                decide_eq_true_eq] at h
              obtain ⟨⟨⟨⟨ha1, hn1⟩, ha2, hn2⟩, ha3, hn3⟩, hw⟩ := h
              exact ⟨v1, v2, v3, by rw [hw], ha1, hn1, ha2, hn2, ha3, hn3⟩

theorem overlayConvBack_good {q : Stmt} (h : goodStmtB q = true) :
    overlayConvBack q = q := by
  obtain ⟨v1, v2, v3, heq, _⟩ := goodStmtB_elim h
  rw [heq]
  rfl

theorem seedApply_good_eq {st : InferState} {s : Stmt}
    (h : goodStmtB s = true) :
    seedApply st s = .ok (seedApplyGoodState st s) := by
  unfold seedApplyGoodState
  obtain ⟨v1, v2, v3, heq, ha1, hn1, ha2, hn2, ha3, hn3⟩ := goodStmtB_elim h
  subst heq
  unfold seedApply
  rw [show (Term.namedNode v2).value = v2 from rfl,
    show (Term.namedNode v2).termType = "NamedNode" from rfl,
    asRdfjsPredicate_good ha2 hn2]
  simp only
  rw [show (Term.namedNode v1).value = v1 from rfl,
    show (Term.namedNode v1).termType = "NamedNode" from rfl,
    asRdfjsSubject_good ha1 hn1,
    show (Term.namedNode v3).value = v3 from rfl,
    show (Term.namedNode v3).termType = "NamedNode" from rfl,
    show (Term.namedNode v3).langOf = none from rfl,
    show (Term.namedNode v3).datatypeOf = none from rfl,
    asRdfjsObject_good ha3 hn3]

theorem selectUnseen_fst_eq (stmts : List Stmt) (seenNT : List String) :
    (selectUnseen stmts seenNT).1 =
      (stmts.foldl (selectStep seenNT) ([], [])).2 :=
  rfl

theorem selectStep_acc_mono (seenNT : List String) :
    ∀ (l : List Stmt) (acc : List String × List Stmt),
      ∀ x ∈ acc.2, x ∈ (l.foldl (selectStep seenNT) acc).2 := by
  intro l
  induction l with
  | nil => intro acc x hx; exact hx
  | cons a tl ih =>
      intro acc x hx
      rw [List.foldl_cons]
      apply ih
      unfold selectStep
      by_cases h1 : a.toNT ∈ acc.1
      · rw [if_pos h1]; exact hx
      · rw [if_neg h1]
        by_cases h2 : a.toNT ∈ seenNT
        · simpa [h2] using hx
        · simp [h2]
          exact Or.inl hx

theorem selectStep_subset (seenNT : List String) :
    ∀ (l : List Stmt) (acc : List String × List Stmt),
      ∀ x ∈ (l.foldl (selectStep seenNT) acc).2, x ∈ acc.2 ∨ x ∈ l := by
  intro l
  induction l with
  | nil => intro acc x hx; exact Or.inl hx
  | cons a tl ih =>
      intro acc x hx
      rw [List.foldl_cons] at hx
      rcases ih (selectStep seenNT acc a) x hx with h | h
      · unfold selectStep at h
        by_cases h1 : a.toNT ∈ acc.1
        · rw [if_pos h1] at h
          exact Or.inl h
        · rw [if_neg h1] at h
          by_cases h2 : a.toNT ∈ seenNT
          · rw [if_pos h2] at h
            exact Or.inl h
          · rw [if_neg h2] at h
            rcases List.mem_append.mp h with h3 | h3
            · exact Or.inl h3
            · exact Or.inr (List.mem_cons.mpr (Or.inl (List.mem_singleton.mp h3)))
      · exact Or.inr (List.mem_cons_of_mem _ h)

theorem selectUnseen_subset {stmts : List Stmt} {seenNT : List String} :
    ∀ x ∈ (selectUnseen stmts seenNT).1, x ∈ stmts := by
  intro x hx
  rw [selectUnseen_fst_eq] at hx
  rcases selectStep_subset seenNT stmts ([], []) x hx with h | h
  · simp at h
  · exact h

theorem selectStep_covers (seenNT : List String) :
    ∀ (l : List Stmt) (acc : List String × List Stmt),
      (∀ nt ∈ acc.1, nt ∈ seenNT ∨ ∃ x ∈ acc.2, x.toNT = nt) →
      ∀ s ∈ l, s.toNT ∈ seenNT ∨
        ∃ x ∈ (l.foldl (selectStep seenNT) acc).2, x.toNT = s.toNT := by
  intro l
  induction l with
  | nil => intro acc _ s hs; simp at hs
  | cons a tl ih =>
      intro acc hacc s hs
      have hstep : ∀ nt ∈ (selectStep seenNT acc a).1,
          nt ∈ seenNT ∨ ∃ x ∈ (selectStep seenNT acc a).2, x.toNT = nt := by
        intro nt hnt
        unfold selectStep at hnt ⊢
        by_cases h1 : a.toNT ∈ acc.1
        · rw [if_pos h1] at hnt ⊢
          exact hacc nt hnt
        · rw [if_neg h1] at hnt ⊢
          rcases List.mem_append.mp hnt with h3 | h3
          · rcases hacc nt h3 with h4 | ⟨x, hx, he⟩
            · exact Or.inl h4
            · refine Or.inr ⟨x, ?_, he⟩
              by_cases h2 : a.toNT ∈ seenNT
              · rw [if_pos h2]; exact hx
              · rw [if_neg h2]; exact List.mem_append_left _ hx
          · rw [List.mem_singleton] at h3
            subst h3
            by_cases h2 : a.toNT ∈ seenNT
            · exact Or.inl h2
            · rw [if_neg h2]
              exact Or.inr ⟨a, List.mem_append_right _ (List.mem_singleton.mpr rfl),
                rfl⟩
      rw [List.foldl_cons]
      rcases List.mem_cons.mp hs with rfl | hs2
      · have hin : s.toNT ∈ (selectStep seenNT acc s).1 := by
          unfold selectStep
          by_cases h1 : s.toNT ∈ acc.1
          · rw [if_pos h1]; exact h1
          · rw [if_neg h1]
            exact List.mem_append_right _ (List.mem_singleton.mpr rfl)
        rcases hstep s.toNT hin with h4 | ⟨x, hx, he⟩
        · exact Or.inl h4
        · exact Or.inr ⟨x, selectStep_acc_mono seenNT tl _ x hx, he⟩
      · exact ih (selectStep seenNT acc a) hstep s hs2

theorem selectUnseen_covers {stmts : List Stmt} {seenNT : List String} :
    ∀ s ∈ stmts, s.toNT ∈ seenNT ∨
      ∃ x ∈ (selectUnseen stmts seenNT).1, x.toNT = s.toNT := by
  intro s hs
  rw [selectUnseen_fst_eq]
  exact selectStep_covers seenNT stmts ([], []) (by simp) s hs

theorem selectUnseen_all_seen {stmts : List Stmt} {seenNT : List String}
    (h : ∀ s ∈ stmts, s.toNT ∈ seenNT) :
    (selectUnseen stmts seenNT).1 = [] := by
  rw [selectUnseen_fst_eq]
  have hgen : ∀ (l : List Stmt) (acc : List String × List Stmt),
      (∀ s ∈ l, s.toNT ∈ seenNT) →
      (l.foldl (selectStep seenNT) acc).2 = acc.2 := by
    intro l
    induction l with
    | nil => intro acc _; rfl
    | cons a tl ih =>
        intro acc hl
        rw [List.foldl_cons, ih _ (fun s hs => hl s (List.mem_cons_of_mem _ hs))]
        unfold selectStep
        by_cases h1 : a.toNT ∈ acc.1
        · rw [if_pos h1]
        · rw [if_neg h1, if_pos (hl a (List.mem_cons_self _ _))]
  exact hgen stmts ([], []) h

/-! ### Seed-phase effects on good statements -/

theorem seedApplyAll_good_inv :
    ∀ (L : List Stmt) (st st1 : InferState),
      (∀ s ∈ L, goodStmtB s = true) →
      seedApplyAll L st = .ok st1 →
      st1.workTypes = st.workTypes ∧
      st1.workProps = st.workProps ∧
      (∃ ns, st1.seen = st.seen ++ ns) ∧
      (∀ q ∈ st.overlayStore, q ∈ st1.overlayStore) ∧
      (∀ s ∈ L, s.toNT ∈ st1.seen) ∧
      (∀ nt ∈ st1.seen, nt ∈ st.seen ∨ ∃ q ∈ st1.overlayStore, q.toNT = nt) ∧
      (∀ q ∈ st1.overlayStore, q ∈ st.overlayStore ∨ q ∈ L) := by
  intro L
  induction L with
  | nil =>
      intro st st1 _ hok
      rw [seedApplyAll] at hok
      cases hok
      exact ⟨rfl, rfl, ⟨[], by simp⟩, fun q hq => hq, by simp,
        fun nt hnt => Or.inl hnt, fun q hq => Or.inl hq⟩
  | cons a tl ih =>
      intro st st1 hgood hok
      rw [seedApplyAll] at hok
      rw [seedApply_good_eq (hgood a (List.mem_cons_self _ _))] at hok
      simp only at hok
      obtain ⟨hT, hP, ⟨ns, hns⟩, hmono, hL, hcov, hprov⟩ :=
        ih (seedApplyGoodState st a) st1
          (fun s hs => hgood s (List.mem_cons_of_mem _ hs)) hok
      have hseen2 : (seedApplyGoodState st a).seen = seenAdd st.seen a.toNT := rfl
      have hov2 : (seedApplyGoodState st a).overlayStore =
        addQuadDedup st.overlayStore a := rfl
      refine ⟨hT, hP, ?_, ?_, ?_, ?_, ?_⟩
      · rw [hseen2] at hns
        unfold seenAdd at hns
        by_cases hsa : a.toNT ∈ st.seen
        · rw [if_pos hsa] at hns
          exact ⟨ns, hns⟩
        · rw [if_neg hsa] at hns
          exact ⟨[a.toNT] ++ ns, by rw [hns, List.append_assoc]⟩
      · intro q hq
        apply hmono
        rw [hov2]
        exact mem_addQuadDedup.mpr (Or.inl hq)
      · intro s hs
        rcases List.mem_cons.mp hs with rfl | hs2
        · rw [hns, hseen2]
          exact List.mem_append_left _ (mem_seenAdd.mpr (Or.inr rfl))
        · exact hL s hs2
      · intro nt hnt
        rcases hcov nt hnt with h1 | h2
        · rw [hseen2] at h1
          rcases mem_seenAdd.mp h1 with h3 | rfl
          · exact Or.inl h3
          · refine Or.inr ⟨a, ?_, rfl⟩
            apply hmono
            rw [hov2]
            exact mem_addQuadDedup.mpr (Or.inr rfl)
        · exact Or.inr h2
      · intro q hq
        rcases hprov q hq with h1 | h2
        · rw [hov2] at h1
          rcases mem_addQuadDedup.mp h1 with h3 | rfl
          · exact Or.inl h3
          · exact Or.inr (List.mem_cons_self _ _)
        · exact Or.inr (List.mem_cons_of_mem _ h2)

theorem seedPhase_good_inv (ctx : InferCtx) (st st1 : InferState)
    (hok : seedPhase ctx st = .ok st1)
    (hgoodP : ∀ s ∈ expandPropsWithClosure ctx
        (st.baseGraph.filter (fun q => decide (¬q.predicate.value = RDF_TYPE))),
      goodStmtB s = true)
    (hgoodT : ∀ s ∈ expandTypesWithClosure ctx
        (st.baseGraph.filter (fun q => decide (q.predicate.value = RDF_TYPE))),
      goodStmtB s = true) :
    st1.workTypes = st.workTypes ∧
    st1.workProps = st.workProps ∧
    (∃ ns, st1.seen = st.seen ++ ns) ∧
    (∀ t ∈ expandPropsWithClosure ctx
        (st.baseGraph.filter (fun q => decide (¬q.predicate.value = RDF_TYPE))),
      t.toNT ∈ st1.seen) ∧
    (∀ t ∈ expandTypesWithClosure ctx
        (st.baseGraph.filter (fun q => decide (q.predicate.value = RDF_TYPE))),
      t.toNT ∈ st1.seen) ∧
    (∀ nt ∈ st1.seen, nt ∈ st.seen ∨ ∃ q ∈ st1.overlayStore, q.toNT = nt) ∧
    (∀ q ∈ st1.overlayStore, q ∈ st.overlayStore ∨
      q ∈ expandPropsWithClosure ctx
        (st.baseGraph.filter (fun q => decide (¬q.predicate.value = RDF_TYPE))) ∨
      q ∈ expandTypesWithClosure ctx
        (st.baseGraph.filter (fun q => decide (q.predicate.value = RDF_TYPE)))) := by
  simp only [seedPhase] at hok
  split at hok
  · simp at hok
  · rename_i st2 h1
    obtain ⟨hT1, hP1, ⟨n1, hn1⟩, hmono1, hL1, hcov1, hprov1⟩ :=
      seedApplyAll_good_inv _ st st2
        (fun s hs => hgoodP s (selectUnseen_subset s hs)) h1
    obtain ⟨hT2, hP2, ⟨n2, hn2⟩, hmono2, hL2, hcov2, hprov2⟩ :=
      seedApplyAll_good_inv _ st2 st1
        (fun s hs => hgoodT s (selectUnseen_subset s hs)) hok
    have hseen12 : ∀ nt ∈ st2.seen, nt ∈ st1.seen := by
      intro nt hnt
      rw [hn2]
      exact List.mem_append_left _ hnt
    refine ⟨hT2.trans hT1, hP2.trans hP1,
      ⟨n1 ++ n2, by rw [hn2, hn1, List.append_assoc]⟩, ?_, ?_, ?_, ?_⟩
    · intro t ht
      rcases selectUnseen_covers t ht with h2 | ⟨x, hx, he⟩
      · apply hseen12
        rw [hn1]
        exact List.mem_append_left _ h2
      · rw [← he]
        exact hseen12 _ (hL1 x hx)
    · intro t ht
      rcases selectUnseen_covers t ht with h2 | ⟨x, hx, he⟩
      · exact hseen12 _ h2
      · rw [← he]
        exact hL2 x hx
    · intro nt hnt
      rcases hcov2 nt hnt with h2 | h2
      · rcases hcov1 nt h2 with h3 | ⟨q, hq, he⟩
        · exact Or.inl h3
        · exact Or.inr ⟨q, hmono2 q hq, he⟩
      · exact Or.inr h2
    · intro q hq
      rcases hprov2 q hq with h2 | h2
      · rcases hprov1 q h2 with h3 | h3
        · exact Or.inl h3
        · exact Or.inr (Or.inl (selectUnseen_subset q h3))
      · exact Or.inr (Or.inr (selectUnseen_subset q h2))

/-! ### A rule pass that derives nothing is the identity -/

theorem runRuleStep_trivialE (E : String → List Stmt → Except String (List Stmt))
    (hE : ∀ q store, E q store = Except.ok [])
    (ctx : InferCtx) (drainFuel : Nat) (rule : String) (st : InferState)
    (ta : Nat) (ch : Bool) (hT : st.workTypes = []) (hP : st.workProps = []) :
    runRuleStep E ctx drainFuel rule st ta ch = .ok (some (st, ta, ch)) := by
  have hpq : processQueues ctx drainFuel (enqueue st (dedupByNT [])) =
      some (st, false) := by
    show processQueuesAux ctx drainFuel st false = some (st, false)
    exact processQueuesAux_empty ctx drainFuel st false hT hP
  simp only [runRuleStep]
  rw [if_neg (getConstructQueryForRule_ne rule)]
  rw [show runRuleOnce E rule st.rdfjsStore = Except.ok [] from hE _ _]
  simp only
  rw [hpq]
  simp only
  rw [if_neg (by omega : ¬0 < st.seen.length - st.seen.length)]

theorem runRules_trivialE (E : String → List Stmt → Except String (List Stmt))
    (hE : ∀ q store, E q store = Except.ok [])
    (ctx : InferCtx) (drainFuel : Nat) :
    ∀ (rs : List String) (st : InferState) (ta : Nat) (ch : Bool),
      st.workTypes = [] → st.workProps = [] →
      runRules E ctx drainFuel rs st ta ch = .ok (some (st, ta, ch)) := by
  intro rs
  induction rs with
  | nil =>
      intro st ta ch _ _
      rw [runRules]
  | cons rule rest ih =>
      intro st ta ch hT hP
      rw [runRules]
      rw [runRuleStep_trivialE E hE ctx drainFuel rule st ta ch hT hP]
      simp only
      exact ih st ta ch hT hP

theorem outerLoop_trivialE (E : String → List Stmt → Except String (List Stmt))
    (hE : ∀ q store, E q store = Except.ok [])
    (ctx : InferCtx) (drainFuel : Nat) (rulesFiltered : List String)
    (fuel : Nat) (st : InferState) (ta : Nat)
    (hT : st.workTypes = []) (hP : st.workProps = []) (hfuel : 0 < fuel) :
    outerLoop E ctx drainFuel rulesFiltered fuel st ta = .ok (some (st, ta)) := by
  cases fuel with
  | zero => omega
  | succ f =>
      rw [outerLoop]
      rw [runRules_trivialE E hE ctx drainFuel rulesFiltered st ta false hT hP]
      simp only
      rw [if_neg (by simp)]

/-! ### `mapFromQuads` has unique keys; lift characterizations -/

theorem mapKeys_mapAdd (a b : String) :
    ∀ M : List (String × List String),
      mapKeys (mapAdd M a b) =
        if a ∈ mapKeys M then mapKeys M else mapKeys M ++ [a] := by
  intro M
  induction M with
  | nil => simp [mapAdd, mapKeys]
  | cons hd tl ih =>
      obtain ⟨k, v⟩ := hd
      by_cases hk : k = a
      · subst hk
        rw [show mapAdd ((k, v) :: tl) k b = (k, setAdd v b) :: tl from by
          rw [mapAdd, if_pos rfl]]
        rw [if_pos (by simp [mapKeys])]
        simp [mapKeys]
      · rw [show mapAdd ((k, v) :: tl) a b = (k, v) :: mapAdd tl a b from by
          rw [mapAdd, if_neg hk]]
        rw [show mapKeys ((k, v) :: mapAdd tl a b) =
          k :: mapKeys (mapAdd tl a b) from rfl]
        rw [ih]
        have hmem : a ∈ mapKeys ((k, v) :: tl) ↔ a ∈ mapKeys tl := by
          simp only [mapKeys, List.map_cons, List.mem_cons]
          constructor
          · rintro (h | h)
            · exact absurd h.symm hk
            · exact h
          · exact Or.inr
        by_cases hm : a ∈ mapKeys tl
        · rw [if_pos hm, if_pos (hmem.mpr hm)]
          rfl
        · rw [if_neg hm, if_neg (fun h => hm (hmem.mp h))]
          rfl

theorem mapFromQuads_keys_nodup (store : List Stmt) (predIRI : String) :
    (mapKeys (mapFromQuads store predIRI)).Nodup := by
  unfold mapFromQuads
  have hgen : ∀ (l : List Stmt) (M : List (String × List String)),
      (mapKeys M).Nodup →
      (mapKeys (l.foldl (fun M q => mapAdd M q.subject.value q.object.value)
        M)).Nodup := by
    intro l
    induction l with
    | nil => intro M h; exact h
    | cons a tl ih =>
        intro M h
        rw [List.foldl_cons]
        apply ih
        rw [mapKeys_mapAdd]
        by_cases hm : a.subject.value ∈ mapKeys M
        · rw [if_pos hm]; exact h
        · rw [if_neg hm]
          exact List.Nodup.append h (List.nodup_singleton _) (by simpa using hm)
  exact hgen _ [] (by simp [mapKeys])

theorem mem_expandProps_single {ctx : InferCtx} {s t : Stmt} :
    t ∈ expandPropsWithClosure ctx [s] ↔
      ∃ sup, sup ∈ closureGet ctx.propSupers s.predicate.value ∧
        isAbsoluteIri sup = true ∧
        t = { subject := s.subject, predicate := Term.namedNode sup,
              object := s.object } := by
  unfold expandPropsWithClosure
  simp only [List.flatMap_cons, List.flatMap_nil, List.append_nil]
  rcases hl : lookupMap ctx.propSupers s.predicate.value with _ | supers
  · simp [closureGet, hl]
  · rw [show closureGet ctx.propSupers s.predicate.value = supers from by
      rw [closureGet, hl]; rfl]
    simp only [List.mem_map, List.mem_filter]
    constructor
    · rintro ⟨sup, ⟨hmem, habs⟩, rfl⟩
      exact ⟨sup, hmem, habs, rfl⟩
    · rintro ⟨sup, hmem, habs, rfl⟩
      exact ⟨sup, ⟨hmem, habs⟩, rfl⟩

theorem mem_expandTypes_single {ctx : InferCtx} {s t : Stmt} :
    t ∈ expandTypesWithClosure ctx [s] ↔
      ∃ sup, sup ∈ closureGet ctx.classSupers s.object.value ∧
        isAbsoluteIri sup = true ∧
        t = { subject := s.subject, predicate := Term.namedNode RDF_TYPE,
              object := Term.namedNode sup } := by
  unfold expandTypesWithClosure
  simp only [List.flatMap_cons, List.flatMap_nil, List.append_nil]
  rcases hl : lookupMap ctx.classSupers s.object.value with _ | supers
  · simp [closureGet, hl]
  · rw [show closureGet ctx.classSupers s.object.value = supers from by
      rw [closureGet, hl]; rfl]
    simp only [List.mem_map, List.mem_filter]
    constructor
    · rintro ⟨sup, ⟨hmem, habs⟩, rfl⟩
      exact ⟨sup, hmem, habs, rfl⟩
    · rintro ⟨sup, hmem, habs, rfl⟩
      exact ⟨sup, ⟨hmem, habs⟩, rfl⟩

theorem goodStmtB_mk {v1 v2 v3 : String}
    (ha1 : isAbsoluteIri v1 = true) (hn1 : normalizeIriString v1 = v1)
    (ha2 : isAbsoluteIri v2 = true) (hn2 : normalizeIriString v2 = v2)
    (ha3 : isAbsoluteIri v3 = true) (hn3 : normalizeIriString v3 = v3) :
    goodStmtB { subject := Term.namedNode v1, predicate := Term.namedNode v2,
                object := Term.namedNode v3 } = true := by
  simp [goodStmtB, goodTermB, ha1, hn1, ha2, hn2, ha3, hn3]

theorem rdf_type_good :
    isAbsoluteIri RDF_TYPE = true ∧ normalizeIriString RDF_TYPE = RDF_TYPE := by
  constructor
  · decide
  · rfl

theorem expandProps_single_good {ctx : InferCtx} {s t : Stmt}
    (hs : goodStmtB s = true)
    (hstable : ∀ sup ∈ closureGet ctx.propSupers s.predicate.value,
      normalizeIriString sup = sup)
    (ht : t ∈ expandPropsWithClosure ctx [s]) : goodStmtB t = true := by
  obtain ⟨sup, hmem, habs, rfl⟩ := mem_expandProps_single.mp ht
  obtain ⟨v1, v2, v3, heq, ha1, hn1, _, _, ha3, hn3⟩ := goodStmtB_elim hs
  have hsub : s.subject = Term.namedNode v1 := by rw [heq]
  have hobj : s.object = Term.namedNode v3 := by rw [heq]
  rw [hsub, hobj]
  exact goodStmtB_mk ha1 hn1 habs (hstable sup hmem) ha3 hn3

theorem expandTypes_single_good {ctx : InferCtx} {s t : Stmt}
    (hs : goodStmtB s = true)
    (hstable : ∀ sup ∈ closureGet ctx.classSupers s.object.value,
      normalizeIriString sup = sup)
    (ht : t ∈ expandTypesWithClosure ctx [s]) : goodStmtB t = true := by
  obtain ⟨sup, hmem, habs, rfl⟩ := mem_expandTypes_single.mp ht
  obtain ⟨v1, v2, v3, heq, ha1, hn1, _, _, _, _⟩ := goodStmtB_elim hs
  have hsub : s.subject = Term.namedNode v1 := by rw [heq]
  rw [hsub]
  exact goodStmtB_mk ha1 hn1 rdf_type_good.1 rdf_type_good.2 habs
    (hstable sup hmem)

theorem overlayToGraph_good {l : List Stmt}
    (h : ∀ q ∈ l, goodStmtB q = true) : overlayToGraph l = l := by
  unfold overlayToGraph
  induction l with
  | nil => rfl
  | cons a tl ih =>
      rw [List.map_cons, overlayConvBack_good (h a (List.mem_cons_self _ _)),
        ih (fun q hq => h q (List.mem_cons_of_mem _ hq))]

/-! ### A run over an already-closed store is the identity -/

theorem dedupByNT_subset {l : List Stmt} : ∀ x ∈ dedupByNT l, x ∈ l := by
  have hgen : ∀ (m : List Stmt) (acc : List String × List Stmt),
      ∀ x ∈ (m.foldl
        (fun (acc : List String × List Stmt) s =>
          let nt := s.toNT
          if s.toNT ∈ acc.1 then acc else (acc.1 ++ [nt], acc.2 ++ [s]))
        acc).2,
      x ∈ acc.2 ∨ x ∈ m := by
    intro m
    induction m with
    | nil => intro acc x hx; exact Or.inl hx
    | cons a tl ih =>
        intro acc x hx
        rw [List.foldl_cons] at hx
        rcases ih _ x hx with h | h
        · by_cases h1 : a.toNT ∈ acc.1
          · rw [if_pos h1] at h
            exact Or.inl h
          · rw [if_neg h1] at h
            rcases List.mem_append.mp h with h2 | h2
            · exact Or.inl h2
            · exact Or.inr (List.mem_cons.mpr
                (Or.inl (List.mem_singleton.mp h2)))
        · exact Or.inr (List.mem_cons_of_mem _ h)
  intro x hx
  rcases hgen l ([], []) x hx with h | h
  · simp at h
  · exact h

theorem enqueue_all_seen (st : InferState) :
    ∀ (L : List Stmt), (∀ s ∈ L, s.toNT ∈ st.seen) → enqueue st L = st := by
  intro L
  induction L with
  | nil => intro _; rfl
  | cons a tl ih =>
      intro h
      show enqueue (enqueueStep st a) tl = st
      rw [enqueueStep_of_seen (h a (List.mem_cons_self _ _))]
      exact ih (fun s hs => h s (List.mem_cons_of_mem _ hs))

theorem runRules_id (E : String → List Stmt → Except String (List Stmt))
    (ctx : InferCtx) (drainFuel : Nat) :
    ∀ (rs : List String) (st : InferState) (ta : Nat) (ch : Bool),
      (∀ rule ∈ rs, ∀ (ta2 : Nat) (ch2 : Bool),
        runRuleStep E ctx drainFuel rule st ta2 ch2 =
          .ok (some (st, ta2, ch2))) →
      runRules E ctx drainFuel rs st ta ch = .ok (some (st, ta, ch)) := by
  intro rs
  induction rs with
  | nil =>
      intro st ta ch _
      rw [runRules]
  | cons rule rest ih =>
      intro st ta ch h
      rw [runRules, h rule (List.mem_cons_self _ _) ta ch]
      simp only
      exact ih st ta ch (fun r hr => h r (List.mem_cons_of_mem _ hr))

/-! ### The concrete rule-driven witness run for amended C3 -/

theorem c3w_ctx1_eq : buildCtx (initState c3wBase).rdfjsStore = c3wCtx := by
  have hSP0 : mapFromQuads (initState c3wBase).rdfjsStore RDFS_SP =
      [("urn:p", ["urn:q"])] := by decide
  have hSP : transitiveClosure (mapFromQuads (initState c3wBase).rdfjsStore
      RDFS_SP) = [("urn:p", ["urn:q"])] := by
    rw [hSP0]
    show [("urn:p", closureDFS [("urn:p", ["urn:q"])]
      (List.reverse ["urn:q"]) [])] = _
    rw [show List.reverse ["urn:q"] = ["urn:q"] from rfl]
    rw [closureDFS]
    simp only [List.mem_nil_iff, dite_false]
    rw [show lookupMap [("urn:p", ["urn:q"])] "urn:q" = none from by decide]
    rw [closureDFS]
  have hSC0 : mapFromQuads (initState c3wBase).rdfjsStore RDFS_SC =
      [("urn:C", ["urn:D"])] := by decide
  have hSC : transitiveClosure (mapFromQuads (initState c3wBase).rdfjsStore
      RDFS_SC) = [("urn:C", ["urn:D"])] := by
    rw [hSC0]
    show [("urn:C", closureDFS [("urn:C", ["urn:D"])]
      (List.reverse ["urn:D"]) [])] = _
    rw [show List.reverse ["urn:D"] = ["urn:D"] from rfl]
    rw [closureDFS]
    simp only [List.mem_nil_iff, dite_false]
    rw [show lookupMap [("urn:C", ["urn:D"])] "urn:D" = none from by decide]
    rw [closureDFS]
  simp only [buildCtx]
  rw [hSP, hSC]
  decide

theorem c3w_ctx2_eq :
    buildCtx (initState (c3wBase ++ c3wR1.overlayGraph)).rdfjsStore =
      c3wCtx := by
  have hSP0 : mapFromQuads
      (initState (c3wBase ++ c3wR1.overlayGraph)).rdfjsStore RDFS_SP =
      [("urn:p", ["urn:q"])] := by decide
  have hSP : transitiveClosure (mapFromQuads
      (initState (c3wBase ++ c3wR1.overlayGraph)).rdfjsStore RDFS_SP) =
      [("urn:p", ["urn:q"])] := by
    rw [hSP0]
    show [("urn:p", closureDFS [("urn:p", ["urn:q"])]
      (List.reverse ["urn:q"]) [])] = _
    rw [show List.reverse ["urn:q"] = ["urn:q"] from rfl]
    rw [closureDFS]
    simp only [List.mem_nil_iff, dite_false]
    rw [show lookupMap [("urn:p", ["urn:q"])] "urn:q" = none from by decide]
    rw [closureDFS]
  have hSC0 : mapFromQuads
      (initState (c3wBase ++ c3wR1.overlayGraph)).rdfjsStore RDFS_SC =
      [("urn:C", ["urn:D"])] := by decide
  have hSC : transitiveClosure (mapFromQuads
      (initState (c3wBase ++ c3wR1.overlayGraph)).rdfjsStore RDFS_SC) =
      [("urn:C", ["urn:D"])] := by
    rw [hSC0]
    show [("urn:C", closureDFS [("urn:C", ["urn:D"])]
      (List.reverse ["urn:D"]) [])] = _
    rw [show List.reverse ["urn:D"] = ["urn:D"] from rfl]
    rw [closureDFS]
    simp only [List.mem_nil_iff, dite_false]
    rw [show lookupMap [("urn:C", ["urn:D"])] "urn:D" = none from by decide]
    rw [closureDFS]
  simp only [buildCtx]
  rw [hSP, hSC]
  decide

theorem c3w_seed_eq : seedPhase c3wCtx (initState c3wBase) = .ok c3wSt1 := by
  rfl

theorem c3w_run1_eq :
    inferUntilStable (fun _ _ => Except.ok [c3we]) ["inverse"] c3wBase 2 3 =
      .ok (some c3wR1) := by
  simp only [inferUntilStable]
  rw [c3w_ctx1_eq, c3w_seed_eq]
  rfl

/-- Claim C3 (amended): running the algorithm a second time on the
union of the original input and the first run's overlay produces an
empty second overlay — final state equal to the union's initial state,
`totalAdded` zero — provided the union is actually closed in the three
ways the first run's frozen-index design assumes: (i) rebuilding the
frozen TBox indices over the union yields the indices of the original
input (the overlay does not extend the frozen hierarchy; the
accompanying counterexample shows this proviso is necessary — without
it the second overlay can be non-empty, refuting the claim as stated);
(ii) every class/property closure lift of a union statement under those
frozen indices is already keyed in the union's seen index; and (iii) at
the union store, evaluating each configured rule succeeds and returns
only statements already keyed in the union — which is exactly what the
`FILTER NOT EXISTS` clause built into every catalogue CONSTRUCT query
yields on a conforming engine.  The evaluator and the rule list are
otherwise arbitrary: the first run may derive and materialize arbitrary
rule-driven statements, with blank-node and literal terms. -/
theorem C3_fixpoint_amended (E : String → List Stmt → Except String (List Stmt))
    (rules : List String) (base : List Stmt) (drainFuel outerFuel : Nat)
    (r1 : InferResult)
    (hrun1 : inferUntilStable E rules base drainFuel outerFuel = .ok (some r1))
    (hctx : buildCtx (initState (base ++ r1.overlayGraph)).rdfjsStore =
      buildCtx (initState base).rdfjsStore)
    (hliftP : ∀ t ∈ expandPropsWithClosure
        (buildCtx (initState base).rdfjsStore)
        ((base ++ r1.overlayGraph).filter
          (fun q => decide (¬q.predicate.value = RDF_TYPE))),
      t.toNT ∈ ntSetOf (base ++ r1.overlayGraph))
    (hliftT : ∀ t ∈ expandTypesWithClosure
        (buildCtx (initState base).rdfjsStore)
        ((base ++ r1.overlayGraph).filter
          (fun q => decide (q.predicate.value = RDF_TYPE))),
      t.toNT ∈ ntSetOf (base ++ r1.overlayGraph))
    (hEfix : ∀ rule ∈ rulesFilteredOf rules, ∃ l,
      E (getConstructQueryForRule rule)
          (initState (base ++ r1.overlayGraph)).rdfjsStore = .ok l ∧
        ∀ s ∈ l, s.toNT ∈ ntSetOf (base ++ r1.overlayGraph))
    (hfuel : 0 < outerFuel) :
    inferUntilStable E rules (base ++ r1.overlayGraph) drainFuel outerFuel =
      .ok (some { finalState := initState (base ++ r1.overlayGraph),
                  overlayGraph := [], totalAdded := 0 }) := by
  have hseed2 : seedPhase (buildCtx (initState base).rdfjsStore)
      (initState (base ++ r1.overlayGraph)) =
      .ok (initState (base ++ r1.overlayGraph)) := by
    have hbg2 : (initState (base ++ r1.overlayGraph)).baseGraph =
      base ++ r1.overlayGraph := rfl
    have hsn2 : (initState (base ++ r1.overlayGraph)).seen =
      ntSetOf (base ++ r1.overlayGraph) := rfl
    simp only [seedPhase, hbg2, hsn2]
    rw [selectUnseen_all_seen (fun s hs => hliftP s hs)]
    rw [seedApplyAll]
    simp only [hsn2]
    rw [selectUnseen_all_seen (fun s hs => hliftT s hs)]
    rw [seedApplyAll]
  have hstep : ∀ rule ∈ rulesFilteredOf rules, ∀ (ta : Nat) (ch : Bool),
      runRuleStep E (buildCtx (initState base).rdfjsStore) drainFuel rule
        (initState (base ++ r1.overlayGraph)) ta ch =
      .ok (some (initState (base ++ r1.overlayGraph), ta, ch)) := by
    intro rule hmem ta ch
    obtain ⟨l, hEl, hcovl⟩ := hEfix rule hmem
    simp only [runRuleStep]
    rw [if_neg (getConstructQueryForRule_ne rule)]
    rw [show runRuleOnce E rule
      (initState (base ++ r1.overlayGraph)).rdfjsStore = .ok l from hEl]
    simp only
    rw [enqueue_all_seen _ _ (fun s hs => hcovl s (dedupByNT_subset s hs))]
    rw [show processQueues (buildCtx (initState base).rdfjsStore) drainFuel
      (initState (base ++ r1.overlayGraph)) =
        some (initState (base ++ r1.overlayGraph), false) from
      processQueuesAux_empty _ drainFuel _ false rfl rfl]
    simp only
    rw [if_neg (by omega :
      ¬0 < (initState (base ++ r1.overlayGraph)).seen.length -
        (initState (base ++ r1.overlayGraph)).seen.length)]
  simp only [inferUntilStable]
  rw [hctx, hseed2]
  simp only
  cases outerFuel with
  | zero => omega
  | succ f =>
      rw [outerLoop]
      rw [runRules_id E (buildCtx (initState base).rdfjsStore) drainFuel
        (rulesFilteredOf rules) (initState (base ++ r1.overlayGraph)) 0 false
        hstep]
      rfl

/-- Witness for the amended C3: a rule-driven run on a base with both a
property edge and a class edge.  The seed lifts two statements, the
`inverse` rule materializes a blank-subject, literal-object statement
(`totalAdded = 1`), the union of the input and the three-statement
overlay leaves the frozen indices unchanged and is closed under the
frozen lifts and under the rule, and the second run on the union
materializes nothing. -/
theorem C3_amended_witness :
    inferUntilStable (fun _ _ => Except.ok [c3we]) ["inverse"] c3wBase 2 3 =
      .ok (some c3wR1) ∧
      buildCtx (initState (c3wBase ++ c3wR1.overlayGraph)).rdfjsStore =
        buildCtx (initState c3wBase).rdfjsStore ∧
      (∀ t ∈ expandPropsWithClosure (buildCtx (initState c3wBase).rdfjsStore)
          ((c3wBase ++ c3wR1.overlayGraph).filter
            (fun q => decide (¬q.predicate.value = RDF_TYPE))),
        t.toNT ∈ ntSetOf (c3wBase ++ c3wR1.overlayGraph)) ∧
      (∀ t ∈ expandTypesWithClosure (buildCtx (initState c3wBase).rdfjsStore)
          ((c3wBase ++ c3wR1.overlayGraph).filter
            (fun q => decide (q.predicate.value = RDF_TYPE))),
        t.toNT ∈ ntSetOf (c3wBase ++ c3wR1.overlayGraph)) ∧
      (∀ rule ∈ rulesFilteredOf ["inverse"], ∃ l,
        (fun (_ : String) (_ : List Stmt) =>
            (Except.ok [c3we] : Except String (List Stmt)))
            (getConstructQueryForRule rule)
            (initState (c3wBase ++ c3wR1.overlayGraph)).rdfjsStore =
          Except.ok l ∧
          ∀ s ∈ l, s.toNT ∈ ntSetOf (c3wBase ++ c3wR1.overlayGraph)) ∧
      inferUntilStable (fun _ _ => Except.ok [c3we]) ["inverse"]
          (c3wBase ++ c3wR1.overlayGraph) 2 3 =
        .ok (some { finalState := initState (c3wBase ++ c3wR1.overlayGraph),
                    overlayGraph := [], totalAdded := 0 }) := by
  have hliftP : ∀ t ∈ expandPropsWithClosure
      (buildCtx (initState c3wBase).rdfjsStore)
      ((c3wBase ++ c3wR1.overlayGraph).filter
        (fun q => decide (¬q.predicate.value = RDF_TYPE))),
      t.toNT ∈ ntSetOf (c3wBase ++ c3wR1.overlayGraph) := by
    rw [c3w_ctx1_eq]
    decide
  have hliftT : ∀ t ∈ expandTypesWithClosure
      (buildCtx (initState c3wBase).rdfjsStore)
      ((c3wBase ++ c3wR1.overlayGraph).filter
        (fun q => decide (q.predicate.value = RDF_TYPE))),
      t.toNT ∈ ntSetOf (c3wBase ++ c3wR1.overlayGraph) := by
    rw [c3w_ctx1_eq]
    decide
  have hEfix : ∀ rule ∈ rulesFilteredOf ["inverse"], ∃ l,
      (fun (_ : String) (_ : List Stmt) =>
          (Except.ok [c3we] : Except String (List Stmt)))
          (getConstructQueryForRule rule)
          (initState (c3wBase ++ c3wR1.overlayGraph)).rdfjsStore =
        Except.ok l ∧
        ∀ s ∈ l, s.toNT ∈ ntSetOf (c3wBase ++ c3wR1.overlayGraph) :=
    fun rule _ => ⟨[c3we], rfl, by decide⟩
  refine ⟨c3w_run1_eq, c3w_ctx2_eq.trans c3w_ctx1_eq.symm, hliftP, hliftT,
    hEfix, ?_⟩
  exact C3_fixpoint_amended (fun _ _ => Except.ok [c3we]) ["inverse"] c3wBase
    2 3 c3wR1 c3w_run1_eq (c3w_ctx2_eq.trans c3w_ctx1_eq.symm) hliftP hliftT
    hEfix (by decide)

end Axiolotl
